import Mathlib

set_option maxRecDepth 4000

/-!
Shallow embedding of the obsidian-moments text-format engine
(`src/storage/momentsFormat.ts`, `src/utils/id.ts`, `src/utils/time.ts`).

JavaScript strings are modelled as `List Char` (one element per UTF-16 code
unit; every input considered here is plain ASCII, where the two notions of
offset coincide).  Offsets into a string are list indices.  The moment.js
library and the impure primitives `Math.random`/`Date.now` are external to
the repository; they are modelled as explicit parameters (`MomentLib`,
`Oracle`) threaded through the definitions.
-/

namespace Moments

/-- JS string = list of UTF-16 code units. -/
abbrev Str := List Char

/-- Helper to write `Str` literals. -/
def S (s : String) : Str := s.toList

/-- The whitespace class used by JS `trim` / regex `\s` (ASCII part;
all inputs considered are ASCII). -/
def isWsChar (c : Char) : Bool :=
  c = ' ' || c = '\t' || c = '\n' || c = '\r' || c = '\x0b' || c = '\x0c'

/-- JS `String.prototype.trimStart`. -/
def trimStartJs (s : Str) : Str := s.dropWhile isWsChar

/-- JS `String.prototype.trimEnd`. -/
def trimEndJs (s : Str) : Str := (s.reverse.dropWhile isWsChar).reverse

/-- JS `String.prototype.trim`. -/
def trimJs (s : Str) : Str := trimEndJs (trimStartJs s)

/-- JS `text.split("\n")`.  `""` splits to `[""]`. -/
def splitNl : Str → List Str
  | [] => [[]]
  | c :: cs =>
    if c = '\n' then [] :: splitNl cs
    else
      match splitNl cs with
      | l :: ls => (c :: l) :: ls
      | [] => [[c]]

/-- JS `lines.join("\n")`. -/
def joinNl : List Str → Str
  | [] => []
  | [l] => l
  | l :: ls => l ++ '\n' :: joinNl ls

/-- JS `s.substring(a, b)` for non-negative arguments (swaps and clamps). -/
def substringJs (s : Str) (a b : Nat) : Str :=
  (s.drop (min a b)).take (max a b - min a b)

/-- JS `s.substring(a)` for non-negative `a`. -/
def substringFrom (s : Str) (a : Nat) : Str := s.drop a

/-! ## `src/utils/id.ts` -/

/-- The character class `[a-z0-9]` of the block-id regexes. -/
def isLowerNum (c : Char) : Bool :=
  ('a' ≤ c && c ≤ 'z') || ('0' ≤ c && c ≤ '9')

/-- Splits off the maximal trailing run of `[a-z0-9]` characters:
`s = rest ++ run`. -/
def splitTrailingRun (s : Str) : Str × Str :=
  ((s.reverse.dropWhile isLowerNum).reverse, (s.reverse.takeWhile isLowerNum).reverse)

/--
`extractBlockId` (`id.ts`): the regex `/\^(m-[a-z0-9]+)\s*$/` matched against
a line.  A match exists iff after stripping trailing whitespace the line ends
in `^m-` followed by a nonempty `[a-z0-9]` run; the capture is `m-` + run.
(The regex's `[a-z0-9]+` necessarily grabs the maximal trailing run, since
the preceding character must be the literal `-`.)
-/
def extractBlockId (line : Str) : Option Str :=
  let pr := splitTrailingRun (trimEndJs line)
  if pr.2 ≠ [] ∧ (S "^m-").isSuffixOf pr.1 then
    some ('m' :: '-' :: pr.2)
  else
    none

/--
`lastLine.replace(/\s*\^m-[a-z0-9]+\s*$/, "")`: removes the trailing
block-id marker together with the whitespace around it (leftmost match of
the regex starts at the whitespace run immediately before the caret).
If the regex does not match, the line is returned unchanged.
-/
def stripMarkerSuffix (line : Str) : Str :=
  let pr := splitTrailingRun (trimEndJs line)
  if pr.2 ≠ [] ∧ (S "^m-").isSuffixOf pr.1 then
    trimEndJs (pr.1.take (pr.1.length - 3))
  else
    line

/-- A whole (already trimmed) line matching `/^\^(m-[a-z0-9]+)$/`. -/
def parseOwnLineMarker (l : Str) : Option Str :=
  match l with
  | '^' :: 'm' :: '-' :: rest =>
    if rest ≠ [] ∧ rest.all isLowerNum then some ('m' :: '-' :: rest) else none
  | _ => none

/-- Drop trailing lines whose trim is empty. -/
def popTrailingBlanks (ls : List Str) : List Str :=
  (ls.reverse.dropWhile (fun l => (trimJs l).isEmpty)).reverse

/--
`stripBlockIdFromContent` (`id.ts`): first tries the inline regex
`/\s*\^(m-[a-z0-9]+)\s*$/` against the whole content (note `\s` also matches
newlines, `$` is end of the whole string); otherwise checks whether the last
line, trimmed, is exactly a standalone marker; otherwise returns the trimmed
content with no id.  Returns `(content, blockId)`.
-/
def stripBlockIdFromContent (content : Str) : Str × Option Str :=
  let pr := splitTrailingRun (trimEndJs content)
  if pr.2 ≠ [] ∧ (S "^m-").isSuffixOf pr.1 then
    (trimJs (pr.1.take (pr.1.length - 3)), some ('m' :: '-' :: pr.2))
  else
    let lines := splitNl content
    let lastLine := trimJs ((lines.getLast?).getD [])
    match parseOwnLineMarker lastLine with
    | some bid =>
      (trimJs (joinNl (popTrailingBlanks lines.dropLast)), some bid)
    | none => (trimJs content, none)

/-! ## External-world parameters

`moment(str, format, true)` (strict parsing), `moment(ts).format(format)`,
`Math.random` and `Date.now` live outside the repository.  They are modelled
as parameters: `MomentLib` for the moment.js calls, `Oracle` for the random
id generator and the clock.  `Oracle.genId existing` stands for one call of
`generateBlockId(existingIds)` (`id.ts`): the code retries random ids
against the exclusion set, so freshness (`genId s ∉ s`) is stated as a
hypothesis where a claim needs it, never assumed globally. -/

/-- Model of the moment.js calls used by the engine. -/
structure MomentLib where
  /-- `moment(str, format, true).isValid() ? .valueOf() : null`. -/
  parse : Str → Str → Option Int
  /-- `moment(ts).format(format)`. -/
  format : Int → Str → Str

/-- Model of `generateBlockId` (randomness) and `Date.now()`. -/
structure Oracle where
  genId : List Str → Str
  nowv : Int

/-! ## `src/utils/time.ts` -/

/-- Index of the first `']'` reachable without crossing a newline
(JS `.` in `/\[.*?\]/` does not match `\n`). -/
def findClose : Str → Option Nat
  | [] => none
  | ']' :: _ => some 0
  | '\n' :: _ => none
  | _ :: r => (findClose r).map (· + 1)

/-- `format.replace(/\[.*?\]/g, "")`: delete each bracketed literal section
(fuel-indexed structural recursion; `fuel = s.length` always suffices since
every step consumes at least one character). -/
def stripBracketsAux : Nat → Str → Str
  | 0, _ => []
  | _ + 1, [] => []
  | fuel + 1, c :: rest =>
    if c = '[' then
      match findClose rest with
      | some i => stripBracketsAux fuel (rest.drop (i + 1))
      | none => '[' :: stripBracketsAux fuel rest
    else c :: stripBracketsAux fuel rest

/-- `format.replace(/\[.*?\]/g, "")`. -/
def stripBrackets (s : Str) : Str := stripBracketsAux s.length s

/-- One candidate prefix length of the timestamp search:
`moment(text.substring(0, len).trim(), format, true)`; on success the
remainder is `text.substring(len).trimStart()`. -/
def etpTry (M : MomentLib) (text fmt : Str) (len : Int) : Option (Int × Str) :=
  match M.parse (trimJs (text.take len.toNat)) fmt with
  | some t => some (t, trimStartJs (text.drop len.toNat))
  | none => none

/-- The decreasing-length loop of `extractTimestampPrefix`:
tries `len, len-1, …` while `len ≥ lo` (fuel bounds the iteration count). -/
def etpSearch (M : MomentLib) (text fmt : Str) (lo : Int) : Int → Nat → Option (Int × Str)
  | _, 0 => none
  | len, fuel + 1 =>
    if len < lo then none
    else
      match etpTry M text fmt len with
      | some r => some r
      | none => etpSearch M text fmt lo (len - 1) fuel

/-- The effective format length: `format.replace(/\[.*?\]/g, "").length`. -/
def fmtLength (fmt : Str) : Int := (stripBrackets fmt).length

/--
`extractTimestampPrefix` (`time.ts`): tries prefix lengths from
`min(formatLength + 5, text.length)` down to `formatLength - 2`, accepting
the first strict-mode parse success; on failure returns `(null, text)`.
-/
def extractTimestampPrefix (M : MomentLib) (text fmt : Str) : Option Int × Str :=
  let L := fmtLength fmt
  let hi : Int := min (L + 5) (text.length : Int)
  match etpSearch M text fmt (L - 2) hi (hi - (L - 2)).toNat.succ with
  | some (t, r) => (some t, r)
  | none => (none, text)

/-- `formatTimestamp` (`time.ts`). -/
def formatTimestamp (M : MomentLib) (ts : Int) (fmt : Str) : Str := M.format ts fmt

/-! ## Data model (`src/types.ts`) -/

/-- Frontmatter values after the basic type coercion of `parseFrontmatter`. -/
inductive FmVal where
  | b (v : Bool)
  | n (v : Nat)
  | s (v : Str)
deriving Repr, DecidableEq

/-- `MomentEntry` (`types.ts`). -/
structure MomentEntry where
  id : Str
  createdAt : Int
  raw : Str
  rawWithPrefix : Str
  idMissing : Bool
deriving Repr, DecidableEq

/-- `EntrySpan` (`types.ts`): `start` inclusive, `end` exclusive
(the field is named `endOff` because `end` is reserved in Lean). -/
structure EntrySpan where
  id : Str
  start : Nat
  endOff : Nat
deriving Repr, DecidableEq

/-- A parse diagnostic (`{message, context?}`). -/
structure ParseError where
  message : Str
  context : Option Str
deriving Repr, DecidableEq

/-- `ParsedMomentsDoc` (`types.ts`).  The JS `Map` of spans is modelled as
an insertion-ordered association list (see `mapSet`). -/
structure ParsedMomentsDoc where
  frontmatter : List (Str × FmVal)
  entries : List MomentEntry
  archiveEntries : List MomentEntry
  errors : List ParseError
  originalText : Str
  spans : List EntrySpan
  archiveStartOffset : Int
deriving Repr, DecidableEq

/-- JS `Map.prototype.set`: update in place if the key exists (keeping
insertion order), else append. -/
def mapSet (m : List EntrySpan) (sp : EntrySpan) : List EntrySpan :=
  if m.any (fun e => e.id = sp.id) then
    m.map (fun e => if e.id = sp.id then sp else e)
  else
    m ++ [sp]

/-! ## The parser (`momentsFormat.ts`) -/

/-- Regex `/^- /`. -/
def isListItem (l : Str) : Bool := (S "- ").isPrefixOf l

/-- Regex `/^---\s*$/`. -/
def isFmBoundary (l : Str) : Bool :=
  match l with
  | '-' :: '-' :: '-' :: rest => rest.all isWsChar
  | _ => false

/-- `/^\d+$/`. -/
def isAllDigits (s : Str) : Bool := s ≠ [] && s.all (fun c => '0' ≤ c && c ≤ '9')

/-- `parseInt(s, 10)` for an all-digit string. -/
def digitsToNat (s : Str) : Nat :=
  s.foldl (fun acc c => acc * 10 + (c.toNat - '0'.toNat)) 0

/-- JS object property assignment `result[key] = value` on a model where the
object is an insertion-ordered association list. -/
def recordSet (m : List (Str × FmVal)) (key : Str) (v : FmVal) : List (Str × FmVal) :=
  if m.any (fun p => p.1 = key) then
    m.map (fun p => if p.1 = key then (key, v) else p)
  else
    m ++ [(key, v)]

/-- `line.indexOf(":")`. -/
def idxOfColon (l : Str) : Int :=
  match l.findIdx? (fun c => c = ':') with
  | some i => (i : Int)
  | none => -1

/-- `parseFrontmatter` (`momentsFormat.ts`): flat `key: value` lines with
boolean/integer coercion; lines with no colon at index > 0 are ignored. -/
def parseFrontmatter (content : Str) : List (Str × FmVal) :=
  (splitNl content).foldl
    (fun result line =>
      let ci := idxOfColon line
      if ci > 0 then
        let key := trimJs (line.take ci.toNat)
        let value := trimJs (line.drop (ci.toNat + 1))
        let v : FmVal :=
          if value = S "true" then .b true
          else if value = S "false" then .b false
          else if isAllDigits value then .n (digitsToNat value)
          else .s value
        recordSet result key v
      else result)
    []

/-- The in-progress entry block of the scan (`currentEntry`). -/
structure RawEntry where
  lines : List Str
  startOffset : Nat
  endOffset : Nat
deriving Repr, DecidableEq

/-- The last-line identity-marker check of `finalizeEntry`: drop the whole
last line when it is a standalone marker (then trim trailing blank lines),
else strip the marker suffix.  Returns `(blockId?, contentLines)`. -/
def stripLastLineMarker (lines : List Str) : Option Str × List Str :=
  match lines.getLast? with
  | some lastLine =>
    match extractBlockId lastLine with
    | some extractedId =>
      if trimJs lastLine = '^' :: extractedId then
        (some extractedId, popTrailingBlanks lines.dropLast)
      else
        (some extractedId, lines.dropLast ++ [stripMarkerSuffix lastLine])
    | none => (none, lines)
  | none => (none, lines)

/--
`finalizeEntry` (`momentsFormat.ts`): strips the identity marker from the
last line (whole line if standalone, suffix otherwise), discards
whitespace-only blocks, runs `stripBlockIdFromContent` as a safety net,
extracts the timestamp prefix, synthesizes a missing id, and registers the
span.  Returns `(entry?, spans, errors)`.
-/
def finalizeEntry (raw : RawEntry) (fmt : Str)
    (spans : List EntrySpan) (errors : List ParseError)
    (M : MomentLib) (O : Oracle) :
    Option MomentEntry × List EntrySpan × List ParseError :=
  if raw.lines = [] then (none, spans, errors) else
  let step1 : Option Str × List Str := stripLastLineMarker raw.lines
  let blockId0 := step1.1
  let contentLines := step1.2
  let rawWithPrefix0 := joinNl contentLines
  if trimJs rawWithPrefix0 = [] then (none, spans, errors) else
  let stripped := stripBlockIdFromContent rawWithPrefix0
  let blockId1 : Option Str :=
    match blockId0 with
    | some b => some b
    | none => stripped.2
  let rawWithPrefix : Str := if stripped.1 ≠ [] then stripped.1 else rawWithPrefix0
  let etp := extractTimestampPrefix M rawWithPrefix fmt
  let timestamp := etp.1
  let remainingText := etp.2
  let strippedRemaining := stripBlockIdFromContent remainingText
  let cleanRaw : Str :=
    if strippedRemaining.1 ≠ [] then strippedRemaining.1
    else if remainingText ≠ [] then remainingText
    else rawWithPrefix
  let idMissing := blockId1.isNone
  let bid : Str :=
    match blockId1 with
    | some b => b
    | none => O.genId (spans.map (fun sp => sp.id))
  let entry : MomentEntry :=
    { id := bid
      createdAt := timestamp.getD O.nowv
      raw := cleanRaw
      rawWithPrefix := rawWithPrefix
      idMissing := idMissing }
  let spans' := mapSet spans ⟨bid, raw.startOffset, raw.endOffset⟩
  let errors' :=
    if idMissing then
      errors ++ [⟨S "Entry missing block id, assigned: " ++ bid,
                  some (rawWithPrefix.take 50)⟩]
    else errors
  (some entry, spans', errors')

/-- The mutable state of the single forward scan of `parseMomentsDoc`. -/
structure ScanState where
  frontmatter : List (Str × FmVal)
  entries : List MomentEntry
  archiveEntries : List MomentEntry
  errors : List ParseError
  spans : List EntrySpan
  archiveStartOffset : Int
  inFrontmatter : Bool
  frontmatterStarted : Bool
  frontmatterContent : Str
  inArchive : Bool
  currentEntry : Option RawEntry
  lineOffset : Nat
deriving Repr, DecidableEq

/-- The initial scan state of `parseMomentsDoc`. -/
def initState : ScanState :=
  { frontmatter := []
    entries := []
    archiveEntries := []
    errors := []
    spans := []
    archiveStartOffset := -1
    inFrontmatter := false
    frontmatterStarted := false
    frontmatterContent := []
    inArchive := false
    currentEntry := none
    lineOffset := 0 }

/-- Finalize the pending entry (if any) and push it to `entries`
(used at the archive separator, which always pushes to `entries`). -/
def finalizePendingToEntries (fmt : Str) (M : MomentLib) (O : Oracle)
    (st : ScanState) : ScanState :=
  match st.currentEntry with
  | none => st
  | some ce =>
    let r := finalizeEntry ce fmt st.spans st.errors M O
    { st with
      entries := st.entries ++ (match r.1 with | some e => [e] | none => [])
      spans := r.2.1
      errors := r.2.2
      currentEntry := none }

/-- Finalize the pending entry (if any) and push it to `archiveEntries` when
`inArchive`, else to `entries`. -/
def finalizePendingRouted (fmt : Str) (M : MomentLib) (O : Oracle)
    (st : ScanState) : ScanState :=
  match st.currentEntry with
  | none => st
  | some ce =>
    let r := finalizeEntry ce fmt st.spans st.errors M O
    let pushed := match r.1 with | some e => [e] | none => []
    { st with
      entries := if st.inArchive then st.entries else st.entries ++ pushed
      archiveEntries :=
        if st.inArchive then st.archiveEntries ++ pushed else st.archiveEntries
      spans := r.2.1
      errors := r.2.2
      currentEntry := none }

/-- One iteration of the `for` loop of `parseMomentsDoc` (one line). -/
def scanStep (fmt : Str) (M : MomentLib) (O : Oracle)
    (st : ScanState) (line : Str) : ScanState :=
  let lineStart := st.lineOffset
  let lineEnd := st.lineOffset + line.length
  if isFmBoundary line ∧ ¬st.frontmatterStarted then
    { st with frontmatterStarted := true, inFrontmatter := true,
              lineOffset := lineEnd + 1 }
  else if isFmBoundary line ∧ st.inFrontmatter then
    { st with inFrontmatter := false,
              frontmatter := parseFrontmatter st.frontmatterContent,
              lineOffset := lineEnd + 1 }
  else if st.inFrontmatter then
    { st with
      frontmatterContent :=
        st.frontmatterContent ++
          (if st.frontmatterContent ≠ [] then ['\n'] else []) ++ line,
      lineOffset := lineEnd + 1 }
  else if trimJs line = S "***" then
    let st := finalizePendingToEntries fmt M O st
    { st with archiveStartOffset := (lineStart : Int), inArchive := true,
              lineOffset := lineEnd + 1 }
  else if st.inArchive ∧ trimJs line = S "## Archive" then
    { st with lineOffset := lineEnd + 1 }
  else if isListItem line then
    let st := finalizePendingRouted fmt M O st
    { st with
      currentEntry := some ⟨[line.drop 2], lineStart, lineEnd⟩,
      lineOffset := lineEnd + 1 }
  else
    match st.currentEntry with
    | some ce =>
      if (S "  ").isPrefixOf line ∨ trimJs line = [] then
        { st with
          currentEntry := some
            ⟨ce.lines ++ [if (S "  ").isPrefixOf line then line.drop 2 else line],
             ce.startOffset, lineEnd⟩,
          lineOffset := lineEnd + 1 }
      else
        let st := finalizePendingRouted fmt M O st
        { st with lineOffset := lineEnd + 1 }
    | none => { st with lineOffset := lineEnd + 1 }

/-- The whole line loop. -/
def scanLines (fmt : Str) (M : MomentLib) (O : Oracle)
    (st : ScanState) : List Str → ScanState
  | [] => st
  | l :: ls => scanLines fmt M O (scanStep fmt M O st l) ls

/--
`parseMomentsDoc` (`momentsFormat.ts`): scan all lines, finalize the
trailing entry, and package the result.
-/
def parseMomentsDoc (text fmt : Str) (M : MomentLib) (O : Oracle) :
    ParsedMomentsDoc :=
  let final := finalizePendingRouted fmt M O
    (scanLines fmt M O initState (splitNl text))
  { frontmatter := final.frontmatter
    entries := final.entries
    archiveEntries := final.archiveEntries
    errors := final.errors
    originalText := text
    spans := final.spans
    archiveStartOffset := final.archiveStartOffset }

/-! ## The mutators (`momentsFormat.ts`) -/

/-- `createEntryBlock`: timestamp-prefixed first line, continuation lines,
`^id` on its own trailing line (no list-item formatting yet). -/
def createEntryBlock (content fmt : Str) (blockId : Option Str)
    (M : MomentLib) (O : Oracle) : Str :=
  let idv := match blockId with
    | some b => b
    | none => O.genId []
  let timestamp := formatTimestamp M O.nowv fmt
  let lines := splitNl content
  let firstLine := lines.headD []
  let formattedLines :=
    (timestamp ++ ' ' :: firstLine) :: lines.tail ++ ['^' :: idv]
  joinNl formattedLines

/-- `formatEntryAsListItem`: `- ` on the first line, two-space indent on
the rest. -/
def formatEntryAsListItem (entryBlock : Str) : Str :=
  let lines := splitNl entryBlock
  joinNl (('-' :: ' ' :: lines.headD []) ::
    lines.tail.map (fun l => ' ' :: ' ' :: l))

/-- The auxiliary loop of `findFrontmatterEnd`. -/
def findFmEndAux : List Str → Nat → Bool → Int
  | [], _, _ => -1
  | l :: ls, off, inFm =>
    if isFmBoundary l then
      if inFm then ((off + l.length + 1 : Nat) : Int)
      else findFmEndAux ls (off + l.length + 1) true
    else findFmEndAux ls (off + l.length + 1) inFm

/-- `findFrontmatterEnd`: offset just past the closing `---` line,
`-1` if there is none. -/
def findFrontmatterEnd (text : Str) : Int :=
  findFmEndAux (splitNl text) 0 false

/-- The insert position argument of `insertEntry`. -/
inductive InsertPosition where
  | prepend
  | append
deriving Repr, DecidableEq

/-- `insertEntry` (`momentsFormat.ts`). -/
def insertEntry (text entryContent : Str) (position : InsertPosition)
    (fmt : Str) (M : MomentLib) (O : Oracle) : Str :=
  let entryBlock := createEntryBlock entryContent fmt none M O
  let formattedEntry := formatEntryAsListItem entryBlock
  let parsed := parseMomentsDoc text fmt M O
  match position with
  | .prepend =>
    let frontmatterEnd := findFrontmatterEnd text
    let insertPoint : Nat := if frontmatterEnd ≥ 0 then frontmatterEnd.toNat else 0
    let before := text.take insertPoint
    let after := text.drop insertPoint
    let needsNewlineBefore := before ≠ [] ∧ ¬(S "\n\n").isSuffixOf before
    let needsNewlineAfter := after ≠ [] ∧ ¬(S "\n").isPrefixOf after
    before ++ (if needsNewlineBefore then ['\n'] else []) ++
      formattedEntry ++ (if needsNewlineAfter then ['\n'] else []) ++ after
  | .append =>
    if parsed.archiveStartOffset ≥ 0 then
      let before := text.take parsed.archiveStartOffset.toNat
      let after := text.drop parsed.archiveStartOffset.toNat
      trimEndJs before ++ S "\n\n" ++ formattedEntry ++ S "\n\n" ++ after
    else
      trimEndJs text ++ S "\n\n" ++ formattedEntry ++ S "\n"

/-- `replaceEntrySpan` (`momentsFormat.ts`). -/
def replaceEntrySpan (text : Str) (span : EntrySpan) (newContent fmt : Str)
    (keepOriginalTimestamp : Bool) (M : MomentLib) (O : Oracle) : Str :=
  let parsed := parseMomentsDoc text fmt M O
  let existingEntry :=
    match parsed.entries.find? (fun e => e.id = span.id) with
    | some e => some e
    | none => parsed.archiveEntries.find? (fun e => e.id = span.id)
  let entryBlock : Str :=
    match keepOriginalTimestamp, existingEntry with
    | true, some e =>
      let timestamp := formatTimestamp M e.createdAt fmt
      let lines := splitNl newContent
      joinNl ((timestamp ++ ' ' :: lines.headD []) :: lines.tail ++
        ['^' :: span.id])
    | _, _ => createEntryBlock newContent fmt (some span.id) M O
  let formattedEntry := formatEntryAsListItem entryBlock
  let before := text.take span.start
  let after := text.drop (span.endOff + 1)
  before ++ formattedEntry ++
    (if (S "\n").isPrefixOf after then [] else ['\n']) ++ after

/-- `deleteEntrySpan` (`momentsFormat.ts`). -/
def deleteEntrySpan (text : Str) (span : EntrySpan) : Str :=
  let before := text.take span.start
  let after0 := text.drop (span.endOff + 1)
  let after :=
    if (S "\n\n").isSuffixOf before ∧ (S "\n").isPrefixOf after0 then
      after0.drop 1
    else after0
  before ++ after

/-- `moveToArchive` (`momentsFormat.ts`). -/
def moveToArchive (text : Str) (span : EntrySpan) (fmt : Str)
    (M : MomentLib) (O : Oracle) : Str :=
  let parsed := parseMomentsDoc text fmt M O
  match parsed.entries.find? (fun e => e.id = span.id) with
  | none => text
  | some _ =>
    let entryBlock := substringJs text span.start (span.endOff + 1)
    let newText0 := deleteEntrySpan text span
    let newText1 :=
      if parsed.archiveStartOffset < 0 then
        trimEndJs newText0 ++ S "\n\n***\n## Archive\n\n"
      else newText0
    trimEndJs newText1 ++ '\n' :: entryBlock ++ ['\n']

/-- `getEntryBlockText` (`momentsFormat.ts`). -/
def getEntryBlockText (text : Str) (span : EntrySpan) : Str :=
  substringJs text span.start (span.endOff + 1)

/-! ## Concrete instantiations of the external-world parameters

Used to evaluate the engine at concrete inputs (counterexamples and
witnesses).  `mpNone` is a moment model in which no string parses as a
timestamp; `mpT` recognizes exactly the string `"T"` (which is also what
its formatter prints); `mpA` recognizes exactly `"a"`. -/

/-- Moment model: strict parsing always fails; formatting prints `"T"`. -/
def mpNone : MomentLib := ⟨fun _ _ => none, fun _ _ => S "T"⟩

/-- Moment model: exactly `"T"` parses (to 0); formatting prints `"T"`. -/
def mpT : MomentLib := ⟨fun s _ => if s = S "T" then some 0 else none, fun _ _ => S "T"⟩

/-- Moment model: exactly `"a"` parses (to 7). -/
def mpA : MomentLib := ⟨fun s _ => if s = S "a" then some 7 else none, fun _ _ => S "T"⟩

/-- Oracle: `generateBlockId` always yields `"m-aaaaaa"`; `Date.now() = 42`. -/
def oracleA : Oracle := ⟨fun _ => S "m-aaaaaa", 42⟩

/-- Oracle: `generateBlockId` always yields `"m-bbbbbb"`; `Date.now() = 7`. -/
def oracleB : Oracle := ⟨fun _ => S "m-bbbbbb", 7⟩

/-- Combined entry list of a parsed document (active then archived). -/
def allEntries (d : ParsedMomentsDoc) : List MomentEntry :=
  d.entries ++ d.archiveEntries

/-! ## String toolkit lemmas -/

theorem dropWhile_idem (p : Char → Bool) (l : Str) :
    (l.dropWhile p).dropWhile p = l.dropWhile p := by
  induction l with
  | nil => rfl
  | cons c r ih =>
    by_cases h : p c
    · simp [List.dropWhile_cons, h, ih]
    · simp [List.dropWhile_cons, h]

theorem dropWhile_head_false (p : Char → Bool) (l : Str) {c : Char} {t : Str}
    (h : l.dropWhile p = c :: t) : p c = false := by
  induction l with
  | nil => simp at h
  | cons a r ih =>
    by_cases ha : p a
    · rw [List.dropWhile_cons, if_pos ha] at h; exact ih h
    · rw [List.dropWhile_cons, if_neg ha] at h
      cases h
      simpa using ha

theorem trimStartJs_idem (s : Str) : trimStartJs (trimStartJs s) = trimStartJs s :=
  dropWhile_idem _ _

theorem trimJs_trimStart (s : Str) : trimJs (trimStartJs s) = trimJs s := by
  simp [trimJs, trimStartJs_idem]

theorem trimJs_eq_nil_iff (s : Str) : trimJs s = [] ↔ ∀ c ∈ s, isWsChar c := by
  constructor
  · intro h c hc
    by_contra hw
    have hsplit := List.takeWhile_append_dropWhile (p := isWsChar) (l := s)
    have hcd : c ∈ s.dropWhile isWsChar ∨ c ∈ s.takeWhile isWsChar := by
      rw [← hsplit] at hc
      rcases List.mem_append.mp hc with h1 | h2
      · exact Or.inr h1
      · exact Or.inl h2
    rcases hcd with h1 | h2
    · have : trimEndJs (trimStartJs s) = [] := h
      rw [trimEndJs] at this
      have h2 : (trimStartJs s).reverse.dropWhile isWsChar = [] := by
        cases hE : (trimStartJs s).reverse.dropWhile isWsChar with
        | nil => rfl
        | cons a b => rw [hE] at this; simp at this
      have := List.dropWhile_eq_nil_iff.mp h2
      exact hw (this c (by simpa [trimStartJs] using h1))
    · exact hw (List.mem_takeWhile_imp h2)
  · intro h
    have h1 : trimStartJs s = [] := List.dropWhile_eq_nil_iff.mpr h
    simp [trimJs, h1, trimEndJs]

theorem trimJs_ne_nil_of_trimStart (s : Str) (h : trimStartJs s ≠ []) : trimJs s ≠ [] := by
  intro hc
  exact h (List.dropWhile_eq_nil_iff.mpr (trimJs_eq_nil_iff s |>.mp hc))

theorem trimEndJs_prefix (s : Str) : trimEndJs s <+: s := by
  rw [trimEndJs]
  have h : (s.reverse.dropWhile isWsChar) <:+ s.reverse := List.dropWhile_suffix _
  have := h.reverse
  simpa using this

theorem trimStartJs_eq_self_of_head {c : Char} {t : Str} (h : isWsChar c = false) :
    trimStartJs (c :: t) = c :: t := by
  simp [trimStartJs, List.dropWhile_cons, h]

theorem trimJs_idem (s : Str) : trimJs (trimJs s) = trimJs s := by
  have hx : trimStartJs (trimJs s) = trimJs s := by
    rw [trimJs]
    cases hE : trimEndJs (trimStartJs s) with
    | nil => rfl
    | cons c t =>
      have hpre : trimEndJs (trimStartJs s) <+: trimStartJs s := trimEndJs_prefix _
      rw [hE] at hpre
      obtain ⟨u, hu⟩ := hpre
      have hc : isWsChar c = false := by
        have : trimStartJs s = c :: (t ++ u) := by
          rw [← hu]; simp
        exact dropWhile_head_false _ s this
      exact trimStartJs_eq_self_of_head hc
  calc trimJs (trimJs s) = trimEndJs (trimStartJs (trimJs s)) := rfl
    _ = trimEndJs (trimJs s) := by rw [hx]
    _ = trimEndJs (trimEndJs (trimStartJs s)) := rfl
    _ = trimEndJs (trimStartJs s) := by simp [trimEndJs, dropWhile_idem]
    _ = trimJs s := rfl

theorem stripBlockId_fst_trimmed (s : Str) :
    trimJs (stripBlockIdFromContent s).1 = (stripBlockIdFromContent s).1 := by
  rw [stripBlockIdFromContent]
  split_ifs with h
  · exact trimJs_idem _
  · cases hm : parseOwnLineMarker (trimJs (((splitNl s).getLast?).getD [])) with
    | some bid => simp [hm, trimJs_idem]
    | none => simp [hm, trimJs_idem]

theorem etpSearch_remaining_shape (M : MomentLib) (text fmt : Str) (lo : Int) :
    ∀ fuel (len : Int) (v : Int) (r : Str),
      etpSearch M text fmt lo len fuel = some (v, r) →
      ∃ n : Nat, r = trimStartJs (text.drop n) := by
  intro fuel
  induction fuel with
  | zero => intro len v r h; simp [etpSearch] at h
  | succ n ih =>
    intro len v r h
    rw [etpSearch] at h
    split_ifs at h
    cases he : etpTry M text fmt len with
    | some p =>
      rw [he] at h
      rw [etpTry] at he
      cases hp : M.parse (trimJs (text.take len.toNat)) fmt with
      | some t => rw [hp] at he; cases h; cases he; exact ⟨len.toNat, rfl⟩
      | none => rw [hp] at he; cases he
    | none =>
      rw [he] at h
      exact ih _ _ _ h

theorem etp_remaining_shape (M : MomentLib) (text fmt : Str) :
    (extractTimestampPrefix M text fmt).2 = text ∨
      ∃ n : Nat, (extractTimestampPrefix M text fmt).2 = trimStartJs (text.drop n) := by
  rw [extractTimestampPrefix]
  cases h : etpSearch M text fmt (fmtLength fmt - 2)
      (min (fmtLength fmt + 5) (text.length : Int))
      (min (fmtLength fmt + 5) (text.length : Int) - (fmtLength fmt - 2)).toNat.succ with
  | none => left; rfl
  | some p =>
    right
    obtain ⟨v, r⟩ := p
    obtain ⟨n, hn⟩ := etpSearch_remaining_shape M text fmt _ _ _ _ _ h
    exact ⟨n, hn⟩

/-! ## Counterexamples -/

/--
C1, counterexample.  For the text `"- a\nx"` the parser records the span
`{start := 0, end := 3}` for the single entry (`"- a"`).  Offset 3 is the
trailing newline, not the entry's last character (`'a'`, at offset 2), and
`text.substring(span.start, span.end + 1)` is `"- a\n"` — the block text
*plus* its trailing newline — contradicting the claim that `span.end` is
inclusive of the last character before the trailing newline and that the
substring reproduces exactly the block text.
-/
theorem C1_counterexample :
    (parseMomentsDoc (S "- a\nx") (S "F") mpNone oracleA).spans =
        [⟨S "m-aaaaaa", 0, 3⟩] ∧
      (S "- a\nx").getD 3 ' ' = '\n' ∧
      substringJs (S "- a\nx") 0 (3 + 1) = S "- a\n" ∧
      substringJs (S "- a\nx") 0 (3 + 1) ≠ S "- a" := by decide

/--
C2, counterexample.  Two blocks carrying the same explicit identity marker
`^m-aa` both parse to entries with id `"m-aa"`: the combined id list of the
parsed document is not duplicate-free.
-/
theorem C2_counterexample :
    ¬ ((allEntries (parseMomentsDoc (S "- a\n  ^m-aa\n- b\n  ^m-aa\n")
        (S "F") mpNone oracleA)).map (fun e => e.id)).Nodup := by decide

/--
C3, counterexample.  For the text `"hello"` (whose parse has no entry at
all, so the span id `"m-zz"` does not identify an existing entry),
`deleteEntrySpan` and `replaceEntrySpan` do *not* return the input
unchanged: both splice at the span offsets unconditionally.
-/
theorem C3_counterexample :
    (allEntries (parseMomentsDoc (S "hello") (S "F") mpNone oracleA)).map
        (fun e => e.id) = [] ∧
      deleteEntrySpan (S "hello") ⟨S "m-zz", 0, 1⟩ = S "llo" ∧
      deleteEntrySpan (S "hello") ⟨S "m-zz", 0, 1⟩ ≠ S "hello" ∧
      replaceEntrySpan (S "hello") ⟨S "m-zz", 0, 1⟩ (S "c") (S "F") true
          mpNone oracleA ≠ S "hello" := by decide

/--
C4, counterexample.  `insertEntry(text, _, append, _)` on `text = "x  "`
trims the trailing whitespace of the document (bytes outside the insertion
point): for no position `p` of the original text is the output of the form
`text[0..p) ++ inserted ++ text[p..)` — i.e. content outside the edited
region is not preserved byte-for-byte.
-/
theorem C4_counterexample :
    ¬ ((S "x  ").take 0 <+: insertEntry (S "x  ") (S "W") .append (S "F") mpNone oracleA ∧
       (S "x  ").drop 0 <:+ insertEntry (S "x  ") (S "W") .append (S "F") mpNone oracleA) ∧
    ¬ ((S "x  ").take 1 <+: insertEntry (S "x  ") (S "W") .append (S "F") mpNone oracleA ∧
       (S "x  ").drop 1 <:+ insertEntry (S "x  ") (S "W") .append (S "F") mpNone oracleA) ∧
    ¬ ((S "x  ").take 2 <+: insertEntry (S "x  ") (S "W") .append (S "F") mpNone oracleA ∧
       (S "x  ").drop 2 <:+ insertEntry (S "x  ") (S "W") .append (S "F") mpNone oracleA) ∧
    ¬ ((S "x  ").take 3 <+: insertEntry (S "x  ") (S "W") .append (S "F") mpNone oracleA ∧
       (S "x  ").drop 3 <:+ insertEntry (S "x  ") (S "W") .append (S "F") mpNone oracleA) := by
  decide

/-! ## C3: mutation no-ops (amended) -/

/--
C3, amended.  Of the three mutators, only `moveToArchive` is a silent no-op
when the span's id is not found among the re-parsed *active* entries; it
then returns the input text unchanged.  (`replaceEntrySpan` and
`deleteEntrySpan` splice at the span offsets unconditionally — see the
counterexample.)
-/
theorem C3_moveToArchive_noop (text : Str) (sp : EntrySpan) (fmt : Str)
    (M : MomentLib) (O : Oracle)
    (h : (parseMomentsDoc text fmt M O).entries.find? (fun e => e.id = sp.id) = none) :
    moveToArchive text sp fmt M O = text := by
  unfold moveToArchive
  simp [h]

/-- C3, witness: the no-op theorem applied at a concrete input. -/
theorem C3_moveToArchive_noop_witness :
    (parseMomentsDoc (S "x") (S "F") mpNone oracleA).entries.find?
        (fun e => e.id = (⟨S "m-q", 0, 0⟩ : EntrySpan).id) = none ∧
      moveToArchive (S "x") ⟨S "m-q", 0, 0⟩ (S "F") mpNone oracleA = S "x" :=
  ⟨by decide, C3_moveToArchive_noop _ _ _ _ _ (by decide)⟩

/-! ## C4: localized-edit frame property (amended) -/

/-- `a <+: b → a <+: b ++ c`. -/
theorem prefix_extend {a b : Str} (h : a <+: b) (c : Str) : a <+: b ++ c :=
  h.trans (List.prefix_append b c)

/-- `a <:+ b → a <:+ c ++ b`. -/
theorem suffix_extend {a b : Str} (h : a <:+ b) (c : Str) : a <:+ c ++ b :=
  h.trans (List.suffix_append c b)

/-- The offset at which prepend-insertion splices (just past the
frontmatter's closing `---` line, or 0). -/
def prependInsertPoint (text : Str) : Nat :=
  if findFrontmatterEnd text ≥ 0 then (findFrontmatterEnd text).toNat else 0

/--
C4, amended.  Frame characterization of the four mutators:
prepend-insertion keeps the text before/after the insertion point as exact
prefix/suffix of the output; replacement keeps the text outside
`[span.start, span.end + 1]` as exact prefix/suffix; deletion returns
exactly the outside text, except that one extra newline at the seam may be
dropped; append-insertion keeps the text, but with *trailing whitespace
trimmed* at the insertion side (and, with an archive, the archive tail as
exact suffix); `moveToArchive` is either a no-op or the composition of the
deletion, optional archive-section creation, trailing-whitespace trimming,
and re-appending the captured block — so content outside the edited region
is preserved only up to trailing-whitespace trimming and seam collapse,
not byte-for-byte for every mutator.
-/
theorem C4_amended (text c nc fmt : Str) (sp : EntrySpan) (keep : Bool)
    (M : MomentLib) (O : Oracle) :
    (text.take (prependInsertPoint text) <+: insertEntry text c .prepend fmt M O ∧
       text.drop (prependInsertPoint text) <:+ insertEntry text c .prepend fmt M O) ∧
    (text.take sp.start <+: replaceEntrySpan text sp nc fmt keep M O ∧
       text.drop (sp.endOff + 1) <:+ replaceEntrySpan text sp nc fmt keep M O) ∧
    (deleteEntrySpan text sp = text.take sp.start ++ text.drop (sp.endOff + 1) ∨
       deleteEntrySpan text sp =
         text.take sp.start ++ (text.drop (sp.endOff + 1)).drop 1) ∧
    (((parseMomentsDoc text fmt M O).archiveStartOffset < 0 ∧
        trimEndJs text <+: insertEntry text c .append fmt M O) ∨
     (0 ≤ (parseMomentsDoc text fmt M O).archiveStartOffset ∧
        trimEndJs (text.take (parseMomentsDoc text fmt M O).archiveStartOffset.toNat) <+:
          insertEntry text c .append fmt M O ∧
        text.drop (parseMomentsDoc text fmt M O).archiveStartOffset.toNat <:+
          insertEntry text c .append fmt M O)) ∧
    (moveToArchive text sp fmt M O = text ∨
     ∃ x, (x = deleteEntrySpan text sp ∨
           x = trimEndJs (deleteEntrySpan text sp) ++ S "\n\n***\n## Archive\n\n") ∧
       moveToArchive text sp fmt M O =
         trimEndJs x ++ '\n' :: substringJs text sp.start (sp.endOff + 1) ++ ['\n']) := by
  refine ⟨⟨?_, ?_⟩, ⟨?_, ?_⟩, ?_, ?_, ?_⟩
  · simp only [insertEntry, prependInsertPoint]
    exact prefix_extend (prefix_extend (prefix_extend (List.prefix_append _ _) _) _) _
  · simp only [insertEntry, prependInsertPoint]
    exact List.suffix_append _ _
  · simp only [replaceEntrySpan]
    exact prefix_extend (prefix_extend (List.prefix_append _ _) _) _
  · simp only [replaceEntrySpan]
    exact List.suffix_append _ _
  · simp only [deleteEntrySpan]
    split_ifs
    · right; rfl
    · left; rfl
  · by_cases h : (parseMomentsDoc text fmt M O).archiveStartOffset < 0
    · left
      refine ⟨h, ?_⟩
      simp only [insertEntry]
      split_ifs with h2
      · omega
      · exact prefix_extend (prefix_extend (prefix_extend (List.prefix_refl _) _) _) _
    · right
      refine ⟨by omega, ?_, ?_⟩
      · simp only [insertEntry]
        split_ifs with h2
        · exact prefix_extend (prefix_extend (prefix_extend (prefix_extend (List.prefix_refl _) _) _) _) _
        · omega
      · simp only [insertEntry]
        split_ifs with h2
        · exact List.suffix_append _ _
        · omega
  · rw [moveToArchive]
    cases hf : (parseMomentsDoc text fmt M O).entries.find? (fun e => e.id = sp.id) with
    | none => left; rfl
    | some e =>
      right
      by_cases h : (parseMomentsDoc text fmt M O).archiveStartOffset < 0
      · refine ⟨trimEndJs (deleteEntrySpan text sp) ++ S "\n\n***\n## Archive\n\n",
          Or.inr rfl, ?_⟩
        simp [h]
      · refine ⟨deleteEntrySpan text sp, Or.inl rfl, ?_⟩
        simp [h]

/--
C5, counterexample.  Parsing the same text twice does not yield structurally
identical entries: for a block with no identity marker and no parseable
timestamp, each parse draws a fresh random id and a fresh `Date.now()`
(modelled by two oracles), so ids and `createdAt` differ between the runs.
-/
theorem C5_counterexample :
    (parseMomentsDoc (S "- hello\n") (S "F") mpNone oracleA).entries ≠
      (parseMomentsDoc (S "- hello\n") (S "F") mpNone oracleB).entries := by decide

/--
C6, counterexample.  Inserting `"World"` (prepend) into the document
`"  x\n"` produces a block that merges with the following two-space-indented
line on re-parse: the entry count does go up by one, but the sole resulting
entry has `raw = "World\n^m-aaaaaa\nx"`, not the inserted content `"World"`
(not even up to whitespace normalization).
-/
theorem C6_counterexample :
    insertEntry (S "  x\n") (S "World") .prepend (S "F") mpT oracleA =
        S "- T World\n  ^m-aaaaaa\n  x\n" ∧
      (allEntries (parseMomentsDoc (S "  x\n") (S "F") mpT oracleA)).length = 0 ∧
      (allEntries (parseMomentsDoc (S "- T World\n  ^m-aaaaaa\n  x\n")
          (S "F") mpT oracleA)).map (fun e => e.raw) =
        [S "World\n^m-aaaaaa\nx"] ∧
      S "World\n^m-aaaaaa\nx" ≠ S "World" ∧
      trimJs (S "World\n^m-aaaaaa\nx") ≠ trimJs (S "World") := by decide

/--
C7, counterexample.  Prepend-insertion into
`"---\na: 1\n---\n\n- x\n"` places the new block directly above the
existing `"- x"` entry with *no* blank line between them (the inserted
block followed by a blank line is not an infix of the result): the code
only guarantees a line break after the block, not a separating blank line.
-/
theorem C7_counterexample :
    insertEntry (S "---\na: 1\n---\n\n- x\n") (S "W") .prepend (S "F") mpNone oracleA =
        S "---\na: 1\n---\n\n- T W\n  ^m-aaaaaa\n- x\n" ∧
      ¬ (S "- T W\n  ^m-aaaaaa\n\n") <:+:
          S "---\na: 1\n---\n\n- T W\n  ^m-aaaaaa\n- x\n" := by decide

/--
C8, counterexample.  When the identity marker `^m-x` occurs on both an
active and an archived block, the spans map (last-write-wins) associates
id `"m-x"` with the *archived* block's span.  `moveToArchive` with that
span (the one the parser hands out for the active entry's id) deletes and
re-appends the archived copy, leaving the active entry with id `"m-x"` in
`entries` after re-parse — contradicting the claim that no entry with that
id remains among active entries.
-/
theorem C8_counterexample :
    (parseMomentsDoc (S "- a\n  ^m-x\n\n***\n## Archive\n\n- b\n  ^m-x\n")
          (S "F") mpNone oracleA).spans = [⟨S "m-x", 28, 39⟩] ∧
      (parseMomentsDoc (S "- a\n  ^m-x\n\n***\n## Archive\n\n- b\n  ^m-x\n")
          (S "F") mpNone oracleA).entries.map (fun e => e.id) = [S "m-x"] ∧
      (parseMomentsDoc
          (moveToArchive (S "- a\n  ^m-x\n\n***\n## Archive\n\n- b\n  ^m-x\n")
            ⟨S "m-x", 28, 39⟩ (S "F") mpNone oracleA)
          (S "F") mpNone oracleA).entries.map (fun e => e.id) = [S "m-x"] := by decide

/--
C9, counterexample.  The code computes the format length *after* deleting
bracketed `[...]` literal sections (`format.replace(/\[.*?\]/g, "")`), not
the raw format length.  For `format = "[TT]"` (raw length 4, effective
length 0) and `text = "ab"`, the claim's range of substring lengths
(`4 - 2 = 2` up to `4 + 5 = 9`) only ever tests the prefix `"ab"`, which
does not parse — yet the code accepts the length-1 prefix `"a"`.
-/
theorem C9_counterexample :
    fmtLength (S "[TT]") = 0 ∧
      mpA.parse (trimJs (S "ab")) (S "[TT]") = none ∧
      extractTimestampPrefix mpA (S "ab") (S "[TT]") = (some 7, S "b") ∧
      extractTimestampPrefix mpA (S "ab") (S "[TT]") ≠ (none, S "ab") := by decide

/--
C10, counterexample.  The block `"- ^m-abc\n  "` (marker on the *first*
line, followed by a blank continuation line) survives the first-pass
marker removal; the safety-net strip then yields empty content, and the
JS `||` fallback keeps the unstripped text, so the emitted entry has
`raw = rawWithPrefix = "^m-abc\n"` — which carries trailing whitespace,
contradicting the claim that `raw` and `rawWithPrefix` always equal their
own trim.
-/
theorem C10_counterexample :
    (allEntries (parseMomentsDoc (S "- ^m-abc\n  ") (S "F") mpNone oracleA)).map
        (fun e => (e.raw, e.rawWithPrefix)) = [(S "^m-abc\n", S "^m-abc\n")] ∧
      trimJs (S "^m-abc\n") ≠ S "^m-abc\n" := by decide

/-! ## finalizeEntry characterization and per-entry machinery -/

set_option maxHeartbeats 2000000 in
theorem finalizeEntry_some_spec (ce : RawEntry) (fmt : Str) (spans : List EntrySpan)
    (errors : List ParseError) (M : MomentLib) (O : Oracle)
    (e : MomentEntry) (sps : List EntrySpan) (ers : List ParseError)
    (hfe : finalizeEntry ce fmt spans errors M O = (some e, sps, ers)) :
    ∃ A W bid1,
      A = joinNl (stripLastLineMarker ce.lines).2 ∧
      trimJs A ≠ [] ∧
      W = (if (stripBlockIdFromContent A).1 ≠ [] then (stripBlockIdFromContent A).1 else A) ∧
      bid1 = (match (stripLastLineMarker ce.lines).1 with
              | some b => some b
              | none => (stripBlockIdFromContent A).2) ∧
      e.rawWithPrefix = W ∧
      e.raw = (if (stripBlockIdFromContent (extractTimestampPrefix M W fmt).2).1 ≠ [] then
                 (stripBlockIdFromContent (extractTimestampPrefix M W fmt).2).1
               else if (extractTimestampPrefix M W fmt).2 ≠ [] then
                 (extractTimestampPrefix M W fmt).2
               else W) ∧
      e.createdAt = ((extractTimestampPrefix M W fmt).1.getD O.nowv) ∧
      e.id = (match bid1 with
              | some b => b
              | none => O.genId (spans.map (fun sp => sp.id))) ∧
      e.idMissing = bid1.isNone ∧
      sps = mapSet spans ⟨e.id, ce.startOffset, ce.endOffset⟩ ∧
      ers = (if bid1.isNone then
               errors ++ [⟨S "Entry missing block id, assigned: " ++ e.id,
                           some (W.take 50)⟩]
             else errors) := by
  rw [finalizeEntry] at hfe
  split at hfe
  · exact absurd hfe (by simp)
  simp only [] at hfe
  split at hfe
  · exact absurd hfe (by simp)
  next h1 =>
  simp only [Prod.mk.injEq, Option.some.injEq] at hfe
  obtain ⟨rfl, rfl, rfl⟩ := hfe
  exact ⟨_, _, _, rfl, h1, rfl, rfl, rfl, rfl, rfl, rfl, rfl, rfl, rfl⟩

end Moments

namespace Moments

theorem finalizeEntry_none_spec (ce : RawEntry) (fmt : Str) (spans : List EntrySpan)
    (errors : List ParseError) (M : MomentLib) (O : Oracle)
    (sps : List EntrySpan) (ers : List ParseError)
    (hfe : finalizeEntry ce fmt spans errors M O = (none, sps, ers)) :
    sps = spans ∧ ers = errors := by
  rw [finalizeEntry] at hfe
  split at hfe
  · simp only [Prod.mk.injEq] at hfe
    exact ⟨hfe.2.1.symm, hfe.2.2.symm⟩
  simp only [] at hfe
  split at hfe
  · simp only [Prod.mk.injEq] at hfe
    exact ⟨hfe.2.1.symm, hfe.2.2.symm⟩
  · exact absurd hfe (by simp)

theorem ne_nil_of_trim_ne_nil {s : Str} (h : trimJs s ≠ []) : s ≠ [] := by
  intro hs
  subst hs
  exact h rfl

theorem trim_ne_nil_of_etp_remaining (M : MomentLib) (fmt W : Str)
    (hW : trimJs W ≠ []) (hR : (extractTimestampPrefix M W fmt).2 ≠ []) :
    trimJs (extractTimestampPrefix M W fmt).2 ≠ [] := by
  rcases etp_remaining_shape M W fmt with h | ⟨n, hn⟩
  · rw [h]; exact hW
  · rw [hn]
    rw [trimJs_trimStart]
    apply trimJs_ne_nil_of_trimStart
    rw [← hn]
    exact hR

theorem finalizeEntry_wf (ce : RawEntry) (fmt : Str) (spans : List EntrySpan)
    (errors : List ParseError) (M : MomentLib) (O : Oracle)
    (e : MomentEntry) (sps : List EntrySpan) (ers : List ParseError)
    (hfe : finalizeEntry ce fmt spans errors M O = (some e, sps, ers)) :
    e.raw ≠ [] ∧ e.rawWithPrefix ≠ [] ∧
      trimJs e.rawWithPrefix ≠ [] ∧ trimJs e.raw ≠ [] ∧
      ((stripBlockIdFromContent e.rawWithPrefix).1 ≠ [] →
        trimJs e.rawWithPrefix = e.rawWithPrefix) ∧
      ((stripBlockIdFromContent e.raw).1 ≠ [] → trimJs e.raw = e.raw) := by
  obtain ⟨A, W, bid1, -, h1, hW, -, hrwp, hraw, -, -, -, -, -⟩ :=
    finalizeEntry_some_spec ce fmt spans errors M O e sps ers hfe
  have hWp : W ≠ [] ∧ trimJs W ≠ [] ∧
      ((stripBlockIdFromContent W).1 ≠ [] → trimJs W = W) := by
    by_cases hB : (stripBlockIdFromContent A).1 ≠ []
    · rw [hW, if_pos hB]
      refine ⟨hB, ?_, fun _ => stripBlockId_fst_trimmed A⟩
      rw [stripBlockId_fst_trimmed A]
      exact hB
    · rw [hW, if_neg hB]
      exact ⟨ne_nil_of_trim_ne_nil h1, h1, fun hc => absurd hc hB⟩
  obtain ⟨hWn, hWt, hWi⟩ := hWp
  rw [hrwp, hraw]
  refine ⟨?_, hWn, hWt, ?_, hWi, ?_⟩
  · split_ifs with hC2 hR2
    · exact hC2
    · exact hR2
    · exact hWn
  · split_ifs with hC2 hR2
    · rw [stripBlockId_fst_trimmed]
      exact hC2
    · exact trim_ne_nil_of_etp_remaining M fmt W hWt hR2
    · exact hWt
  · split_ifs with hC2 hR2
    · intro _
      exact stripBlockId_fst_trimmed _
    · intro hc
      exact absurd hc hC2
    · exact hWi

end Moments

namespace Moments

/-- Per-entry property transport through `finalizePendingToEntries`. -/
theorem finalizePendingToEntries_allP (fmt : Str) (M : MomentLib) (O : Oracle)
    (P : MomentEntry → Prop)
    (hfin : ∀ ce spans errors e sps ers,
      finalizeEntry ce fmt spans errors M O = (some e, sps, ers) → P e)
    (st : ScanState) (hE : ∀ e ∈ st.entries, P e) (hA : ∀ e ∈ st.archiveEntries, P e) :
    (∀ e ∈ (finalizePendingToEntries fmt M O st).entries, P e) ∧
      (∀ e ∈ (finalizePendingToEntries fmt M O st).archiveEntries, P e) := by
  rw [finalizePendingToEntries]
  cases hce : st.currentEntry with
  | none => exact ⟨hE, hA⟩
  | some ce =>
    dsimp only
    cases hr : finalizeEntry ce fmt st.spans st.errors M O with
    | mk o rest =>
      dsimp only
      cases o with
      | none =>
        refine ⟨?_, hA⟩
        intro e he
        simp only [List.append_nil] at he
        exact hE e he
      | some e0 =>
        refine ⟨?_, hA⟩
        intro e he
        rcases List.mem_append.mp he with h | h
        · exact hE e h
        · rcases List.mem_singleton.mp h with rfl
          exact hfin ce st.spans st.errors e rest.1 rest.2 hr

/-- Per-entry property transport through `finalizePendingRouted`. -/
theorem finalizePendingRouted_allP (fmt : Str) (M : MomentLib) (O : Oracle)
    (P : MomentEntry → Prop)
    (hfin : ∀ ce spans errors e sps ers,
      finalizeEntry ce fmt spans errors M O = (some e, sps, ers) → P e)
    (st : ScanState) (hE : ∀ e ∈ st.entries, P e) (hA : ∀ e ∈ st.archiveEntries, P e) :
    (∀ e ∈ (finalizePendingRouted fmt M O st).entries, P e) ∧
      (∀ e ∈ (finalizePendingRouted fmt M O st).archiveEntries, P e) := by
  rw [finalizePendingRouted]
  cases hce : st.currentEntry with
  | none => exact ⟨hE, hA⟩
  | some ce =>
    dsimp only
    cases hr : finalizeEntry ce fmt st.spans st.errors M O with
    | mk o rest =>
      dsimp only
      have hpush : ∀ e ∈ (match o with | some e => [e] | none => ([] : List MomentEntry)), P e := by
        cases o with
        | none => intro e he; simp at he
        | some e0 =>
          intro e he
          rcases List.mem_singleton.mp he with rfl
          exact hfin ce st.spans st.errors e rest.1 rest.2 hr
      constructor
      · intro e he
        by_cases hia : st.inArchive
        · simp only [hia, if_true] at he
          exact hE e he
        · simp only [hia, if_false] at he
          rcases List.mem_append.mp he with h | h
          · exact hE e h
          · exact hpush e h
      · intro e he
        by_cases hia : st.inArchive
        · simp only [hia, if_true] at he
          rcases List.mem_append.mp he with h | h
          · exact hA e h
          · exact hpush e h
        · simp only [hia, if_false] at he
          exact hA e he

set_option maxHeartbeats 3000000 in
/-- Per-entry property transport through one scan step. -/
theorem scanStep_allP (fmt : Str) (M : MomentLib) (O : Oracle)
    (P : MomentEntry → Prop)
    (hfin : ∀ ce spans errors e sps ers,
      finalizeEntry ce fmt spans errors M O = (some e, sps, ers) → P e)
    (st : ScanState) (l : Str) (hE : ∀ e ∈ st.entries, P e)
    (hA : ∀ e ∈ st.archiveEntries, P e) :
    (∀ e ∈ (scanStep fmt M O st l).entries, P e) ∧
      (∀ e ∈ (scanStep fmt M O st l).archiveEntries, P e) := by
  rw [scanStep]
  split_ifs with h1 h2 h3 h3b h4 h5 h6 h7 h8
  · exact ⟨hE, hA⟩
  · exact ⟨hE, hA⟩
  · exact ⟨hE, hA⟩
  · exact ⟨hE, hA⟩
  · exact finalizePendingToEntries_allP fmt M O P hfin st hE hA
  · exact ⟨hE, hA⟩
  · exact finalizePendingRouted_allP fmt M O P hfin st hE hA
  · cases hce : st.currentEntry with
    | none => exact ⟨hE, hA⟩
    | some ce =>
      dsimp only
      exact ⟨hE, hA⟩
  · cases hce : st.currentEntry with
    | none => exact ⟨hE, hA⟩
    | some ce =>
      dsimp only
      exact ⟨hE, hA⟩
  · cases hce : st.currentEntry with
    | none => exact ⟨hE, hA⟩
    | some ce =>
      dsimp only
      exact finalizePendingRouted_allP fmt M O P hfin st hE hA

/-- Per-entry property transport through the whole scan. -/
theorem scanLines_allP (fmt : Str) (M : MomentLib) (O : Oracle)
    (P : MomentEntry → Prop)
    (hfin : ∀ ce spans errors e sps ers,
      finalizeEntry ce fmt spans errors M O = (some e, sps, ers) → P e) :
    ∀ (ls : List Str) (st : ScanState), (∀ e ∈ st.entries, P e) →
      (∀ e ∈ st.archiveEntries, P e) →
      (∀ e ∈ (scanLines fmt M O st ls).entries, P e) ∧
        (∀ e ∈ (scanLines fmt M O st ls).archiveEntries, P e) := by
  intro ls
  induction ls with
  | nil => intro st hE hA; exact ⟨hE, hA⟩
  | cons l ls ih =>
    intro st hE hA
    rw [scanLines]
    obtain ⟨hE2, hA2⟩ := scanStep_allP fmt M O P hfin st l hE hA
    exact ih _ hE2 hA2

/-- Every entry of a parsed document satisfies any property guaranteed by
`finalizeEntry`. -/
theorem parse_allP (text fmt : Str) (M : MomentLib) (O : Oracle)
    (P : MomentEntry → Prop)
    (hfin : ∀ ce spans errors e sps ers,
      finalizeEntry ce fmt spans errors M O = (some e, sps, ers) → P e) :
    ∀ e ∈ allEntries (parseMomentsDoc text fmt M O), P e := by
  intro e he
  rw [parseMomentsDoc] at he
  simp only [allEntries] at he
  obtain ⟨hE, hA⟩ := scanLines_allP fmt M O P hfin (splitNl text) initState
    (by intro x hx; simp [initState] at hx) (by intro x hx; simp [initState] at hx)
  obtain ⟨hE2, hA2⟩ := finalizePendingRouted_allP fmt M O P hfin _ hE hA
  rcases List.mem_append.mp he with h | h
  · exact hE2 e h
  · exact hA2 e h

/-! ## C9 and C10 (amended) -/

/-- Functional specification of the decreasing-length search loop. -/
theorem etpSearch_spec (M : MomentLib) (text fmt : Str) (lo : Int) :
    ∀ (fuel : Nat) (len : Int), len - lo + 1 ≤ (fuel : Int) →
      ((∀ r, etpSearch M text fmt lo len fuel = some r →
          ∃ l, lo ≤ l ∧ l ≤ len ∧ etpTry M text fmt l = some r ∧
            ∀ l', l < l' → l' ≤ len → etpTry M text fmt l' = none) ∧
       (etpSearch M text fmt lo len fuel = none →
          ∀ l, lo ≤ l → l ≤ len → etpTry M text fmt l = none)) := by
  intro fuel
  induction fuel with
  | zero =>
    intro len hf
    constructor
    · intro r h; simp [etpSearch] at h
    · intro _ l hlo hlen
      omega
  | succ n ih =>
    intro len hf
    by_cases hlt : len < lo
    · constructor
      · intro r h
        rw [etpSearch, if_pos hlt] at h
        cases h
      · intro _ l hlo hlen
        omega
    · have hrec := ih (len - 1) (by omega)
      constructor
      · intro r h
        rw [etpSearch, if_neg hlt] at h
        cases he : etpTry M text fmt len with
        | some r0 =>
          rw [he] at h
          cases h
          exact ⟨len, by omega, le_refl _, he, fun l' h1 h2 => by omega⟩
        | none =>
          rw [he] at h
          obtain ⟨l, hlo2, hlen2, htry, hnone⟩ := hrec.1 r h
          refine ⟨l, hlo2, by omega, htry, ?_⟩
          intro l' h1 h2
          rcases lt_or_eq_of_le h2 with h3 | h3
          · exact hnone l' h1 (by omega)
          · rw [h3]; exact he
      · intro h l hlo hlen
        rw [etpSearch, if_neg hlt] at h
        cases he : etpTry M text fmt len with
        | some r0 => rw [he] at h; cases h
        | none =>
          rw [he] at h
          rcases lt_or_eq_of_le hlen with h3 | h3
          · exact hrec.2 h l hlo (by omega)
          · rw [h3]; exact he

theorem etpTry_none_iff (M : MomentLib) (text fmt : Str) (len : Int) :
    etpTry M text fmt len = none ↔
      M.parse (trimJs (text.take len.toNat)) fmt = none := by
  rw [etpTry]
  cases h : M.parse (trimJs (text.take len.toNat)) fmt with
  | some t => simp
  | none => simp

theorem etpTry_some (M : MomentLib) (text fmt : Str) (len : Int) (t : Int) (r : Str)
    (h : etpTry M text fmt len = some (t, r)) :
    M.parse (trimJs (text.take len.toNat)) fmt = some t ∧
      r = trimStartJs (text.drop len.toNat) := by
  rw [etpTry] at h
  cases hp : M.parse (trimJs (text.take len.toNat)) fmt with
  | some t0 =>
    rw [hp] at h
    cases h
    exact ⟨rfl, rfl⟩
  | none => rw [hp] at h; cases h

/--
C9, amended.  The timestamp-prefix heuristic, with "format length" taken as
the length of the format *after deleting bracketed `[...]` literal
sections* (as the code computes it): a successful extraction comes from the
largest length `len` in `[formatLength - 2, min(formatLength + 5, |text|)]`
whose trimmed prefix parses strictly, with the matched prefix removed and
the remainder trimmed at the start; if every length in that range fails,
the result is `(null, text)` — no prefix consumed.  Moreover every parsed
entry's `createdAt` is the extracted timestamp of its `rawWithPrefix`, with
the parse-time current instant (`Date.now()`) as fallback.
-/
theorem C9_amended (M : MomentLib) (text fmt : Str) (O : Oracle) :
    (∀ t r, extractTimestampPrefix M text fmt = (some t, r) →
       ∃ len : Int, fmtLength fmt - 2 ≤ len ∧
         len ≤ min (fmtLength fmt + 5) (text.length : Int) ∧
         M.parse (trimJs (text.take len.toNat)) fmt = some t ∧
         r = trimStartJs (text.drop len.toNat) ∧
         (∀ len' : Int, len < len' →
           len' ≤ min (fmtLength fmt + 5) (text.length : Int) →
           M.parse (trimJs (text.take len'.toNat)) fmt = none)) ∧
    ((∀ len : Int, fmtLength fmt - 2 ≤ len →
        len ≤ min (fmtLength fmt + 5) (text.length : Int) →
        M.parse (trimJs (text.take len.toNat)) fmt = none) →
      extractTimestampPrefix M text fmt = (none, text)) ∧
    (∀ e ∈ allEntries (parseMomentsDoc text fmt M O),
      e.createdAt = ((extractTimestampPrefix M e.rawWithPrefix fmt).1.getD O.nowv)) := by
  have hfuel : min (fmtLength fmt + 5) (text.length : Int) - (fmtLength fmt - 2) + 1 ≤
      ((min (fmtLength fmt + 5) (text.length : Int) - (fmtLength fmt - 2)).toNat.succ : Int) := by
    have := Int.self_le_toNat (min (fmtLength fmt + 5) (text.length : Int) - (fmtLength fmt - 2))
    push_cast
    omega
  have hspec := etpSearch_spec M text fmt (fmtLength fmt - 2)
    (min (fmtLength fmt + 5) (text.length : Int) - (fmtLength fmt - 2)).toNat.succ
    (min (fmtLength fmt + 5) (text.length : Int)) hfuel
  refine ⟨?_, ?_, ?_⟩
  · intro t r h
    rw [extractTimestampPrefix] at h
    cases hs : etpSearch M text fmt (fmtLength fmt - 2)
        (min (fmtLength fmt + 5) (text.length : Int))
        (min (fmtLength fmt + 5) (text.length : Int) - (fmtLength fmt - 2)).toNat.succ with
    | none => rw [hs] at h; cases h
    | some p =>
      rw [hs] at h
      obtain ⟨t0, r0⟩ := p
      cases h
      obtain ⟨l, hlo, hhi, htry, hnone⟩ := hspec.1 _ hs
      obtain ⟨hp, hr⟩ := etpTry_some M text fmt l _ _ htry
      exact ⟨l, hlo, hhi, hp, hr, fun l' h1 h2 =>
        (etpTry_none_iff M text fmt l').mp (hnone l' h1 h2)⟩
  · intro hall
    rw [extractTimestampPrefix]
    cases hs : etpSearch M text fmt (fmtLength fmt - 2)
        (min (fmtLength fmt + 5) (text.length : Int))
        (min (fmtLength fmt + 5) (text.length : Int) - (fmtLength fmt - 2)).toNat.succ with
    | none => rfl
    | some p =>
      obtain ⟨t0, r0⟩ := p
      obtain ⟨l, hlo, hhi, htry, -⟩ := hspec.1 _ hs
      obtain ⟨hp, -⟩ := etpTry_some M text fmt l _ _ htry
      rw [hall l hlo hhi] at hp
      cases hp
  · refine parse_allP text fmt M O _ ?_
    intro ce spans errors e sps ers hfe
    obtain ⟨A, W, bid1, -, -, -, -, hrwp, -, hca, -, -, -, -⟩ :=
      finalizeEntry_some_spec ce fmt spans errors M O e sps ers hfe
    rw [hca, hrwp]

/-- C9, witness: the amended theorem applied at concrete inputs. -/
theorem C9_amended_witness :
    ((∀ len : Int, fmtLength (S "F") - 2 ≤ len →
        len ≤ min (fmtLength (S "F") + 5) ((S "ab").length : Int) →
        mpNone.parse (trimJs ((S "ab").take len.toNat)) (S "F") = none) ∧
      extractTimestampPrefix mpNone (S "ab") (S "F") = (none, S "ab")) ∧
    ((⟨S "m-aaaaaa", 42, S "hello", S "hello", true⟩ : MomentEntry) ∈
        allEntries (parseMomentsDoc (S "- hello\n") (S "F") mpNone oracleA) ∧
      (⟨S "m-aaaaaa", 42, S "hello", S "hello", true⟩ : MomentEntry).createdAt =
        ((extractTimestampPrefix mpNone
            (⟨S "m-aaaaaa", 42, S "hello", S "hello", true⟩ : MomentEntry).rawWithPrefix
            (S "F")).1.getD oracleA.nowv)) :=
  ⟨⟨fun _ _ _ => rfl,
      (C9_amended mpNone (S "ab") (S "F") oracleA).2.1 (fun _ _ _ => rfl)⟩,
    ⟨by decide,
      (C9_amended mpNone (S "- hello\n") (S "F") oracleA).2.2 _ (by decide)⟩⟩

/--
C10, amended.  Every entry emitted by `parseMomentsDoc` (active or
archived) has non-empty `raw` and `rawWithPrefix` whose trims are also
non-empty, and whenever the safety-net strip of the stored text yields
non-empty content the stored text equals its own trim.  (Unconditional
trimmedness fails: for marker-only bodies the JS `||` fallback keeps the
unstripped text, which can carry whitespace — see the counterexample.
Blocks that are whitespace-only after the first-pass marker removal are
discarded, which is reflected in `trimJs e.rawWithPrefix ≠ []`.)
-/
theorem C10_amended (text fmt : Str) (M : MomentLib) (O : Oracle) (e : MomentEntry)
    (he : e ∈ allEntries (parseMomentsDoc text fmt M O)) :
    e.raw ≠ [] ∧ e.rawWithPrefix ≠ [] ∧
      trimJs e.rawWithPrefix ≠ [] ∧ trimJs e.raw ≠ [] ∧
      ((stripBlockIdFromContent e.rawWithPrefix).1 ≠ [] →
        trimJs e.rawWithPrefix = e.rawWithPrefix) ∧
      ((stripBlockIdFromContent e.raw).1 ≠ [] → trimJs e.raw = e.raw) :=
  parse_allP text fmt M O _
    (fun ce spans errors e' sps ers hfe =>
      finalizeEntry_wf ce fmt spans errors M O e' sps ers hfe) e he

/-- C10, witness: the amended theorem applied at a concrete input. -/
theorem C10_amended_witness :
    (⟨S "m-aa", 42, S "hi", S "hi", false⟩ : MomentEntry) ∈
        allEntries (parseMomentsDoc (S "- hi\n  ^m-aa\n") (S "F") mpNone oracleA) ∧
      ((⟨S "m-aa", 42, S "hi", S "hi", false⟩ : MomentEntry).raw ≠ [] ∧
        (⟨S "m-aa", 42, S "hi", S "hi", false⟩ : MomentEntry).rawWithPrefix ≠ [] ∧
        trimJs (⟨S "m-aa", 42, S "hi", S "hi", false⟩ : MomentEntry).rawWithPrefix ≠ [] ∧
        trimJs (⟨S "m-aa", 42, S "hi", S "hi", false⟩ : MomentEntry).raw ≠ [] ∧
        ((stripBlockIdFromContent
            (⟨S "m-aa", 42, S "hi", S "hi", false⟩ : MomentEntry).rawWithPrefix).1 ≠ [] →
          trimJs (⟨S "m-aa", 42, S "hi", S "hi", false⟩ : MomentEntry).rawWithPrefix =
            (⟨S "m-aa", 42, S "hi", S "hi", false⟩ : MomentEntry).rawWithPrefix) ∧
        ((stripBlockIdFromContent
            (⟨S "m-aa", 42, S "hi", S "hi", false⟩ : MomentEntry).raw).1 ≠ [] →
          trimJs (⟨S "m-aa", 42, S "hi", S "hi", false⟩ : MomentEntry).raw =
            (⟨S "m-aa", 42, S "hi", S "hi", false⟩ : MomentEntry).raw)) :=
  ⟨by decide, C10_amended (S "- hi\n  ^m-aa\n") (S "F") mpNone oracleA _ (by decide)⟩

/-! ## Line and offset infrastructure -/

/-- Offset of the start of line `i` in the joined text (each line costs its
length plus one for the newline). -/
def lineStart (L : List Str) (i : Nat) : Nat :=
  (((L.take i).map (fun l => l.length + 1))).sum

theorem lineStart_zero (L : List Str) : lineStart L 0 = 0 := rfl

theorem lineStart_succ_cons (l : Str) (ls : List Str) (i : Nat) :
    lineStart (l :: ls) (i + 1) = l.length + 1 + lineStart ls i := by
  simp [lineStart]

theorem lineStart_mono (L : List Str) {i j : Nat} (h : i ≤ j) :
    lineStart L i ≤ lineStart L j := by
  induction L generalizing i j with
  | nil => simp [lineStart]
  | cons l ls ih =>
    cases i with
    | zero => simp [lineStart_zero]
    | succ i =>
      cases j with
      | zero => omega
      | succ j =>
        rw [lineStart_succ_cons, lineStart_succ_cons]
        have := ih (i := i) (j := j) (by omega)
        omega

theorem splitNl_ne_nil (t : Str) : splitNl t ≠ [] := by
  cases t with
  | nil => simp [splitNl]
  | cons c cs =>
    rw [splitNl]
    split_ifs
    · simp
    · cases h : splitNl cs with
      | nil => simp
      | cons l ls => simp

theorem joinNl_cons (l : Str) (ls : List Str) (h : ls ≠ []) :
    joinNl (l :: ls) = l ++ '\n' :: joinNl ls := by
  cases ls with
  | nil => exact absurd rfl h
  | cons a b => rfl

theorem joinNl_splitNl (t : Str) : joinNl (splitNl t) = t := by
  induction t with
  | nil => rfl
  | cons c cs ih =>
    rw [splitNl]
    by_cases h : c = '\n'
    · rw [if_pos h, joinNl_cons _ _ (splitNl_ne_nil cs), ih, h]
      rfl
    · rw [if_neg h]
      cases hs : splitNl cs with
      | nil => exact absurd hs (splitNl_ne_nil cs)
      | cons l ls =>
        rw [hs] at ih
        cases ls with
        | nil =>
          simp only [joinNl] at ih ⊢
          rw [ih]
        | cons a b =>
          rw [joinNl_cons _ _ (by simp)] at ih
          rw [joinNl_cons _ _ (by simp)]
          simp only [List.cons_append]
          rw [ih]

theorem splitNl_no_nl (t : Str) : ∀ l ∈ splitNl t, '\n' ∉ l := by
  induction t with
  | nil => intro l hl; simp [splitNl] at hl; simp [hl]
  | cons c cs ih =>
    intro l hl
    rw [splitNl] at hl
    by_cases h : c = '\n'
    · rw [if_pos h] at hl
      rcases List.mem_cons.mp hl with rfl | h2
      · simp
      · exact ih l h2
    · rw [if_neg h] at hl
      cases hs : splitNl cs with
      | nil => exact absurd hs (splitNl_ne_nil cs)
      | cons a b =>
        rw [hs] at hl
        rcases List.mem_cons.mp hl with rfl | h2
        · intro hmem
          rcases List.mem_cons.mp hmem with h3 | h3
          · exact h h3.symm
          · exact ih a (by rw [hs]; exact List.mem_cons_self a b) h3
        · exact ih l (by rw [hs]; exact List.mem_cons_of_mem a h2)

theorem splitNl_of_no_nl (l : Str) (h : '\n' ∉ l) : splitNl l = [l] := by
  induction l with
  | nil => rfl
  | cons c cs ih =>
    have hc : c ≠ '\n' := fun hh => h (by rw [hh]; exact List.mem_cons_self _ _)
    rw [splitNl, if_neg hc, ih (fun hh => h (List.mem_cons_of_mem c hh))]

theorem splitNl_append_nl (l : Str) (R : Str) (h : '\n' ∉ l) :
    splitNl (l ++ '\n' :: R) = l :: splitNl R := by
  induction l with
  | nil => simp [splitNl]
  | cons c cs ih =>
    have hc : c ≠ '\n' := fun hh => h (by rw [hh]; exact List.mem_cons_self _ _)
    rw [List.cons_append, splitNl, if_neg hc,
      ih (fun hh => h (List.mem_cons_of_mem c hh))]

theorem splitNl_joinNl (L : List Str) (hne : L ≠ [])
    (hnl : ∀ l ∈ L, '\n' ∉ l) : splitNl (joinNl L) = L := by
  induction L with
  | nil => exact absurd rfl hne
  | cons l ls ih =>
    have hl : '\n' ∉ l := hnl l (List.mem_cons_self l ls)
    cases ls with
    | nil => exact splitNl_of_no_nl l hl
    | cons a b =>
      rw [joinNl_cons _ _ (by simp), splitNl_append_nl l _ hl,
        ih (by simp) (fun x hx => hnl x (List.mem_cons_of_mem l hx))]

theorem drop_lineStart (L : List Str) (i : Nat) :
    (joinNl L).drop (lineStart L i) = joinNl (L.drop i) := by
  induction L generalizing i with
  | nil => simp [joinNl, lineStart]
  | cons l ls ih =>
    cases i with
    | zero => simp [lineStart_zero]
    | succ i =>
      rw [lineStart_succ_cons]
      cases ls with
      | nil =>
        have h0 : lineStart ([] : List Str) i = 0 := by simp [lineStart]
        rw [h0]
        show (joinNl [l]).drop (l.length + 1 + 0) = joinNl ([l].drop (i + 1))
        have h1 : ([l] : List Str).drop (i + 1) = [] := by simp
        rw [h1]
        show l.drop (l.length + 1 + 0) = joinNl []
        rw [List.drop_eq_nil_of_le (by omega)]
        rfl
      | cons a b =>
        rw [joinNl_cons _ _ (by simp)]
        have e1 : l ++ '\n' :: joinNl (a :: b) = (l ++ ['\n']) ++ joinNl (a :: b) := by
          simp
        have e2 : l.length + 1 + lineStart (a :: b) i =
            (l ++ ['\n']).length + lineStart (a :: b) i := by
          simp
        rw [e1, e2, List.drop_append (lineStart (a :: b) i)]
        exact ih i

theorem lineStart_length (L : List Str) (h : L ≠ []) :
    lineStart L L.length = (joinNl L).length + 1 := by
  induction L with
  | nil => exact absurd rfl h
  | cons l ls ih =>
    cases ls with
    | nil => simp [lineStart, joinNl]
    | cons a b =>
      rw [joinNl_cons _ _ (by simp), List.length_cons, lineStart_succ_cons,
        ih (by simp)]
      simp
      omega

/-- Taking up to the end of line `m` (inclusive of its newline when it is
not the last line) yields the joined prefix of lines. -/
theorem take_lineEnd (L : List Str) (m : Nat) (hm : m < L.length) :
    (joinNl L).take (lineStart L m + (L.getD m []).length + 1) =
      joinNl (L.take (m + 1)) ++ (if m + 1 < L.length then ['\n'] else []) := by
  induction L generalizing m with
  | nil => simp at hm
  | cons l ls ih =>
    cases m with
    | zero =>
      rw [lineStart_zero]
      cases ls with
      | nil =>
        show (joinNl [l]).take (0 + (List.getD [l] 0 []).length + 1) =
          joinNl ([l].take 1) ++ (if 1 < ([l] : List Str).length then ['\n'] else [])
        have : ([l] : List Str).getD 0 [] = l := rfl
        rw [this]
        show l.take (0 + l.length + 1) = joinNl [l] ++ (if 1 < ([l] : List Str).length then ['\n'] else [])
        rw [List.take_of_length_le (by omega)]
        simp [joinNl]
      | cons a b =>
        rw [joinNl_cons _ _ (by simp)]
        simp only [List.getD_cons_zero, Nat.zero_add]
        have : l ++ '\n' :: joinNl (a :: b) = (l ++ ['\n']) ++ joinNl (a :: b) := by simp
        rw [this]
        rw [show l.length + 1 = (l ++ ['\n']).length + 0 by simp]
        rw [List.take_append 0]
        simp [joinNl]
    | succ m =>
      have hm2 : m < ls.length := by simpa using hm
      have hlsne : ls ≠ [] := by
        cases ls
        · simp at hm2
        · simp
      rw [lineStart_succ_cons, joinNl_cons _ _ hlsne]
      have e1 : l ++ '\n' :: joinNl ls = (l ++ ['\n']) ++ joinNl ls := by simp
      have e2 : l.length + 1 + lineStart ls m + (List.getD (l :: ls) (m + 1) []).length + 1 =
          (l ++ ['\n']).length + (lineStart ls m + (List.getD ls m []).length + 1) := by
        simp [List.getD_cons_succ]
        omega
      have htk : ls.take (m + 1) ≠ [] := by
        cases hls2 : ls.take (m + 1)
        · have := List.length_take (m + 1) ls
          rw [hls2] at this
          simp at this
          omega
        · simp
      rw [e1, e2, List.take_append, ih m hm2, List.take_cons (by omega)]
      simp only [Nat.add_sub_cancel]
      rw [joinNl_cons l (ls.take (m + 1)) htk]
      simp [List.append_assoc, Nat.succ_lt_succ_iff]

/-! ## C7: prepend placement (amended) -/

theorem lineStart_succ_get (L : List Str) (k : Nat) (hk : k < L.length) :
    lineStart L (k + 1) = lineStart L k + (L.getD k []).length + 1 := by
  induction L generalizing k with
  | nil => simp at hk
  | cons l ls ih =>
    cases k with
    | zero => simp [lineStart_succ_cons, lineStart_zero]
    | succ k =>
      rw [lineStart_succ_cons, lineStart_succ_cons, ih k (by simpa using hk)]
      simp [List.getD_cons_succ]
      omega

theorem joinNl_append_singleton (M : List Str) (x : Str) :
    joinNl (M ++ [x]) = if M = [] then x else joinNl M ++ '\n' :: x := by
  induction M with
  | nil => simp [joinNl]
  | cons a b ih =>
    rw [List.cons_append, joinNl_cons _ _ (by simp)]
    by_cases hb : b = []
    · subst hb
      simp [joinNl] at ih ⊢
    · rw [ih, if_neg hb, if_neg (by simp), joinNl_cons _ _ hb]
      simp

theorem no_nlnl_suffix_of_last (y bl : Str) (h1 : bl ≠ []) (h2 : '\n' ∉ bl) :
    ¬ (S "\n\n") <:+ (y ++ bl) := by
  intro hs
  have hp : (S "\n\n").reverse <+: (y ++ bl).reverse := List.reverse_prefix.mpr hs
  rw [List.reverse_append] at hp
  cases hbr : bl.reverse with
  | nil => exact h1 (by simpa using congrArg List.reverse hbr)
  | cons c r =>
    rw [hbr] at hp
    obtain ⟨t, ht⟩ := hp
    have ht2 : '\n' :: '\n' :: t = c :: (r ++ y.reverse) := by
      simpa [S] using ht
    have hc : c = '\n' := (List.cons.injEq _ _ _ _ ▸ ht2).1.symm
    have hcm : c ∈ bl := by
      have : c ∈ bl.reverse := by rw [hbr]; exact List.mem_cons_self c r
      simpa using this
    rw [hc] at hcm
    exact h2 hcm

theorem no_nlnl_suffix_of_last_nl (y bl : Str) (h1 : bl ≠ []) (h2 : '\n' ∉ bl) :
    ¬ (S "\n\n") <:+ (y ++ bl ++ ['\n']) := by
  intro hs
  have hp : (S "\n\n").reverse <+: (y ++ bl ++ ['\n']).reverse := List.reverse_prefix.mpr hs
  rw [List.reverse_append, List.reverse_append] at hp
  cases hbr : bl.reverse with
  | nil => exact h1 (by simpa using congrArg List.reverse hbr)
  | cons c r =>
    rw [hbr] at hp
    obtain ⟨t, ht⟩ := hp
    have ht2 : '\n' :: '\n' :: t = '\n' :: (c :: (r ++ y.reverse)) := by
      simpa [S] using ht
    have hc : c = '\n' := by
      have := (List.cons.injEq _ _ _ _ ▸ ht2).2
      exact ((List.cons.injEq _ _ _ _ ▸ this).1).symm
    have hcm : c ∈ bl := by
      have : c ∈ bl.reverse := by rw [hbr]; exact List.mem_cons_self c r
      simpa using this
    rw [hc] at hcm
    exact h2 hcm

theorem findFmEndAux_spec (ls : List Str) :
    ∀ (off : Nat) (fm : Bool), 0 ≤ findFmEndAux ls off fm →
      ∃ k, k < ls.length ∧ isFmBoundary (ls.getD k []) ∧
        findFmEndAux ls off fm = ((off + lineStart ls (k + 1) : Nat) : Int) := by
  induction ls with
  | nil => intro off fm h; simp [findFmEndAux] at h
  | cons l ls ih =>
    intro off fm h
    rw [findFmEndAux] at h ⊢
    by_cases hb : isFmBoundary l
    · rw [if_pos hb] at h ⊢
      cases fm with
      | true =>
        refine ⟨0, by simp, by simpa using hb, ?_⟩
        simp [lineStart_succ_cons, lineStart_zero]
        omega
      | false =>
        simp only [Bool.false_eq_true, if_false] at h ⊢
        obtain ⟨k, hk, hkb, hkv⟩ := ih (off + l.length + 1) true h
        refine ⟨k + 1, by simpa using hk, by simpa using hkb, ?_⟩
        rw [hkv, lineStart_succ_cons]
        push_cast
        omega
    · rw [if_neg hb] at h ⊢
      obtain ⟨k, hk, hkb, hkv⟩ := ih (off + l.length + 1) fm h
      refine ⟨k + 1, by simpa using hk, by simpa using hkb, ?_⟩
      rw [hkv, lineStart_succ_cons]
      push_cast
      omega

theorem isFmBoundary_ne_nil {l : Str} (h : isFmBoundary l) : l ≠ [] := by
  cases l with
  | nil => simp [isFmBoundary] at h
  | cons a b => simp

theorem getD_mem_of_lt (l : List Str) (i : Nat) (h : i < l.length) : l.getD i [] ∈ l := by
  have h2 : l.getD i [] = l[i] := by
    simp [List.getD_eq_getElem?_getD, List.getElem?_eq_getElem h]
  rw [h2]
  exact List.getElem_mem h

theorem take_succ_getD (l : List Str) (i : Nat) (h : i < l.length) :
    l.take (i + 1) = l.take i ++ [l.getD i []] := by
  rw [List.take_succ]
  have h2 : l[i]? = some (l.getD i []) := by
    simp [List.getD_eq_getElem?_getD, List.getElem?_eq_getElem h]
  rw [h2]
  rfl

theorem fm_before_decomp (text : Str) (h : 0 ≤ findFrontmatterEnd text) :
    ∃ y bl, isFmBoundary bl ∧ '\n' ∉ bl ∧
      (text.take (findFrontmatterEnd text).toNat = y ++ bl ∨
       text.take (findFrontmatterEnd text).toNat = y ++ bl ++ ['\n']) := by
  obtain ⟨k, hk, hkb, hkv⟩ := findFmEndAux_spec (splitNl text) 0 false h
  have hnl : '\n' ∉ (splitNl text).getD k [] :=
    splitNl_no_nl text _ (getD_mem_of_lt (splitNl text) k hk)
  have hp : (findFrontmatterEnd text).toNat = lineStart (splitNl text) (k + 1) := by
    rw [findFrontmatterEnd, hkv]
    simp
  have hdec : text.take (lineStart (splitNl text) (k + 1)) =
      joinNl ((splitNl text).take (k + 1)) ++
        (if k + 1 < (splitNl text).length then ['\n'] else []) := by
    have h0 := take_lineEnd (splitNl text) k hk
    rw [joinNl_splitNl text] at h0
    rw [lineStart_succ_get _ k hk]
    exact h0
  have hJ : joinNl ((splitNl text).take (k + 1)) =
      (if (splitNl text).take k = [] then (splitNl text).getD k []
       else joinNl ((splitNl text).take k) ++ '\n' :: (splitNl text).getD k []) := by
    rw [take_succ_getD _ k hk, joinNl_append_singleton]
  refine ⟨if (splitNl text).take k = [] then []
          else joinNl ((splitNl text).take k) ++ ['\n'],
    (splitNl text).getD k [], hkb, hnl, ?_⟩
  rw [hp, hdec, hJ]
  by_cases htk : (splitNl text).take k = []
  · rw [if_pos htk, if_pos htk]
    by_cases hkl : k + 1 < (splitNl text).length
    · right; rw [if_pos hkl]; simp
    · left; rw [if_neg hkl]; simp
  · rw [if_neg htk, if_neg htk]
    by_cases hkl : k + 1 < (splitNl text).length
    · right; rw [if_pos hkl]; simp
    · left; rw [if_neg hkl]; simp

/--
C7, amended.  With frontmatter present, prepend-insertion places the new
block immediately after the closing `---` line, with *exactly one* blank
line before it (a single newline is added, and the text up to the insertion
point never ends in a blank line, since it ends with the closing `---`
line); after the block only a line break is guaranteed (a newline is added
only when the following text does not already start with one) — not a
separating blank line.  Without frontmatter the block is placed at offset
0 with no padding before it.
-/
theorem C7_amended (text c fmt : Str) (M : MomentLib) (O : Oracle) :
    (0 ≤ findFrontmatterEnd text →
      insertEntry text c .prepend fmt M O =
        text.take (findFrontmatterEnd text).toNat ++ ['\n'] ++
          formatEntryAsListItem (createEntryBlock c fmt none M O) ++
          (if text.drop (findFrontmatterEnd text).toNat ≠ [] ∧
              ¬(S "\n").isPrefixOf (text.drop (findFrontmatterEnd text).toNat)
            then ['\n'] else []) ++
          text.drop (findFrontmatterEnd text).toNat ∧
      ¬ (S "\n\n") <:+ text.take (findFrontmatterEnd text).toNat) ∧
    (findFrontmatterEnd text < 0 →
      insertEntry text c .prepend fmt M O =
        formatEntryAsListItem (createEntryBlock c fmt none M O) ++
          (if text ≠ [] ∧ ¬(S "\n").isPrefixOf text then ['\n'] else []) ++ text) := by
  constructor
  · intro h
    obtain ⟨y, bl, hkb, hnl, hdec⟩ := fm_before_decomp text h
    have hblne : bl ≠ [] := isFmBoundary_ne_nil hkb
    have hNE : text.take (findFrontmatterEnd text).toNat ≠ [] := by
      rcases hdec with hd | hd <;> rw [hd] <;> simp [hblne]
    have hB : ¬ (S "\n\n") <:+ text.take (findFrontmatterEnd text).toNat := by
      rcases hdec with hd | hd <;> rw [hd]
      · exact no_nlnl_suffix_of_last y bl hblne hnl
      · exact no_nlnl_suffix_of_last_nl y bl hblne hnl
    refine ⟨?_, hB⟩
    simp only [insertEntry]
    rw [if_pos h]
    rw [if_pos ⟨hNE, fun hx => hB (List.isSuffixOf_iff_suffix.mp hx)⟩]
  · intro h
    simp only [insertEntry]
    rw [if_neg (by omega)]
    simp only [List.take_zero, List.drop_zero]
    rw [if_neg (show ¬(([] : Str) ≠ [] ∧ ¬List.isSuffixOf (S "\n\n") ([] : Str) = true) by simp)]
    simp

/-- C7, witness: the amended theorem applied at concrete inputs
(one document with frontmatter, one without). -/
theorem C7_amended_witness :
    (insertEntry (S "---\na: 1\n---\n\n- x\n") (S "W") .prepend (S "F") mpNone oracleA =
        (S "---\na: 1\n---\n\n- x\n").take
            (findFrontmatterEnd (S "---\na: 1\n---\n\n- x\n")).toNat ++ ['\n'] ++
          formatEntryAsListItem (createEntryBlock (S "W") (S "F") none mpNone oracleA) ++
          (if (S "---\na: 1\n---\n\n- x\n").drop
                (findFrontmatterEnd (S "---\na: 1\n---\n\n- x\n")).toNat ≠ [] ∧
              ¬(S "\n").isPrefixOf ((S "---\na: 1\n---\n\n- x\n").drop
                (findFrontmatterEnd (S "---\na: 1\n---\n\n- x\n")).toNat)
            then ['\n'] else []) ++
          (S "---\na: 1\n---\n\n- x\n").drop
            (findFrontmatterEnd (S "---\na: 1\n---\n\n- x\n")).toNat ∧
      ¬ (S "\n\n") <:+ (S "---\na: 1\n---\n\n- x\n").take
            (findFrontmatterEnd (S "---\na: 1\n---\n\n- x\n")).toNat) ∧
    (insertEntry (S "z") (S "W") .prepend (S "F") mpNone oracleA =
        formatEntryAsListItem (createEntryBlock (S "W") (S "F") none mpNone oracleA) ++
          (if (S "z") ≠ [] ∧ ¬(S "\n").isPrefixOf (S "z") then ['\n'] else []) ++ S "z") :=
  ⟨(C7_amended (S "---\na: 1\n---\n\n- x\n") (S "W") (S "F") mpNone oracleA).1 (by decide),
    (C7_amended (S "z") (S "W") (S "F") mpNone oracleA).2 (by decide)⟩

/-! ## C5: oracle-independence of re-parse (amended) -/

set_option maxHeartbeats 2000000 in
/-- A `finalizeEntry` call that returns no entry does so independently of
the oracle (the discarding conditions are oracle-free). -/
theorem finalizeEntry_none_det (ce : RawEntry) (fmt : Str) (spans : List EntrySpan)
    (errors : List ParseError) (M : MomentLib) (O O' : Oracle)
    (hfe : finalizeEntry ce fmt spans errors M O = (none, spans, errors)) :
    finalizeEntry ce fmt spans errors M O' = (none, spans, errors) := by
  rw [finalizeEntry] at hfe ⊢
  by_cases h0 : ce.lines = []
  · rw [if_pos h0] at hfe ⊢
  · rw [if_neg h0] at hfe ⊢
    simp only [] at hfe ⊢
    by_cases h1 : trimJs (joinNl (stripLastLineMarker ce.lines).2) = []
    · rw [if_pos h1] at hfe ⊢
    · rw [if_neg h1] at hfe
      exact absurd hfe (by simp)

set_option maxHeartbeats 4000000 in
/-- A `finalizeEntry` call whose entry carries an explicit id and a parsed
timestamp is independent of the oracle. -/
theorem finalizeEntry_det (ce : RawEntry) (fmt : Str) (spans : List EntrySpan)
    (errors : List ParseError) (M : MomentLib) (O O' : Oracle)
    (e : MomentEntry) (sps : List EntrySpan) (ers : List ParseError)
    (hfe : finalizeEntry ce fmt spans errors M O = (some e, sps, ers))
    (hid : e.idMissing = false)
    (hts : (extractTimestampPrefix M e.rawWithPrefix fmt).1.isSome = true) :
    finalizeEntry ce fmt spans errors M O' = (some e, sps, ers) := by
  rw [finalizeEntry] at hfe ⊢
  by_cases h0 : ce.lines = []
  · rw [if_pos h0] at hfe
    exact absurd hfe (by simp)
  rw [if_neg h0] at hfe ⊢
  simp only [] at hfe ⊢
  generalize joinNl (stripLastLineMarker ce.lines).2 = A at hfe ⊢
  by_cases h1 : trimJs A = []
  · rw [if_pos h1] at hfe
    exact absurd hfe (by simp)
  rw [if_neg h1] at hfe ⊢
  generalize hg : (match (stripLastLineMarker ce.lines).1 with
    | some b => some b
    | none => (stripBlockIdFromContent A).2) = bid1 at hfe ⊢
  simp only [Prod.mk.injEq, Option.some.injEq] at hfe
  obtain ⟨rfl, rfl, rfl⟩ := hfe
  simp only [] at hid hts
  cases bid1 with
  | none => simp at hid
  | some b =>
    simp only [] at hts ⊢
    cases hts2 : (extractTimestampPrefix M
        (if (stripBlockIdFromContent A).1 ≠ [] then (stripBlockIdFromContent A).1 else A)
        fmt).1 with
    | none => rw [hts2] at hts; simp at hts
    | some t =>
      simp [Option.getD]

/-- An entry whose finalization used neither the random id generator nor
the clock: it carries an explicit id and a successfully parsed timestamp. -/
def DetEntry (M : MomentLib) (fmt : Str) (e : MomentEntry) : Prop :=
  e.idMissing = false ∧
    (extractTimestampPrefix M e.rawWithPrefix fmt).1.isSome = true

theorem finalizePendingToEntries_det (fmt : Str) (M : MomentLib) (O O' : Oracle)
    (st : ScanState)
    (h : ∀ e ∈ (finalizePendingToEntries fmt M O st).entries, DetEntry M fmt e) :
    finalizePendingToEntries fmt M O' st = finalizePendingToEntries fmt M O st := by
  simp only [finalizePendingToEntries] at h ⊢
  cases hce : st.currentEntry with
  | none => rfl
  | some ce =>
    rw [hce] at h
    dsimp only at h ⊢
    cases hr : finalizeEntry ce fmt st.spans st.errors M O with
    | mk o rest =>
      rw [hr] at h
      obtain ⟨sps2, ers2⟩ := rest
      cases o with
      | none =>
        obtain ⟨rfl, rfl⟩ := finalizeEntry_none_spec ce fmt st.spans st.errors M O sps2 ers2 hr
        rw [finalizeEntry_none_det ce fmt st.spans st.errors M O O' hr]
      | some e0 =>
        have hd : DetEntry M fmt e0 := by
          apply h
          dsimp only
          exact List.mem_append.mpr (Or.inr (List.mem_singleton.mpr rfl))
        rw [finalizeEntry_det ce fmt st.spans st.errors M O O' e0 sps2 ers2 hr hd.1 hd.2]

theorem finalizePendingRouted_det (fmt : Str) (M : MomentLib) (O O' : Oracle)
    (st : ScanState)
    (h : ∀ e ∈ (finalizePendingRouted fmt M O st).entries ++
        (finalizePendingRouted fmt M O st).archiveEntries, DetEntry M fmt e) :
    finalizePendingRouted fmt M O' st = finalizePendingRouted fmt M O st := by
  simp only [finalizePendingRouted] at h ⊢
  cases hce : st.currentEntry with
  | none => rfl
  | some ce =>
    rw [hce] at h
    dsimp only at h ⊢
    cases hr : finalizeEntry ce fmt st.spans st.errors M O with
    | mk o rest =>
      rw [hr] at h
      obtain ⟨sps2, ers2⟩ := rest
      cases o with
      | none =>
        obtain ⟨rfl, rfl⟩ := finalizeEntry_none_spec ce fmt st.spans st.errors M O sps2 ers2 hr
        rw [finalizeEntry_none_det ce fmt st.spans st.errors M O O' hr]
      | some e0 =>
        have hd : DetEntry M fmt e0 := by
          apply h
          dsimp only
          by_cases hia : st.inArchive
          · simp [hia]
          · simp [hia]
        rw [finalizeEntry_det ce fmt st.spans st.errors M O O' e0 sps2 ers2 hr hd.1 hd.2]

set_option maxHeartbeats 3000000 in
theorem scanStep_det (fmt : Str) (M : MomentLib) (O O' : Oracle)
    (st : ScanState) (l : Str)
    (h : ∀ e ∈ (scanStep fmt M O st l).entries ++
        (scanStep fmt M O st l).archiveEntries, DetEntry M fmt e) :
    scanStep fmt M O' st l = scanStep fmt M O st l := by
  simp only [scanStep] at h ⊢
  split_ifs at h ⊢ with h1 h2 h3 h3b h4 h5 h6 h7 h8
  · rfl
  · rfl
  · rfl
  · rfl
  · rw [finalizePendingToEntries_det fmt M O O' st
      (fun e he => h e (List.mem_append.mpr (Or.inl he)))]
  · rfl
  · rw [finalizePendingRouted_det fmt M O O' st h]
  · cases hce : st.currentEntry with
    | none => rfl
    | some ce => rfl
  · cases hce : st.currentEntry with
    | none => rfl
    | some ce => rfl
  · cases hce : st.currentEntry with
    | none => rfl
    | some ce =>
      rw [hce] at h
      dsimp only at h ⊢
      rw [finalizePendingRouted_det fmt M O O' st h]

theorem finalizePendingToEntries_prefix (fmt : Str) (M : MomentLib) (O : Oracle)
    (st : ScanState) :
    st.entries <+: (finalizePendingToEntries fmt M O st).entries ∧
      (finalizePendingToEntries fmt M O st).archiveEntries = st.archiveEntries := by
  rw [finalizePendingToEntries]
  cases hce : st.currentEntry with
  | none => exact ⟨List.prefix_refl _, rfl⟩
  | some ce =>
    dsimp only
    cases hr : finalizeEntry ce fmt st.spans st.errors M O with
    | mk o rest => exact ⟨⟨_, rfl⟩, rfl⟩

theorem finalizePendingRouted_prefix (fmt : Str) (M : MomentLib) (O : Oracle)
    (st : ScanState) :
    st.entries <+: (finalizePendingRouted fmt M O st).entries ∧
      st.archiveEntries <+: (finalizePendingRouted fmt M O st).archiveEntries := by
  rw [finalizePendingRouted]
  cases hce : st.currentEntry with
  | none => exact ⟨List.prefix_refl _, List.prefix_refl _⟩
  | some ce =>
    dsimp only
    cases hr : finalizeEntry ce fmt st.spans st.errors M O with
    | mk o rest =>
      by_cases hia : st.inArchive
      · simp only [hia, if_true]
        exact ⟨List.prefix_refl _, ⟨_, rfl⟩⟩
      · simp only [hia, if_false]
        exact ⟨⟨_, rfl⟩, List.prefix_refl _⟩

set_option maxHeartbeats 3000000 in
theorem scanStep_prefix (fmt : Str) (M : MomentLib) (O : Oracle)
    (st : ScanState) (l : Str) :
    st.entries <+: (scanStep fmt M O st l).entries ∧
      st.archiveEntries <+: (scanStep fmt M O st l).archiveEntries := by
  simp only [scanStep]
  split_ifs with h1 h2 h3 h3b h4 h5 h6 h7 h8
  · exact ⟨List.prefix_refl _, List.prefix_refl _⟩
  · exact ⟨List.prefix_refl _, List.prefix_refl _⟩
  · exact ⟨List.prefix_refl _, List.prefix_refl _⟩
  · exact ⟨List.prefix_refl _, List.prefix_refl _⟩
  · obtain ⟨he, ha⟩ := finalizePendingToEntries_prefix fmt M O st
    exact ⟨he, ha ▸ List.prefix_refl _⟩
  · exact ⟨List.prefix_refl _, List.prefix_refl _⟩
  · exact finalizePendingRouted_prefix fmt M O st
  · cases hce : st.currentEntry with
    | none => exact ⟨List.prefix_refl _, List.prefix_refl _⟩
    | some ce => exact ⟨List.prefix_refl _, List.prefix_refl _⟩
  · cases hce : st.currentEntry with
    | none => exact ⟨List.prefix_refl _, List.prefix_refl _⟩
    | some ce => exact ⟨List.prefix_refl _, List.prefix_refl _⟩
  · cases hce : st.currentEntry with
    | none => exact ⟨List.prefix_refl _, List.prefix_refl _⟩
    | some ce =>
      dsimp only
      exact finalizePendingRouted_prefix fmt M O st

theorem scanLines_prefix (fmt : Str) (M : MomentLib) (O : Oracle) :
    ∀ (ls : List Str) (st : ScanState),
      st.entries <+: (scanLines fmt M O st ls).entries ∧
        st.archiveEntries <+: (scanLines fmt M O st ls).archiveEntries := by
  intro ls
  induction ls with
  | nil => intro st; exact ⟨List.prefix_refl _, List.prefix_refl _⟩
  | cons l ls ih =>
    intro st
    rw [scanLines]
    obtain ⟨h1, h2⟩ := scanStep_prefix fmt M O st l
    obtain ⟨h3, h4⟩ := ih (scanStep fmt M O st l)
    exact ⟨h1.trans h3, h2.trans h4⟩

theorem scanLines_det (fmt : Str) (M : MomentLib) (O O' : Oracle) :
    ∀ (ls : List Str) (st : ScanState),
      (∀ e ∈ (finalizePendingRouted fmt M O (scanLines fmt M O st ls)).entries ++
          (finalizePendingRouted fmt M O (scanLines fmt M O st ls)).archiveEntries,
        DetEntry M fmt e) →
      scanLines fmt M O' st ls = scanLines fmt M O st ls ∧
        finalizePendingRouted fmt M O' (scanLines fmt M O st ls) =
          finalizePendingRouted fmt M O (scanLines fmt M O st ls) := by
  intro ls
  induction ls with
  | nil =>
    intro st h
    exact ⟨rfl, finalizePendingRouted_det fmt M O O' _ h⟩
  | cons l ls ih =>
    intro st h
    have hstepdet : ∀ e ∈ (scanStep fmt M O st l).entries ++
        (scanStep fmt M O st l).archiveEntries, DetEntry M fmt e := by
      intro e he
      apply h
      obtain ⟨hp1, hp2⟩ := scanLines_prefix fmt M O ls (scanStep fmt M O st l)
      obtain ⟨hp3, hp4⟩ :=
        finalizePendingRouted_prefix fmt M O (scanLines fmt M O (scanStep fmt M O st l) ls)
      rw [scanLines]
      rcases List.mem_append.mp he with he1 | he2
      · exact List.mem_append.mpr (Or.inl ((hp1.trans hp3).sublist.mem he1))
      · exact List.mem_append.mpr (Or.inr ((hp2.trans hp4).sublist.mem he2))
    have hstep := scanStep_det fmt M O O' st l hstepdet
    rw [scanLines] at h
    obtain ⟨ih1, ih2⟩ := ih (scanStep fmt M O st l) h
    constructor
    · rw [scanLines, scanLines, hstep, ih1]
    · rw [scanLines]
      exact ih2

/--
C5, amended.  Re-parse is structurally idempotent only for oracle-free
documents: if every entry of one parse carries an explicit identity marker
(`idMissing = false`) and a successfully extracted timestamp prefix, then
parsing the same text under any other randomness/clock (`Oracle`) yields
identical `entries` and `archiveEntries`.  (Otherwise fresh random ids and
`Date.now()` values differ between runs — see the counterexample.)
-/
theorem C5_amended (text fmt : Str) (M : MomentLib) (O O' : Oracle)
    (h : ∀ e ∈ allEntries (parseMomentsDoc text fmt M O),
      e.idMissing = false ∧
        (extractTimestampPrefix M e.rawWithPrefix fmt).1.isSome = true) :
    (parseMomentsDoc text fmt M O').entries = (parseMomentsDoc text fmt M O).entries ∧
      (parseMomentsDoc text fmt M O').archiveEntries =
        (parseMomentsDoc text fmt M O).archiveEntries := by
  have hdet := scanLines_det fmt M O O' (splitNl text) initState h
  constructor
  · show (finalizePendingRouted fmt M O' (scanLines fmt M O' initState (splitNl text))).entries = _
    rw [hdet.1, hdet.2]
    rfl
  · show (finalizePendingRouted fmt M O' (scanLines fmt M O' initState (splitNl text))).archiveEntries = _
    rw [hdet.1, hdet.2]
    rfl

/-- C5, witness: the amended theorem applied at a concrete input whose
single entry has an explicit marker and a parseable timestamp. -/
theorem C5_amended_witness :
    (∀ e ∈ allEntries (parseMomentsDoc (S "- T hi\n  ^m-aa\n") (S "F") mpT oracleA),
      e.idMissing = false ∧
        (extractTimestampPrefix mpT e.rawWithPrefix (S "F")).1.isSome = true) ∧
    (parseMomentsDoc (S "- T hi\n  ^m-aa\n") (S "F") mpT oracleB).entries =
      (parseMomentsDoc (S "- T hi\n  ^m-aa\n") (S "F") mpT oracleA).entries :=
  ⟨by decide, (C5_amended (S "- T hi\n  ^m-aa\n") (S "F") mpT oracleA oracleB (by decide)).1⟩

end Moments

namespace Moments

/-! ## C2: id-uniqueness machinery -/

/-- The ids of a list of entries, in order. -/
def entryIds (l : List MomentEntry) : List Str := l.map (fun e => e.id)

/-- The ids of a list of spans, in order. -/
def spanIds (l : List EntrySpan) : List Str := l.map (fun sp => sp.id)

/-- The ids of the entries that carry an explicit identity marker. -/
def explicitIds (l : List MomentEntry) : List Str :=
  (l.filter (fun e => e.idMissing = false)).map (fun e => e.id)

theorem entryIds_append (a b : List MomentEntry) :
    entryIds (a ++ b) = entryIds a ++ entryIds b := by
  simp [entryIds]

theorem explicitIds_append (a b : List MomentEntry) :
    explicitIds (a ++ b) = explicitIds a ++ explicitIds b := by
  simp [explicitIds]

theorem mem_explicitIds (l : List MomentEntry) (f : MomentEntry)
    (hf : f ∈ l) (hm : f.idMissing = false) : f.id ∈ explicitIds l :=
  List.mem_map.mpr ⟨f, List.mem_filter.mpr ⟨hf, by simp [hm]⟩, rfl⟩

theorem explicitIds_nil : explicitIds [] = [] := rfl

theorem explicitIds_cons (e : MomentEntry) (l : List MomentEntry) :
    explicitIds (e :: l) =
      (if e.idMissing = false then [e.id] else []) ++ explicitIds l := by
  by_cases h : e.idMissing = false
  · simp [explicitIds, List.filter_cons, h]
  · simp [explicitIds, List.filter_cons, h]

theorem not_nodup_two_mem {α : Type} (A B : List α) (x : α)
    (hA : x ∈ A) (hB : x ∈ B) : ¬ (A ++ B).Nodup :=
  fun h => (List.disjoint_of_nodup_append h) hA hB

theorem mapSet_append (m : List EntrySpan) (sp : EntrySpan)
    (h : sp.id ∉ spanIds m) : mapSet m sp = m ++ [sp] := by
  rw [mapSet, if_neg]
  intro hc
  rcases List.any_eq_true.mp hc with ⟨g, hg, hgid⟩
  exact h (List.mem_map.mpr ⟨g, hg, of_decide_eq_true hgid⟩)

theorem spanIds_mapSet (m : List EntrySpan) (sp : EntrySpan)
    (h : sp.id ∉ spanIds m) : spanIds (mapSet m sp) = spanIds m ++ [sp.id] := by
  rw [mapSet_append m sp h]
  simp [spanIds]

theorem entryIds_singleton (e : MomentEntry) : entryIds [e] = [e.id] := rfl

theorem nodup_push_left (a b : List MomentEntry) (e : MomentEntry)
    (h : (entryIds (a ++ b)).Nodup) (hx : e.id ∉ entryIds (a ++ b)) :
    (entryIds ((a ++ [e]) ++ b)).Nodup := by
  have hperm : List.Perm (entryIds ((a ++ [e]) ++ b))
      (e.id :: entryIds (a ++ b)) := by
    rw [entryIds_append, entryIds_append, entryIds_append, entryIds_singleton]
    exact List.Perm.append_right (entryIds b)
      (@List.perm_append_comm _ (entryIds a) [e.id])
  exact hperm.nodup_iff.mpr (List.nodup_cons.mpr ⟨hx, h⟩)

theorem nodup_push_right (a b : List MomentEntry) (e : MomentEntry)
    (h : (entryIds (a ++ b)).Nodup) (hx : e.id ∉ entryIds (a ++ b)) :
    (entryIds (a ++ (b ++ [e]))).Nodup := by
  have hperm : List.Perm (entryIds (a ++ (b ++ [e])))
      (e.id :: entryIds (a ++ b)) := by
    rw [entryIds_append, entryIds_append, entryIds_append, entryIds_singleton]
    have h1 : List.Perm (entryIds b ++ [e.id]) ([e.id] ++ entryIds b) :=
      List.perm_append_comm
    have h2 := List.Perm.append_left (entryIds a) h1
    exact h2.trans List.perm_middle
  exact hperm.nodup_iff.mpr (List.nodup_cons.mpr ⟨hx, h⟩)

theorem mem_entryIds_push_left (a b : List MomentEntry) (e : MomentEntry) (y : Str) :
    y ∈ entryIds ((a ++ [e]) ++ b) ↔ y = e.id ∨ y ∈ entryIds (a ++ b) := by
  rw [entryIds_append, entryIds_append, entryIds_append, entryIds_singleton]
  simp only [List.mem_append, List.mem_singleton]
  tauto

theorem mem_entryIds_push_right (a b : List MomentEntry) (e : MomentEntry) (y : Str) :
    y ∈ entryIds (a ++ (b ++ [e])) ↔ y = e.id ∨ y ∈ entryIds (a ++ b) := by
  rw [entryIds_append, entryIds_append, entryIds_append, entryIds_singleton]
  simp only [List.mem_append, List.mem_singleton]
  tauto


theorem finalizePendingToEntries_cases (fmt : Str) (M : MomentLib) (O : Oracle)
    (st : ScanState) :
    ((finalizePendingToEntries fmt M O st).entries = st.entries ∧
     (finalizePendingToEntries fmt M O st).archiveEntries = st.archiveEntries ∧
     (finalizePendingToEntries fmt M O st).spans = st.spans) ∨
    ∃ ce e sps ers,
      st.currentEntry = some ce ∧
      finalizeEntry ce fmt st.spans st.errors M O = (some e, sps, ers) ∧
      (finalizePendingToEntries fmt M O st).entries = st.entries ++ [e] ∧
      (finalizePendingToEntries fmt M O st).archiveEntries = st.archiveEntries ∧
      (finalizePendingToEntries fmt M O st).spans = sps := by
  rw [finalizePendingToEntries]
  cases hce : st.currentEntry with
  | none => exact Or.inl ⟨rfl, rfl, rfl⟩
  | some ce =>
    dsimp only
    cases hr : finalizeEntry ce fmt st.spans st.errors M O with
    | mk o rest =>
      cases o with
      | none =>
        obtain ⟨hs, he⟩ :=
          finalizeEntry_none_spec ce fmt st.spans st.errors M O rest.1 rest.2
            (by rw [hr])
        exact Or.inl ⟨by simp, rfl, hs⟩
      | some e =>
        exact Or.inr ⟨ce, e, rest.1, rest.2, rfl, by rw [hr], by simp, rfl, rfl⟩

theorem finalizePendingRouted_cases (fmt : Str) (M : MomentLib) (O : Oracle)
    (st : ScanState) :
    ((finalizePendingRouted fmt M O st).entries = st.entries ∧
     (finalizePendingRouted fmt M O st).archiveEntries = st.archiveEntries ∧
     (finalizePendingRouted fmt M O st).spans = st.spans) ∨
    ∃ ce e sps ers,
      st.currentEntry = some ce ∧
      finalizeEntry ce fmt st.spans st.errors M O = (some e, sps, ers) ∧
      (finalizePendingRouted fmt M O st).spans = sps ∧
      (((finalizePendingRouted fmt M O st).entries = st.entries ++ [e] ∧
        (finalizePendingRouted fmt M O st).archiveEntries = st.archiveEntries) ∨
       ((finalizePendingRouted fmt M O st).entries = st.entries ∧
        (finalizePendingRouted fmt M O st).archiveEntries =
          st.archiveEntries ++ [e])) := by
  rw [finalizePendingRouted]
  cases hce : st.currentEntry with
  | none => exact Or.inl ⟨rfl, rfl, rfl⟩
  | some ce =>
    dsimp only
    cases hr : finalizeEntry ce fmt st.spans st.errors M O with
    | mk o rest =>
      cases o with
      | none =>
        obtain ⟨hs, he⟩ :=
          finalizeEntry_none_spec ce fmt st.spans st.errors M O rest.1 rest.2
            (by rw [hr])
        refine Or.inl ⟨?_, ?_, hs⟩
        · by_cases hia : st.inArchive <;> simp [hia]
        · by_cases hia : st.inArchive <;> simp [hia]
      | some e =>
        refine Or.inr ⟨ce, e, rest.1, rest.2, rfl, by rw [hr], rfl, ?_⟩
        by_cases hia : st.inArchive
        · exact Or.inr ⟨by simp [hia], by simp [hia]⟩
        · exact Or.inl ⟨by simp [hia], by simp [hia]⟩

set_option maxHeartbeats 3000000 in
theorem scanStep_cases (fmt : Str) (M : MomentLib) (O : Oracle)
    (st : ScanState) (l : Str) :
    ((scanStep fmt M O st l).entries = st.entries ∧
     (scanStep fmt M O st l).archiveEntries = st.archiveEntries ∧
     (scanStep fmt M O st l).spans = st.spans) ∨
    ((scanStep fmt M O st l).entries = (finalizePendingToEntries fmt M O st).entries ∧
     (scanStep fmt M O st l).archiveEntries =
       (finalizePendingToEntries fmt M O st).archiveEntries ∧
     (scanStep fmt M O st l).spans = (finalizePendingToEntries fmt M O st).spans) ∨
    ((scanStep fmt M O st l).entries = (finalizePendingRouted fmt M O st).entries ∧
     (scanStep fmt M O st l).archiveEntries =
       (finalizePendingRouted fmt M O st).archiveEntries ∧
     (scanStep fmt M O st l).spans = (finalizePendingRouted fmt M O st).spans) := by
  simp only [scanStep]
  split_ifs with h1 h2 h3 h3b h4 h5 h6 h7 h8
  · exact Or.inl ⟨rfl, rfl, rfl⟩
  · exact Or.inl ⟨rfl, rfl, rfl⟩
  · exact Or.inl ⟨rfl, rfl, rfl⟩
  · exact Or.inl ⟨rfl, rfl, rfl⟩
  · exact Or.inr (Or.inl ⟨rfl, rfl, rfl⟩)
  · exact Or.inl ⟨rfl, rfl, rfl⟩
  · exact Or.inr (Or.inr ⟨rfl, rfl, rfl⟩)
  · cases hce : st.currentEntry with
    | none => exact Or.inl ⟨rfl, rfl, rfl⟩
    | some ce => exact Or.inl ⟨rfl, rfl, rfl⟩
  · cases hce : st.currentEntry with
    | none => exact Or.inl ⟨rfl, rfl, rfl⟩
    | some ce => exact Or.inl ⟨rfl, rfl, rfl⟩
  · cases hce : st.currentEntry with
    | none => exact Or.inl ⟨rfl, rfl, rfl⟩
    | some ce =>
      dsimp only
      exact Or.inr (Or.inr ⟨rfl, rfl, rfl⟩)

theorem scanStep_push (fmt : Str) (M : MomentLib) (O : Oracle)
    (st : ScanState) (l : Str) :
    ((scanStep fmt M O st l).entries = st.entries ∧
     (scanStep fmt M O st l).archiveEntries = st.archiveEntries ∧
     (scanStep fmt M O st l).spans = st.spans) ∨
    ∃ ce e sps ers,
      st.currentEntry = some ce ∧
      finalizeEntry ce fmt st.spans st.errors M O = (some e, sps, ers) ∧
      (scanStep fmt M O st l).spans = sps ∧
      (((scanStep fmt M O st l).entries = st.entries ++ [e] ∧
        (scanStep fmt M O st l).archiveEntries = st.archiveEntries) ∨
       ((scanStep fmt M O st l).entries = st.entries ∧
        (scanStep fmt M O st l).archiveEntries = st.archiveEntries ++ [e])) := by
  rcases scanStep_cases fmt M O st l with h | h | h
  · exact Or.inl h
  · rcases finalizePendingToEntries_cases fmt M O st with
      hc | ⟨ce, e, sps, ers, hce, hfe, he, ha, hs⟩
    · exact Or.inl ⟨h.1.trans hc.1, h.2.1.trans hc.2.1, h.2.2.trans hc.2.2⟩
    · exact Or.inr ⟨ce, e, sps, ers, hce, hfe, h.2.2.trans hs,
        Or.inl ⟨h.1.trans he, h.2.1.trans ha⟩⟩
  · rcases finalizePendingRouted_cases fmt M O st with
      hc | ⟨ce, e, sps, ers, hce, hfe, hs, hdisj⟩
    · exact Or.inl ⟨h.1.trans hc.1, h.2.1.trans hc.2.1, h.2.2.trans hc.2.2⟩
    · refine Or.inr ⟨ce, e, sps, ers, hce, hfe, h.2.2.trans hs, ?_⟩
      rcases hdisj with ⟨he, ha⟩ | ⟨he, ha⟩
      · exact Or.inl ⟨h.1.trans he, h.2.1.trans ha⟩
      · exact Or.inr ⟨h.1.trans he, h.2.1.trans ha⟩


/--
If the final scan result extends the current state by a pushed entry `e`
(in either the active or the archive list) and the final entry lists
satisfy the two id-hygiene hypotheses (distinct explicit markers; no
explicit marker equal to a generated id), and the generator avoids
existing span ids, then the pushed entry's id is fresh for the ids
accumulated so far.
-/
theorem push_fresh (fmt : Str) (M : MomentLib) (O : Oracle)
    (Hgen : ∀ s, O.genId s ∉ s)
    (st : ScanState) (ce : RawEntry) (e : MomentEntry)
    (sps : List EntrySpan) (ers : List ParseError)
    (hfe : finalizeEntry ce fmt st.spans st.errors M O = (some e, sps, ers))
    (finE finA : List MomentEntry)
    (hshape :
      (∃ u v, finE = (st.entries ++ [e]) ++ u ∧ finA = st.archiveEntries ++ v) ∨
      (∃ u v, finE = st.entries ++ u ∧ finA = (st.archiveEntries ++ [e]) ++ v))
    (H1 : (explicitIds (finE ++ finA)).Nodup)
    (H2 : ∀ a ∈ finE ++ finA, ∀ b ∈ finE ++ finA,
        a.idMissing = false → b.idMissing = true → a.id ≠ b.id)
    (hiff : ∀ y, y ∈ spanIds st.spans ↔
        y ∈ entryIds (st.entries ++ st.archiveEntries)) :
    e.id ∉ entryIds (st.entries ++ st.archiveEntries) := by
  obtain ⟨A, W, bid1, hA, hAne, hW, hbid1, hrwp, hraw, hts, hid, hidm, hsps, hers⟩ :=
    finalizeEntry_some_spec ce fmt st.spans st.errors M O e sps ers hfe
  intro hmem
  have heFin : e ∈ finE ++ finA := by
    rcases hshape with ⟨u, v, hE, hA2⟩ | ⟨u, v, hE, hA2⟩
    · exact List.mem_append_left _
        (hE ▸ List.mem_append_left u (List.mem_append_right _ (List.mem_singleton_self e)))
    · exact List.mem_append_right _
        (hA2 ▸ List.mem_append_left v (List.mem_append_right _ (List.mem_singleton_self e)))
  cases hcase : e.idMissing with
  | true =>
    have hgenid : e.id = O.genId (spanIds st.spans) := by
      cases hb : bid1 with
      | none => rw [hid, hb]; rfl
      | some b => rw [hidm, hb] at hcase; simp at hcase
    have h2 : O.genId (spanIds st.spans) ∈ spanIds st.spans := by
      rw [← hgenid]
      exact (hiff e.id).mpr hmem
    exact Hgen (spanIds st.spans) h2
  | false =>
    rw [entryIds] at hmem
    obtain ⟨f, hfMem, hfid⟩ := List.mem_map.mp hmem
    have hfFin : f ∈ finE ++ finA := by
      rcases List.mem_append.mp hfMem with hfe2 | hfa
      · rcases hshape with ⟨u, v, hE, _⟩ | ⟨u, v, hE, _⟩
        · exact List.mem_append_left _
            (hE ▸ List.mem_append_left u (List.mem_append_left _ hfe2))
        · exact List.mem_append_left _ (hE ▸ List.mem_append_left u hfe2)
      · rcases hshape with ⟨u, v, _, hA2⟩ | ⟨u, v, _, hA2⟩
        · exact List.mem_append_right _ (hA2 ▸ List.mem_append_left v hfa)
        · exact List.mem_append_right _
            (hA2 ▸ List.mem_append_left v (List.mem_append_left _ hfa))
    cases hfm : f.idMissing with
    | true => exact H2 e heFin f hfFin hcase hfm hfid.symm
    | false =>
      rcases List.mem_append.mp hfMem with hfe2 | hfa
      · rcases hshape with ⟨u, v, hE, hA2⟩ | ⟨u, v, hE, hA2⟩
        · refine not_nodup_two_mem (explicitIds st.entries)
            (explicitIds [e] ++ (explicitIds u ++
              (explicitIds st.archiveEntries ++ explicitIds v)))
            e.id ?_ ?_ ?_
          · exact hfid ▸ mem_explicitIds _ f hfe2 hfm
          · exact List.mem_append_left _
              (mem_explicitIds _ e (List.mem_singleton_self e) hcase)
          · rw [hE, hA2] at H1
            simpa [explicitIds_append, explicitIds_cons, explicitIds_nil, hcase,
              List.append_assoc] using H1
        · refine not_nodup_two_mem (explicitIds st.entries)
            (explicitIds u ++ (explicitIds st.archiveEntries ++
              (explicitIds [e] ++ explicitIds v)))
            e.id ?_ ?_ ?_
          · exact hfid ▸ mem_explicitIds _ f hfe2 hfm
          · exact List.mem_append_right _ (List.mem_append_right _
              (List.mem_append_left _
                (mem_explicitIds _ e (List.mem_singleton_self e) hcase)))
          · rw [hE, hA2] at H1
            simpa [explicitIds_append, explicitIds_cons, explicitIds_nil, hcase,
              List.append_assoc] using H1
      · rcases hshape with ⟨u, v, hE, hA2⟩ | ⟨u, v, hE, hA2⟩
        · refine not_nodup_two_mem
            (explicitIds st.entries ++ (explicitIds [e] ++ explicitIds u))
            (explicitIds st.archiveEntries ++ explicitIds v)
            e.id ?_ ?_ ?_
          · exact List.mem_append_right _ (List.mem_append_left _
              (mem_explicitIds _ e (List.mem_singleton_self e) hcase))
          · exact List.mem_append_left _ (hfid ▸ mem_explicitIds _ f hfa hfm)
          · rw [hE, hA2] at H1
            simpa [explicitIds_append, explicitIds_cons, explicitIds_nil, hcase,
              List.append_assoc] using H1
        · refine not_nodup_two_mem
            (explicitIds st.entries ++ (explicitIds u ++ explicitIds st.archiveEntries))
            (explicitIds [e] ++ explicitIds v)
            e.id ?_ ?_ ?_
          · exact List.mem_append_right _ (List.mem_append_right _
              (hfid ▸ mem_explicitIds _ f hfa hfm))
          · exact List.mem_append_left _
              (mem_explicitIds _ e (List.mem_singleton_self e) hcase)
          · rw [hE, hA2] at H1
            simpa [explicitIds_append, explicitIds_cons, explicitIds_nil, hcase,
              List.append_assoc] using H1


/--
Invariant propagation for the whole scan: if the final entry lists have
pairwise-distinct explicit ids and no explicit id collides with a
generated one, the generator avoids existing span ids, and the ids
accumulated so far are distinct and coextensive with the span ids, then
the final entry ids are pairwise distinct.
-/
theorem scan_nodup (fmt : Str) (M : MomentLib) (O : Oracle)
    (Hgen : ∀ s, O.genId s ∉ s) :
    ∀ (ls : List Str) (st : ScanState),
      (explicitIds ((finalizePendingRouted fmt M O (scanLines fmt M O st ls)).entries ++
          (finalizePendingRouted fmt M O (scanLines fmt M O st ls)).archiveEntries)).Nodup →
      (∀ a ∈ (finalizePendingRouted fmt M O (scanLines fmt M O st ls)).entries ++
          (finalizePendingRouted fmt M O (scanLines fmt M O st ls)).archiveEntries,
        ∀ b ∈ (finalizePendingRouted fmt M O (scanLines fmt M O st ls)).entries ++
          (finalizePendingRouted fmt M O (scanLines fmt M O st ls)).archiveEntries,
        a.idMissing = false → b.idMissing = true → a.id ≠ b.id) →
      (∀ y, y ∈ spanIds st.spans ↔
          y ∈ entryIds (st.entries ++ st.archiveEntries)) →
      (entryIds (st.entries ++ st.archiveEntries)).Nodup →
      (entryIds ((finalizePendingRouted fmt M O (scanLines fmt M O st ls)).entries ++
          (finalizePendingRouted fmt M O (scanLines fmt M O st ls)).archiveEntries)).Nodup := by
  intro ls
  induction ls with
  | nil =>
    intro st H1 H2 hiff hnodup
    simp only [scanLines] at H1 H2 ⊢
    rcases finalizePendingRouted_cases fmt M O st with
      hc | ⟨ce, e, sps, ers, hce, hfe, hs, hdisj⟩
    · rw [hc.1, hc.2.1]
      exact hnodup
    · have hx : e.id ∉ entryIds (st.entries ++ st.archiveEntries) := by
        refine push_fresh fmt M O Hgen st ce e sps ers hfe
          (finalizePendingRouted fmt M O st).entries
          (finalizePendingRouted fmt M O st).archiveEntries ?_ H1 H2 hiff
        rcases hdisj with ⟨he, ha⟩ | ⟨he, ha⟩
        · exact Or.inl ⟨[], [], by rw [he, List.append_nil],
            by rw [ha, List.append_nil]⟩
        · exact Or.inr ⟨[], [], by rw [he, List.append_nil],
            by rw [ha, List.append_nil]⟩
      rcases hdisj with ⟨he, ha⟩ | ⟨he, ha⟩
      · rw [he, ha]; exact nodup_push_left _ _ _ hnodup hx
      · rw [he, ha]; exact nodup_push_right _ _ _ hnodup hx
  | cons l ls ih =>
    intro st H1 H2 hiff hnodup
    simp only [scanLines] at H1 H2 ⊢
    rcases scanStep_push fmt M O st l with
      hc | ⟨ce, e, sps, ers, hce, hfe, hs, hdisj⟩
    · refine ih (scanStep fmt M O st l) H1 H2 ?_ ?_
      · intro y
        rw [hc.2.2, hc.1, hc.2.1]
        exact hiff y
      · rw [hc.1, hc.2.1]
        exact hnodup
    · have hx : e.id ∉ entryIds (st.entries ++ st.archiveEntries) := by
        refine push_fresh fmt M O Hgen st ce e sps ers hfe
          (finalizePendingRouted fmt M O
            (scanLines fmt M O (scanStep fmt M O st l) ls)).entries
          (finalizePendingRouted fmt M O
            (scanLines fmt M O (scanStep fmt M O st l) ls)).archiveEntries
          ?_ H1 H2 hiff
        obtain ⟨hpe, hpa⟩ := scanLines_prefix fmt M O ls (scanStep fmt M O st l)
        obtain ⟨hre, hra⟩ := finalizePendingRouted_prefix fmt M O
          (scanLines fmt M O (scanStep fmt M O st l) ls)
        obtain ⟨u1, hu1⟩ := hpe.trans hre
        obtain ⟨v1, hv1⟩ := hpa.trans hra
        rcases hdisj with ⟨he, ha⟩ | ⟨he, ha⟩
        · exact Or.inl ⟨u1, v1, by rw [← hu1, he], by rw [← hv1, ha]⟩
        · exact Or.inr ⟨u1, v1, by rw [← hu1, he], by rw [← hv1, ha]⟩
      have hspan : spanIds (scanStep fmt M O st l).spans =
          spanIds st.spans ++ [e.id] := by
        obtain ⟨A, W, bid1, hA, hAne, hW, hbid1, hrwp, hraw, hts, hid, hidm,
          hsps, hers⟩ :=
          finalizeEntry_some_spec ce fmt st.spans st.errors M O e sps ers hfe
        rw [hs, hsps]
        exact spanIds_mapSet st.spans ⟨e.id, ce.startOffset, ce.endOffset⟩
          (fun hmem => hx ((hiff e.id).mp hmem))
      refine ih (scanStep fmt M O st l) H1 H2 ?_ ?_
      · intro y
        rw [hspan]
        rcases hdisj with ⟨he, ha⟩ | ⟨he, ha⟩
        · rw [he, ha, mem_entryIds_push_left]
          simp only [List.mem_append, List.mem_singleton]
          rw [hiff y]
          tauto
        · rw [he, ha, mem_entryIds_push_right]
          simp only [List.mem_append, List.mem_singleton]
          rw [hiff y]
          tauto
      · rcases hdisj with ⟨he, ha⟩ | ⟨he, ha⟩
        · rw [he, ha]; exact nodup_push_left _ _ _ hnodup hx
        · rw [he, ha]; exact nodup_push_right _ _ _ hnodup hx

/-- Maximal length of the strings of a list. -/
def listMaxLen (s : List Str) : Nat := (s.map List.length).foldr max 0

theorem le_listMaxLen (s : List Str) (x : Str) (hx : x ∈ s) :
    x.length ≤ listMaxLen s := by
  induction s with
  | nil => cases hx
  | cons y t ih =>
    rcases List.mem_cons.mp hx with rfl | h
    · exact le_max_left _ _
    · exact le_trans (ih h) (le_max_right _ _)

/-- An id generator that provably avoids every existing id: it returns
`m-aa…a` with one more `a` than the longest existing id. -/
def freshGen : Oracle :=
  ⟨fun s => 'm' :: '-' :: List.replicate (listMaxLen s + 1) 'a', 0⟩

theorem freshGen_fresh : ∀ s : List Str, freshGen.genId s ∉ s := by
  intro s hmem
  have h1 := le_listMaxLen s _ hmem
  have h2 : (freshGen.genId s).length = listMaxLen s + 3 := by
    show ('m' :: '-' :: List.replicate (listMaxLen s + 1) 'a').length =
      listMaxLen s + 3
    simp only [List.length_cons, List.length_replicate]
  omega

/--
C2.  As stated ("all entries have unique IDs; the parser reassigns
duplicate markers") the claim is false: duplicate explicit `^m-…` markers
are kept verbatim, producing duplicate entry ids
(`C2_counterexample`).  Amended: entry ids (active and archived together)
are pairwise distinct provided (a) the random generator always avoids the
ids already recorded in the spans map, (b) the document's explicit
markers are pairwise distinct, and (c) no explicit marker collides with a
generated id.
-/
theorem C2_amended (text fmt : Str) (M : MomentLib) (O : Oracle)
    (Hgen : ∀ s, O.genId s ∉ s)
    (H1 : (explicitIds (allEntries (parseMomentsDoc text fmt M O))).Nodup)
    (H2 : ∀ a ∈ allEntries (parseMomentsDoc text fmt M O),
        ∀ b ∈ allEntries (parseMomentsDoc text fmt M O),
        a.idMissing = false → b.idMissing = true → a.id ≠ b.id) :
    ((allEntries (parseMomentsDoc text fmt M O)).map (fun e => e.id)).Nodup := by
  have hEq : allEntries (parseMomentsDoc text fmt M O) =
      (finalizePendingRouted fmt M O
        (scanLines fmt M O initState (splitNl text))).entries ++
      (finalizePendingRouted fmt M O
        (scanLines fmt M O initState (splitNl text))).archiveEntries := rfl
  rw [hEq] at H1 H2
  have h := scan_nodup fmt M O Hgen (splitNl text) initState H1 H2
    (by intro y; simp [spanIds, entryIds, initState])
    (by simp [entryIds, initState])
  rw [hEq]
  exact h

theorem C2_amended_witness :
    ((allEntries (parseMomentsDoc (S "- T a ^m-aa\n- T b ^m-bb\n") (S "F")
        mpNone freshGen)).map (fun e => e.id)).Nodup :=
  C2_amended (S "- T a ^m-aa\n- T b ^m-bb\n") (S "F") mpNone freshGen
    freshGen_fresh (by decide) (by decide)


/-! ## C1: span alignment machinery -/

theorem take_lineEndNoNl (L : List Str) (m : Nat) (hm : m < L.length) :
    (joinNl L).take (lineStart L m + (L.getD m []).length) =
      joinNl (L.take (m + 1)) := by
  induction L generalizing m with
  | nil => simp at hm
  | cons l ls ih =>
    cases m with
    | zero =>
      rw [lineStart_zero]
      cases ls with
      | nil =>
        show (joinNl [l]).take (0 + (List.getD [l] 0 []).length) =
          joinNl ([l].take 1)
        have h1 : ([l] : List Str).getD 0 [] = l := rfl
        rw [h1]
        show l.take (0 + l.length) = joinNl [l]
        rw [List.take_of_length_le (by omega)]
        rfl
      | cons a b =>
        rw [joinNl_cons _ _ (by simp)]
        simp only [List.getD_cons_zero, Nat.zero_add]
        have h1 : l ++ '\n' :: joinNl (a :: b) = (l ++ ['\n']) ++ joinNl (a :: b) := by
          simp
        rw [h1, show l.length = (l ++ ['\n']).length - 1 from by simp]
        rw [List.take_append_eq_append_take]
        have h2 : (l ++ ['\n']).length - 1 - (l ++ ['\n']).length = 0 := by simp
        rw [h2]
        simp [joinNl, List.take_append]
    | succ m =>
      have hm2 : m < ls.length := by simpa using hm
      have hlsne : ls ≠ [] := by
        cases ls
        · simp at hm2
        · simp
      rw [lineStart_succ_cons, joinNl_cons _ _ hlsne]
      have e1 : l ++ '\n' :: joinNl ls = (l ++ ['\n']) ++ joinNl ls := by simp
      have e2 : l.length + 1 + lineStart ls m + (List.getD (l :: ls) (m + 1) []).length =
          (l ++ ['\n']).length + (lineStart ls m + (List.getD ls m []).length) := by
        simp [List.getD_cons_succ]
        omega
      have htk : ls.take (m + 1) ≠ [] := by
        cases hls2 : ls.take (m + 1)
        · have := List.length_take (m + 1) ls
          rw [hls2] at this
          simp at this
          omega
        · simp
      rw [e1, e2, List.take_append, ih m hm2, List.take_cons (by omega)]
      simp only [Nat.add_sub_cancel]
      rw [joinNl_cons l (ls.take (m + 1)) htk]
      simp [List.append_assoc]

theorem lineStart_drop (L : List Str) (i m : Nat) :
    lineStart L (i + m) = lineStart L i + lineStart (L.drop i) m := by
  induction i generalizing L with
  | zero => simp [lineStart_zero]
  | succ i ih =>
    cases L with
    | nil => simp [lineStart]
    | cons l ls =>
      rw [show i + 1 + m = (i + m) + 1 from by omega, lineStart_succ_cons,
        lineStart_succ_cons, ih ls]
      show l.length + 1 + (lineStart ls i + lineStart (ls.drop i) m) =
        l.length + 1 + lineStart ls i + lineStart ((l :: ls).drop (i + 1)) m
      rw [List.drop_succ_cons]
      omega

theorem getD_drop (L : List Str) (i m : Nat) :
    (L.drop i).getD m [] = L.getD (i + m) [] := by
  induction L generalizing i with
  | nil => simp
  | cons l ls ih =>
    cases i with
    | zero => simp
    | succ i =>
      show (ls.drop i).getD m [] = (l :: ls).getD (i + 1 + m) []
      rw [show i + 1 + m = (i + m) + 1 from by omega, List.getD_cons_succ]
      exact ih i

theorem mem_mapSet (m : List EntrySpan) (sp x : EntrySpan)
    (hx : x ∈ mapSet m sp) : x ∈ m ∨ x = sp := by
  rw [mapSet] at hx
  split at hx
  · rcases List.mem_map.mp hx with ⟨g, hg, hgx⟩
    by_cases h : g.id = sp.id
    · right
      rw [if_pos h] at hgx
      exact hgx.symm
    · left
      rw [if_neg h] at hgx
      exact hgx ▸ hg
  · rcases List.mem_append.mp hx with h | h
    · exact Or.inl h
    · right
      simpa using h

theorem finalizePendingToEntries_ce (fmt : Str) (M : MomentLib) (O : Oracle)
    (st : ScanState) :
    (finalizePendingToEntries fmt M O st).currentEntry = none := by
  rw [finalizePendingToEntries]
  cases hce : st.currentEntry with
  | none => exact hce
  | some ce => rfl

theorem finalizePendingRouted_ce (fmt : Str) (M : MomentLib) (O : Oracle)
    (st : ScanState) :
    (finalizePendingRouted fmt M O st).currentEntry = none := by
  rw [finalizePendingRouted]
  cases hce : st.currentEntry with
  | none => exact hce
  | some ce => rfl


set_option maxHeartbeats 2000000 in
theorem scanStep_lineOffset (fmt : Str) (M : MomentLib) (O : Oracle)
    (st : ScanState) (l : Str) :
    (scanStep fmt M O st l).lineOffset = st.lineOffset + l.length + 1 := by
  simp only [scanStep]
  split_ifs with h1 h2 h3 h3b h4 h5 h6 h7 h8
  · rfl
  · rfl
  · rfl
  · rfl
  · rfl
  · rfl
  · rfl
  · cases hce : st.currentEntry with
    | none => rfl
    | some ce => rfl
  · cases hce : st.currentEntry with
    | none => rfl
    | some ce => rfl
  · cases hce : st.currentEntry with
    | none => rfl
    | some ce => rfl

set_option maxHeartbeats 3000000 in
theorem scanStep_currentEntry (fmt : Str) (M : MomentLib) (O : Oracle)
    (st : ScanState) (l : Str) :
    (scanStep fmt M O st l).currentEntry = none ∨
    (scanStep fmt M O st l).currentEntry = st.currentEntry ∨
    (isListItem l = true ∧
      (scanStep fmt M O st l).currentEntry =
        some ⟨[l.drop 2], st.lineOffset, st.lineOffset + l.length⟩) ∨
    (∃ ce lines2, st.currentEntry = some ce ∧
      (scanStep fmt M O st l).currentEntry =
        some ⟨lines2, ce.startOffset, st.lineOffset + l.length⟩) := by
  simp only [scanStep]
  split_ifs
  all_goals try exact Or.inr (Or.inl rfl)
  all_goals try exact Or.inl (finalizePendingToEntries_ce fmt M O st)
  all_goals try exact Or.inr (Or.inr (Or.inl ⟨by assumption, rfl⟩))
  all_goals cases hce : st.currentEntry
  all_goals try dsimp only
  all_goals try exact Or.inr (Or.inl rfl)
  all_goals try exact Or.inl (finalizePendingRouted_ce fmt M O st)
  all_goals exact Or.inr (Or.inr (Or.inr ⟨_, _, rfl, rfl⟩))


/-- The span covers whole lines `i..j` of the line list `L`: it starts at
the beginning of list-item line `i` and ends at the offset one past the
last character of line `j` (the position of that line's newline). -/
def SpanAligned (L : List Str) (sp : EntrySpan) : Prop :=
  ∃ i j : Nat, i ≤ j ∧ j < L.length ∧
    isListItem (L.getD i []) = true ∧
    sp.start = lineStart L i ∧
    sp.endOff = lineStart L j + (L.getD j []).length

/-- Same alignment property for the pending raw entry, whose last line is
among the first `k` processed lines. -/
def RawAligned (L : List Str) (k : Nat) (ce : RawEntry) : Prop :=
  ∃ i j : Nat, i ≤ j ∧ j < k ∧
    isListItem (L.getD i []) = true ∧
    ce.startOffset = lineStart L i ∧
    ce.endOffset = lineStart L j + (L.getD j []).length

theorem scan_aligned (fmt : Str) (M : MomentLib) (O : Oracle) (L : List Str) :
    ∀ (ls : List Str) (k : Nat) (st : ScanState),
      L.drop k = ls → k ≤ L.length →
      st.lineOffset = lineStart L k →
      (∀ sp ∈ st.spans, SpanAligned L sp) →
      (∀ ce, st.currentEntry = some ce → RawAligned L k ce) →
      ∀ sp ∈ (finalizePendingRouted fmt M O (scanLines fmt M O st ls)).spans,
        SpanAligned L sp := by
  intro ls
  induction ls with
  | nil =>
    intro k st hdrop hk hoff hspans hcur
    simp only [scanLines]
    intro sp hsp
    have hkL : L.length ≤ k := by
      by_contra hc
      rw [List.drop_eq_nil_iff] at hdrop
      omega
    rcases finalizePendingRouted_cases fmt M O st with
      hc | ⟨ce, e, sps, ers, hce, hfe, hs, hdisj⟩
    · rw [hc.2.2] at hsp
      exact hspans sp hsp
    · obtain ⟨A, W, bid1, hA, hAne, hW, hbid1, hrwp, hraw, hts, hid, hidm,
        hsps, hers⟩ :=
        finalizeEntry_some_spec ce fmt st.spans st.errors M O e sps ers hfe
      rw [hs, hsps] at hsp
      rcases mem_mapSet _ _ _ hsp with h | h
      · exact hspans sp h
      · obtain ⟨i, j, hij, hjk, hli, hstart, hend⟩ := hcur ce hce
        exact ⟨i, j, hij, by omega, hli, by rw [h]; exact hstart,
          by rw [h]; exact hend⟩
  | cons l ls2 ih =>
    intro k st hdrop hk hoff hspans hcur
    simp only [scanLines]
    have hkL : k < L.length := by
      by_contra hc
      rw [List.drop_eq_nil_of_le (by omega)] at hdrop
      exact absurd hdrop (by simp)
    have h0 : (L.drop k).getD 0 [] = l := by rw [hdrop]; rfl
    rw [getD_drop] at h0
    have hl : l = L.getD k [] := by simpa using h0.symm
    have hdrop2 : L.drop (k + 1) = ls2 := by
      rw [← List.drop_drop 1 k L, hdrop]
      rfl
    refine ih (k + 1) (scanStep fmt M O st l) hdrop2 (by omega) ?_ ?_ ?_
    · rw [scanStep_lineOffset, hoff, lineStart_succ_get L k hkL, hl]
    · intro sp hsp
      rcases scanStep_push fmt M O st l with
        hc | ⟨ce, e, sps, ers, hce, hfe, hs, hdisj⟩
      · rw [hc.2.2] at hsp
        exact hspans sp hsp
      · obtain ⟨A, W, bid1, hA, hAne, hW, hbid1, hrwp, hraw, hts, hid, hidm,
          hsps, hers⟩ :=
          finalizeEntry_some_spec ce fmt st.spans st.errors M O e sps ers hfe
        rw [hs, hsps] at hsp
        rcases mem_mapSet _ _ _ hsp with h | h
        · exact hspans sp h
        · obtain ⟨i, j, hij, hjk, hli, hstart, hend⟩ := hcur ce hce
          exact ⟨i, j, hij, by omega, hli, by rw [h]; exact hstart,
            by rw [h]; exact hend⟩
    · intro ce2 hce2
      rcases scanStep_currentEntry fmt M O st l with
        h | h | ⟨hli, h⟩ | ⟨ce, lines2, hce, h⟩
      · rw [h] at hce2
        simp at hce2
      · rw [h] at hce2
        obtain ⟨i, j, hij, hjk, hli, hstart, hend⟩ := hcur ce2 hce2
        exact ⟨i, j, hij, by omega, hli, hstart, hend⟩
      · rw [h] at hce2
        have hx : ce2 = ⟨[l.drop 2], st.lineOffset, st.lineOffset + l.length⟩ := by
          injection hce2 with hh
          exact hh.symm
        refine ⟨k, k, le_refl k, by omega, by rw [← hl]; exact hli, ?_, ?_⟩
        · rw [hx]
          exact hoff
        · rw [hx]
          show st.lineOffset + l.length = lineStart L k + (L.getD k []).length
          rw [hoff, hl]
      · rw [h] at hce2
        have hx : ce2 = ⟨lines2, ce.startOffset, st.lineOffset + l.length⟩ := by
          injection hce2 with hh
          exact hh.symm
        obtain ⟨i, j, hij, hjk, hli, hstart, hend⟩ := hcur ce hce
        refine ⟨i, k, by omega, by omega, hli, ?_, ?_⟩
        · rw [hx]
          exact hstart
        · rw [hx]
          show st.lineOffset + l.length = lineStart L k + (L.getD k []).length
          rw [hoff, hl]


/--
C1.  As stated the claim is false: `span.end` is not inclusive of the
entry's last character — it is the offset of the entry's trailing newline
(one past the last character), so `text.substring(span.start, span.end + 1)`
appends the trailing newline to the block text (`C1_counterexample`).
Amended: every recorded span is exactly line-aligned — it starts at the
beginning of a list-item line `i` and `span.end` is the offset one past
the last character of the entry's last line `j`; consequently
`text.substring(span.start, span.end)` reproduces exactly the entry's
original source block text (marker line and `- `/indentation prefixes
included), and `text.substring(span.start, span.end + 1)` reproduces it
plus the trailing newline (except when the block ends the file).
-/
theorem C1_amended (text fmt : Str) (M : MomentLib) (O : Oracle)
    (sp : EntrySpan) (hsp : sp ∈ (parseMomentsDoc text fmt M O).spans) :
    ∃ i j : Nat, i ≤ j ∧ j < (splitNl text).length ∧
      isListItem ((splitNl text).getD i []) = true ∧
      sp.start = lineStart (splitNl text) i ∧
      sp.endOff = lineStart (splitNl text) j + ((splitNl text).getD j []).length ∧
      substringJs text sp.start sp.endOff =
        joinNl (((splitNl text).drop i).take (j - i + 1)) ∧
      substringJs text sp.start (sp.endOff + 1) =
        joinNl (((splitNl text).drop i).take (j - i + 1)) ++
          (if j + 1 < (splitNl text).length then ['\n'] else []) := by
  have hsp2 : sp ∈ (finalizePendingRouted fmt M O
      (scanLines fmt M O initState (splitNl text))).spans := hsp
  have halign := scan_aligned fmt M O (splitNl text) (splitNl text) 0 initState
    (by rfl) (by omega) (by rfl)
    (by intro s hs; simp [initState] at hs)
    (by intro ce hce; simp [initState] at hce) sp hsp2
  obtain ⟨i, j, hij, hjL, hli, hstart, hend⟩ := halign
  have hmono : lineStart (splitNl text) i ≤ lineStart (splitNl text) j :=
    lineStart_mono _ hij
  have hdropEq : text.drop (lineStart (splitNl text) i) =
      joinNl ((splitNl text).drop i) := by
    have key := drop_lineStart (splitNl text) i
    rw [joinNl_splitNl text] at key
    exact key
  have hmlen : j - i < ((splitNl text).drop i).length := by
    rw [List.length_drop]
    omega
  have hgd : ((splitNl text).drop i).getD (j - i) [] = (splitNl text).getD j [] := by
    rw [getD_drop]
    congr 1
    omega
  have hls : lineStart (splitNl text) j =
      lineStart (splitNl text) i + lineStart ((splitNl text).drop i) (j - i) := by
    have h2 := lineStart_drop (splitNl text) i (j - i)
    rw [show i + (j - i) = j from by omega] at h2
    exact h2
  have hsub1 : substringJs text sp.start sp.endOff =
      joinNl (((splitNl text).drop i).take (j - i + 1)) := by
    rw [substringJs, hstart, hend]
    rw [Nat.min_eq_left (by omega), Nat.max_eq_right (by omega)]
    rw [hdropEq]
    have harith : lineStart (splitNl text) j + ((splitNl text).getD j []).length -
        lineStart (splitNl text) i =
        lineStart ((splitNl text).drop i) (j - i) +
          (((splitNl text).drop i).getD (j - i) []).length := by
      rw [hgd]
      omega
    rw [harith, take_lineEndNoNl ((splitNl text).drop i) (j - i) hmlen]
  have hsub2 : substringJs text sp.start (sp.endOff + 1) =
      joinNl (((splitNl text).drop i).take (j - i + 1)) ++
        (if j + 1 < (splitNl text).length then ['\n'] else []) := by
    rw [substringJs, hstart, hend]
    rw [Nat.min_eq_left (by omega), Nat.max_eq_right (by omega)]
    rw [hdropEq]
    have harith : lineStart (splitNl text) j + ((splitNl text).getD j []).length + 1 -
        lineStart (splitNl text) i =
        lineStart ((splitNl text).drop i) (j - i) +
          (((splitNl text).drop i).getD (j - i) []).length + 1 := by
      rw [hgd]
      omega
    rw [harith, take_lineEnd ((splitNl text).drop i) (j - i) hmlen]
    congr 1
    by_cases hc : j + 1 < (splitNl text).length
    · rw [if_pos hc, if_pos (show j - i + 1 < ((splitNl text).drop i).length from by
        rw [List.length_drop]; omega)]
    · rw [if_neg hc, if_neg (show ¬ (j - i + 1 < ((splitNl text).drop i).length) from by
        rw [List.length_drop]; omega)]
  exact ⟨i, j, hij, hjL, hli, hstart, hend, hsub1, hsub2⟩

theorem C1_amended_witness :
    ∃ i j : Nat, i ≤ j ∧ j < (splitNl (S "- a\nx")).length ∧
      isListItem ((splitNl (S "- a\nx")).getD i []) = true ∧
      (⟨S "m-aaaaaa", 0, 3⟩ : EntrySpan).start = lineStart (splitNl (S "- a\nx")) i ∧
      (⟨S "m-aaaaaa", 0, 3⟩ : EntrySpan).endOff =
        lineStart (splitNl (S "- a\nx")) j +
          ((splitNl (S "- a\nx")).getD j []).length ∧
      substringJs (S "- a\nx") (⟨S "m-aaaaaa", 0, 3⟩ : EntrySpan).start
          (⟨S "m-aaaaaa", 0, 3⟩ : EntrySpan).endOff =
        joinNl (((splitNl (S "- a\nx")).drop i).take (j - i + 1)) ∧
      substringJs (S "- a\nx") (⟨S "m-aaaaaa", 0, 3⟩ : EntrySpan).start
          ((⟨S "m-aaaaaa", 0, 3⟩ : EntrySpan).endOff + 1) =
        joinNl (((splitNl (S "- a\nx")).drop i).take (j - i + 1)) ++
          (if j + 1 < (splitNl (S "- a\nx")).length then ['\n'] else []) :=
  C1_amended (S "- a\nx") (S "F") mpNone oracleA ⟨S "m-aaaaaa", 0, 3⟩ (by decide)


/-! ## C6/C8: canonical single-line marker'd documents -/

/-- A well-formed document block: timestamp prefix, one-line body, explicit
block id, parsed creation instant. -/
structure Block where
  bts : Str
  bbody : Str
  bid : Str
  bAt : Int
deriving Repr, DecidableEq

/-- The content line of a block (timestamp, space, body). -/
def bLine1 (b : Block) : Str := b.bts ++ ' ' :: b.bbody

/-- The rendered list-item line `- <ts> <body>`. -/
def bItem (b : Block) : Str := '-' :: ' ' :: bLine1 b

/-- The rendered marker line `  ^<id>`. -/
def bMarker (b : Block) : Str := ' ' :: ' ' :: '^' :: b.bid

/-- The three rendered lines of a block (item, marker, blank separator). -/
def blockLines (b : Block) : List Str := [bItem b, bMarker b, []]

/-- All lines of the rendered document. -/
def docLines (bs : List Block) : List Str := bs.bind blockLines

/-- The rendered document text (ends with a newline). -/
def renderBlocks (bs : List Block) : Str := joinNl (docLines bs)

/-- The lines of the rendered document without the final blank line. -/
def docAll : List Block → List Str
  | [] => []
  | [b] => [bItem b, bMarker b]
  | b :: bs => blockLines b ++ docAll bs

/-- The entry the parser emits for a block. -/
def entryOf (b : Block) : MomentEntry := ⟨b.bid, b.bAt, b.bbody, bLine1 b, false⟩

/-- Offset of the block's trailing-blank line end relative to its start. -/
def eOff (b : Block) : Nat := (bItem b).length + (bMarker b).length + 2

/-- Total rendered length of a block (including the final newline). -/
def blockLen (b : Block) : Nat := eOff b + 1

/-- The pending raw entry after the scanner has consumed a block's lines. -/
def pendingOf (b : Block) (off : Nat) : RawEntry :=
  ⟨[bLine1 b, '^' :: b.bid, []], off, off + eOff b⟩

/-- The span the parser records for a block starting at `off`. -/
def spanOf (b : Block) (off : Nat) : EntrySpan := ⟨b.bid, off, off + eOff b⟩

/-- The spans of consecutive blocks starting at `off`. -/
def spansAll (off : Nat) : List Block → List EntrySpan
  | [] => []
  | b :: bs => spanOf b off :: spansAll (off + blockLen b) bs

/-- Start offset of block `k` in the rendered document. -/
def docOff (bs : List Block) (k : Nat) : Nat := ((bs.take k).map blockLen).sum

/-- Well-formedness of a block with respect to the timestamp library and
format: the data survives the parser's marker/timestamp extraction
pipeline unchanged (for one, two or three trailing blank lines). -/
abbrev BlockOK (M : MomentLib) (fmt : Str) (b : Block) : Prop :=
  ('\n' ∉ bLine1 b) ∧ ('\n' ∉ b.bid) ∧
  bLine1 b ≠ [] ∧ b.bbody ≠ [] ∧
  trimEndJs ('^' :: b.bid) = '^' :: b.bid ∧
  extractTimestampPrefix M (bLine1 b) fmt = (some b.bAt, b.bbody) ∧
  stripBlockIdFromContent b.bbody = (b.bbody, none) ∧
  isFmBoundary (bMarker b) = false ∧
  trimJs (bMarker b) ≠ S "***" ∧
  trimJs (bMarker b) ≠ S "## Archive" ∧
  isListItem (bMarker b) = false ∧
  trimJs (bItem b) ≠ S "***" ∧
  trimJs (bItem b) ≠ S "## Archive" ∧
  (∀ r ∈ [1, 2, 3],
    stripLastLineMarker ([bLine1 b, '^' :: b.bid] ++ List.replicate r []) =
      (none, [bLine1 b, '^' :: b.bid] ++ List.replicate r []) ∧
    stripBlockIdFromContent
        (joinNl ([bLine1 b, '^' :: b.bid] ++ List.replicate r [])) =
      (bLine1 b, some b.bid) ∧
    trimJs (joinNl ([bLine1 b, '^' :: b.bid] ++ List.replicate r [])) ≠ [])

theorem isFmBoundary_bItem (b : Block) : isFmBoundary (bItem b) = false := rfl

theorem docAll_cons2 (b c : Block) (cs : List Block) :
    docAll (b :: c :: cs) = blockLines b ++ docAll (c :: cs) := rfl

theorem isListItem_bItem (b : Block) : isListItem (bItem b) = true := by
  simp [isListItem, S, bItem, List.isPrefixOf]

theorem twoSpace_bMarker (b : Block) :
    (S "  ").isPrefixOf (bMarker b) = true := rfl

theorem joinNl_append (X Y : List Str) (hX : X ≠ []) (hY : Y ≠ []) :
    joinNl (X ++ Y) = joinNl X ++ '\n' :: joinNl Y := by
  induction X with
  | nil => exact absurd rfl hX
  | cons a X' ih =>
    cases X' with
    | nil => exact joinNl_cons a Y hY
    | cons c X'' =>
      rw [List.cons_append, joinNl_cons _ _ (by simp),
        joinNl_cons _ _ (show c :: X'' ≠ [] by simp), ih (by simp)]
      simp

theorem trimEndJs_append_of_right (Z W : Str) (hW : trimEndJs W = W)
    (hne : W ≠ []) : trimEndJs (Z ++ W) = Z ++ W := by
  have hrev : W.reverse.dropWhile isWsChar = W.reverse := by
    have h2 := congrArg List.reverse hW
    rw [trimEndJs, List.reverse_reverse] at h2
    exact h2
  rw [trimEndJs, List.reverse_append, List.dropWhile_append, hrev]
  rw [if_neg (by simp [hne])]
  simp

theorem trimEndJs_marker (b : Block) (h : trimEndJs ('^' :: b.bid) = '^' :: b.bid) :
    trimEndJs (bMarker b) = bMarker b :=
  trimEndJs_append_of_right [' ', ' '] ('^' :: b.bid) h (by simp)

theorem trimEndJs_append_nl (X : Str) : trimEndJs (X ++ ['\n']) = trimEndJs X := by
  rw [trimEndJs, trimEndJs, List.reverse_append]
  rfl

theorem docLines_cons (b : Block) (bs : List Block) :
    docLines (b :: bs) = blockLines b ++ docLines bs := rfl

theorem docLines_append (xs ys : List Block) :
    docLines (xs ++ ys) = docLines xs ++ docLines ys := by
  simp [docLines]

theorem docLines_ne_nil (b : Block) (bs : List Block) :
    docLines (b :: bs) ≠ [] := by
  simp [docLines, blockLines]

theorem docLines_eq_docAll (bs : List Block) (hne : bs ≠ []) :
    docLines bs = docAll bs ++ [[]] := by
  induction bs with
  | nil => exact absurd rfl hne
  | cons b bs' ih =>
    cases bs' with
    | nil => rfl
    | cons c cs =>
      rw [docLines_cons, ih (by simp), docAll_cons2]
      simp

theorem docAll_ne_nil (bs : List Block) (hne : bs ≠ []) : docAll bs ≠ [] := by
  cases bs with
  | nil => exact absurd rfl hne
  | cons b bs' =>
    cases bs' with
    | nil => simp [docAll]
    | cons c cs => simp [docAll, blockLines]

theorem docAll_last (bs : List Block) (hne : bs ≠ []) :
    ∃ P bl, bs.getLast hne = bl ∧ docAll bs = P ++ [bMarker bl] := by
  induction bs with
  | nil => exact absurd rfl hne
  | cons b bs' ih =>
    cases bs' with
    | nil => exact ⟨[bItem b], b, rfl, rfl⟩
    | cons c cs =>
      obtain ⟨P, bl, hlast, hP⟩ := ih (by simp)
      refine ⟨blockLines b ++ P, bl, ?_, ?_⟩
      · rw [List.getLast_cons]
        exact hlast
      · rw [docAll_cons2, hP]
        simp

theorem renderBlocks_eq (bs : List Block) (hne : bs ≠ []) :
    renderBlocks bs = joinNl (docAll bs) ++ ['\n'] := by
  rw [renderBlocks, docLines_eq_docAll bs hne,
    joinNl_append _ _ (docAll_ne_nil bs hne) (by simp)]
  rfl

theorem trimEnd_render (bs : List Block) (hne : bs ≠ [])
    (hok : ∀ b ∈ bs, trimEndJs ('^' :: b.bid) = '^' :: b.bid) :
    trimEndJs (renderBlocks bs) = joinNl (docAll bs) := by
  rw [renderBlocks_eq bs hne, trimEndJs_append_nl]
  obtain ⟨P, bl, hlast, hP⟩ := docAll_last bs hne
  rw [hP]
  cases hPe : P with
  | nil =>
    simp only [List.nil_append]
    exact trimEndJs_marker bl (hok bl (hlast ▸ List.getLast_mem hne))
  | cons p ps =>
    rw [joinNl_append _ _ (by simp) (by simp), ← hPe]
    have h2 : joinNl P ++ '\n' :: joinNl [bMarker bl] =
        (joinNl P ++ ['\n']) ++ bMarker bl := by
      simp [joinNl]
    rw [h2]
    refine trimEndJs_append_of_right _ _ ?_ (by simp [bMarker])
    exact trimEndJs_marker bl (hok bl (hlast ▸ List.getLast_mem hne))


set_option maxHeartbeats 2000000 in
theorem finalize_shape (fmt : Str) (M : MomentLib) (O : Oracle)
    (lines : List Str) (b : Block) (so eo : Nat)
    (spans : List EntrySpan) (errors : List ParseError)
    (hne : lines ≠ [])
    (hSL : stripLastLineMarker lines = (none, lines))
    (hSBC : stripBlockIdFromContent (joinNl lines) = (bLine1 b, some b.bid))
    (htr : trimJs (joinNl lines) ≠ [])
    (hW : bLine1 b ≠ [])
    (h4 : extractTimestampPrefix M (bLine1 b) fmt = (some b.bAt, b.bbody))
    (h5 : stripBlockIdFromContent b.bbody = (b.bbody, none))
    (h6 : b.bbody ≠ [])
    (hfresh : b.bid ∉ spanIds spans) :
    finalizeEntry ⟨lines, so, eo⟩ fmt spans errors M O =
      (some (entryOf b), spans ++ [⟨b.bid, so, eo⟩], errors) := by
  rw [finalizeEntry]
  rw [if_neg hne]
  dsimp only
  rw [hSL]
  dsimp only
  rw [if_neg htr, hSBC]
  dsimp only
  rw [if_pos hW, h4]
  dsimp only
  rw [h5]
  dsimp only
  rw [if_pos h6]
  rw [mapSet_append _ _ hfresh]
  rfl


theorem scanLines_append (fmt : Str) (M : MomentLib) (O : Oracle) :
    ∀ (X Y : List Str) (st : ScanState),
      scanLines fmt M O st (X ++ Y) =
        scanLines fmt M O (scanLines fmt M O st X) Y := by
  intro X
  induction X with
  | nil => intro Y st; rfl
  | cons l X' ih =>
    intro Y st
    rw [List.cons_append, scanLines, scanLines]
    exact ih Y _

theorem routed_none (fmt : Str) (M : MomentLib) (O : Oracle) (st : ScanState)
    (hce : st.currentEntry = none) :
    finalizePendingRouted fmt M O st = st := by
  rw [finalizePendingRouted, hce]

theorem toEntries_none (fmt : Str) (M : MomentLib) (O : Oracle) (st : ScanState)
    (hce : st.currentEntry = none) :
    finalizePendingToEntries fmt M O st = st := by
  rw [finalizePendingToEntries, hce]

theorem routed_push_known (fmt : Str) (M : MomentLib) (O : Oracle)
    (st : ScanState) (ce : RawEntry) (e : MomentEntry)
    (sps : List EntrySpan) (ers : List ParseError)
    (hce : st.currentEntry = some ce)
    (hfe : finalizeEntry ce fmt st.spans st.errors M O = (some e, sps, ers)) :
    finalizePendingRouted fmt M O st =
      { st with
        entries := if st.inArchive then st.entries else st.entries ++ [e],
        archiveEntries :=
          if st.inArchive then st.archiveEntries ++ [e] else st.archiveEntries,
        spans := sps, errors := ers, currentEntry := none } := by
  rw [finalizePendingRouted, hce]
  dsimp only
  rw [hfe]

theorem toEntries_push_known (fmt : Str) (M : MomentLib) (O : Oracle)
    (st : ScanState) (ce : RawEntry) (e : MomentEntry)
    (sps : List EntrySpan) (ers : List ParseError)
    (hce : st.currentEntry = some ce)
    (hfe : finalizeEntry ce fmt st.spans st.errors M O = (some e, sps, ers)) :
    finalizePendingToEntries fmt M O st =
      { st with
        entries := st.entries ++ [e],
        spans := sps, errors := ers, currentEntry := none } := by
  rw [finalizePendingToEntries, hce]
  dsimp only
  rw [hfe]

theorem routed_fields (fmt : Str) (M : MomentLib) (O : Oracle) (st : ScanState) :
    (finalizePendingRouted fmt M O st).inFrontmatter = st.inFrontmatter ∧
    (finalizePendingRouted fmt M O st).inArchive = st.inArchive ∧
    (finalizePendingRouted fmt M O st).lineOffset = st.lineOffset ∧
    (finalizePendingRouted fmt M O st).frontmatterStarted = st.frontmatterStarted ∧
    (finalizePendingRouted fmt M O st).frontmatter = st.frontmatter ∧
    (finalizePendingRouted fmt M O st).frontmatterContent = st.frontmatterContent ∧
    (finalizePendingRouted fmt M O st).archiveStartOffset = st.archiveStartOffset := by
  rw [finalizePendingRouted]
  cases hce : st.currentEntry with
  | none => exact ⟨rfl, rfl, rfl, rfl, rfl, rfl, rfl⟩
  | some ce =>
    dsimp only
    exact ⟨rfl, rfl, rfl, rfl, rfl, rfl, rfl⟩

theorem scanStep_listItem (fmt : Str) (M : MomentLib) (O : Oracle)
    (st : ScanState) (l : Str)
    (hfb : isFmBoundary l = false)
    (hfm : st.inFrontmatter = false)
    (h9 : trimJs l ≠ S "***")
    (h10 : trimJs l ≠ S "## Archive")
    (hli : isListItem l = true) :
    scanStep fmt M O st l =
      { finalizePendingRouted fmt M O st with
        currentEntry := some ⟨[l.drop 2], st.lineOffset, st.lineOffset + l.length⟩,
        lineOffset := st.lineOffset + l.length + 1 } := by
  rw [scanStep]
  rw [if_neg (by simp [hfb]), if_neg (by simp [hfb]), if_neg (by simp [hfm]),
    if_neg h9, if_neg (by simp [h10]), if_pos hli]

theorem scanStep_sep (fmt : Str) (M : MomentLib) (O : Oracle)
    (st : ScanState) (l : Str)
    (hfb : isFmBoundary l = false)
    (hfm : st.inFrontmatter = false)
    (hsep : trimJs l = S "***") :
    scanStep fmt M O st l =
      { finalizePendingToEntries fmt M O st with
        archiveStartOffset := (st.lineOffset : Int), inArchive := true,
        lineOffset := st.lineOffset + l.length + 1 } := by
  rw [scanStep]
  rw [if_neg (by simp [hfb]), if_neg (by simp [hfb]), if_neg (by simp [hfm]),
    if_pos hsep]

theorem scanStep_archHdr (fmt : Str) (M : MomentLib) (O : Oracle)
    (st : ScanState) (l : Str)
    (hfb : isFmBoundary l = false)
    (hfm : st.inFrontmatter = false)
    (h9 : trimJs l ≠ S "***")
    (hia : st.inArchive = true)
    (hhdr : trimJs l = S "## Archive") :
    scanStep fmt M O st l =
      { st with lineOffset := st.lineOffset + l.length + 1 } := by
  rw [scanStep]
  rw [if_neg (by simp [hfb]), if_neg (by simp [hfb]), if_neg (by simp [hfm]),
    if_neg h9, if_pos (by simp [hia, hhdr])]

theorem scanStep_cont (fmt : Str) (M : MomentLib) (O : Oracle)
    (st : ScanState) (l : Str) (p : RawEntry)
    (hce : st.currentEntry = some p)
    (hfb : isFmBoundary l = false)
    (hfm : st.inFrontmatter = false)
    (h9 : trimJs l ≠ S "***")
    (h10 : trimJs l ≠ S "## Archive")
    (hli : isListItem l = false)
    (hcont : (S "  ").isPrefixOf l = true ∨ trimJs l = []) :
    scanStep fmt M O st l =
      { st with
        currentEntry := some
          ⟨p.lines ++ [if (S "  ").isPrefixOf l then l.drop 2 else l],
            p.startOffset, st.lineOffset + l.length⟩,
        lineOffset := st.lineOffset + l.length + 1 } := by
  rw [scanStep]
  rw [if_neg (by simp [hfb]), if_neg (by simp [hfb]), if_neg (by simp [hfm]),
    if_neg h9, if_neg (by simp [h10]), if_neg (by simp [hli])]
  rw [hce]
  dsimp only
  rw [if_pos hcont]


/-- State change from consuming one block's lines when an earlier block is
pending: the pending block is finalized and the new block becomes pending. -/
def pushBlock (st : ScanState) (b0 : Block) (off0 : Nat) (b : Block) : ScanState :=
  { st with
    entries := if st.inArchive then st.entries else st.entries ++ [entryOf b0],
    archiveEntries := if st.inArchive then st.archiveEntries ++ [entryOf b0]
      else st.archiveEntries,
    spans := st.spans ++ [spanOf b0 off0],
    currentEntry := some (pendingOf b st.lineOffset),
    lineOffset := st.lineOffset + blockLen b }

/-- Spans of the pending block `b0` (at `off0`) and of the blocks `bs`
that start at `off`. -/
def spansSeqQ (b0 : Block) (off0 off : Nat) : List Block → List EntrySpan
  | [] => [spanOf b0 off0]
  | b :: bs => spanOf b0 off0 :: spansSeqQ b off (off + blockLen b) bs

theorem routed_eq_toEntries (fmt : Str) (M : MomentLib) (O : Oracle)
    (st : ScanState) (hia : st.inArchive = false) :
    finalizePendingRouted fmt M O st = finalizePendingToEntries fmt M O st := by
  rw [finalizePendingRouted, finalizePendingToEntries]
  cases hce : st.currentEntry with
  | none => rfl
  | some ce =>
    dsimp only
    rw [hia]
    simp

/-- Scanner state after the list-item line of a block. -/
def blockStA (fmt : Str) (M : MomentLib) (O : Oracle) (st : ScanState)
    (b : Block) : ScanState :=
  { finalizePendingRouted fmt M O st with
    currentEntry := some ⟨[bLine1 b], st.lineOffset,
      st.lineOffset + (bItem b).length⟩,
    lineOffset := st.lineOffset + (bItem b).length + 1 }

/-- Scanner state after the marker line of a block. -/
def blockStB (fmt : Str) (M : MomentLib) (O : Oracle) (st : ScanState)
    (b : Block) : ScanState :=
  { finalizePendingRouted fmt M O st with
    currentEntry := some ⟨[bLine1 b, '^' :: b.bid], st.lineOffset,
      st.lineOffset + (bItem b).length + 1 + (bMarker b).length⟩,
    lineOffset := st.lineOffset + (bItem b).length + 1 + (bMarker b).length + 1 }

theorem scan_stepA (fmt : Str) (M : MomentLib) (O : Oracle) (st : ScanState)
    (b : Block) (hb : BlockOK M fmt b) (hfm : st.inFrontmatter = false) :
    scanStep fmt M O st (bItem b) = blockStA fmt M O st b := by
  obtain ⟨hnl1, hnl2, hW, hbody, hmk, hetp, hsbc, hfbm, hm9, hm10, hmLi,
    hi9, hi10, hshapes⟩ := hb
  rw [scanStep_listItem fmt M O st (bItem b) (isFmBoundary_bItem b) hfm hi9 hi10
    (isListItem_bItem b)]
  rfl

theorem scan_stepB (fmt : Str) (M : MomentLib) (O : Oracle) (st : ScanState)
    (b : Block) (hb : BlockOK M fmt b) (hfm : st.inFrontmatter = false) :
    scanStep fmt M O (blockStA fmt M O st b) (bMarker b) =
      blockStB fmt M O st b := by
  obtain ⟨hnl1, hnl2, hW, hbody, hmk, hetp, hsbc, hfbm, hm9, hm10, hmLi,
    hi9, hi10, hshapes⟩ := hb
  rw [scanStep_cont fmt M O (blockStA fmt M O st b) (bMarker b)
    ⟨[bLine1 b], st.lineOffset, st.lineOffset + (bItem b).length⟩ rfl
    hfbm ((routed_fields fmt M O st).1.trans hfm) hm9 hm10 hmLi
    (Or.inl (twoSpace_bMarker b))]
  rw [if_pos (twoSpace_bMarker b)]
  rfl

theorem scan_stepC (fmt : Str) (M : MomentLib) (O : Oracle) (st : ScanState)
    (b : Block) (hfm : st.inFrontmatter = false) :
    scanStep fmt M O (blockStB fmt M O st b) [] =
      { finalizePendingRouted fmt M O st with
        currentEntry := some (pendingOf b st.lineOffset),
        lineOffset := st.lineOffset + blockLen b } := by
  rw [scanStep_cont fmt M O (blockStB fmt M O st b) []
    ⟨[bLine1 b, '^' :: b.bid], st.lineOffset,
      st.lineOffset + (bItem b).length + 1 + (bMarker b).length⟩ rfl
    (by decide) ((routed_fields fmt M O st).1.trans hfm) (by decide) (by decide)
    (by decide) (Or.inr (by decide))]
  rw [if_neg (by decide)]
  show ({ finalizePendingRouted fmt M O st with
    currentEntry := some ⟨[bLine1 b, '^' :: b.bid] ++ [[]], st.lineOffset,
      (st.lineOffset + (bItem b).length + 1 + (bMarker b).length + 1) + 0⟩,
    lineOffset :=
      (st.lineOffset + (bItem b).length + 1 + (bMarker b).length + 1) + 0 + 1 }
      : ScanState) = _
  have h1 : ([bLine1 b, '^' :: b.bid] ++ [[]] : List Str) =
      [bLine1 b, '^' :: b.bid, []] := rfl
  have h2 : (st.lineOffset + (bItem b).length + 1 + (bMarker b).length + 1) + 0 =
      st.lineOffset + eOff b := by
    rw [eOff]
    omega
  rw [h1, h2, show blockLen b = eOff b + 1 from rfl]
  rfl

theorem scan_block (fmt : Str) (M : MomentLib) (O : Oracle)
    (b : Block) (st : ScanState)
    (hb : BlockOK M fmt b)
    (hfm : st.inFrontmatter = false) :
    scanLines fmt M O st (blockLines b) =
      { finalizePendingRouted fmt M O st with
        currentEntry := some (pendingOf b st.lineOffset),
        lineOffset := st.lineOffset + blockLen b } := by
  rw [blockLines]
  simp only [scanLines]
  rw [scan_stepA fmt M O st b hb hfm, scan_stepB fmt M O st b hb hfm,
    scan_stepC fmt M O st b hfm]


set_option maxHeartbeats 1000000 in
theorem finalize_pendingOf (fmt : Str) (M : MomentLib) (O : Oracle)
    (b0 : Block) (off0 : Nat) (spans : List EntrySpan) (errors : List ParseError)
    (hb0 : BlockOK M fmt b0)
    (hfresh : b0.bid ∉ spanIds spans) :
    finalizeEntry (pendingOf b0 off0) fmt spans errors M O =
      (some (entryOf b0), spans ++ [spanOf b0 off0], errors) := by
  obtain ⟨hnl1, hnl2, hW, hbody, hmk, hetp, hsbc, hfbm, hm9, hm10, hmLi,
    hi9, hi10, hshapes⟩ := hb0
  obtain ⟨hSL, hSBC, htr⟩ := hshapes 1 (by simp)
  have h := finalize_shape fmt M O
    ([bLine1 b0, '^' :: b0.bid] ++ List.replicate 1 [])
    b0 off0 (off0 + eOff b0) spans errors (by simp) hSL hSBC htr hW hetp hsbc
    hbody hfresh
  have e1 : ([bLine1 b0, '^' :: b0.bid] ++ List.replicate 1 [] : List Str) =
      [bLine1 b0, '^' :: b0.bid, []] := rfl
  rw [e1] at h
  exact h

theorem scan_block_pending (fmt : Str) (M : MomentLib) (O : Oracle)
    (b b0 : Block) (off0 : Nat) (st : ScanState)
    (hb : BlockOK M fmt b) (hb0 : BlockOK M fmt b0)
    (hfm : st.inFrontmatter = false)
    (hce : st.currentEntry = some (pendingOf b0 off0))
    (hfresh : b0.bid ∉ spanIds st.spans) :
    scanLines fmt M O st (blockLines b) = pushBlock st b0 off0 b := by
  rw [scan_block fmt M O b st hb hfm,
    routed_push_known fmt M O st (pendingOf b0 off0) (entryOf b0)
      (st.spans ++ [spanOf b0 off0]) st.errors hce
      (finalize_pendingOf fmt M O b0 off0 st.spans st.errors hb0 hfresh)]
  rfl

theorem scan_block_none (fmt : Str) (M : MomentLib) (O : Oracle)
    (b : Block) (st : ScanState)
    (hb : BlockOK M fmt b)
    (hfm : st.inFrontmatter = false)
    (hce : st.currentEntry = none) :
    scanLines fmt M O st (blockLines b) =
      { st with
        currentEntry := some (pendingOf b st.lineOffset),
        lineOffset := st.lineOffset + blockLen b } := by
  rw [scan_block fmt M O b st hb hfm, routed_none fmt M O st hce]

set_option maxHeartbeats 2000000 in
theorem scan_doc_flush (fmt : Str) (M : MomentLib) (O : Oracle) :
    ∀ (bs : List Block) (st : ScanState) (b0 : Block) (off0 : Nat),
      (∀ b ∈ bs, BlockOK M fmt b) → BlockOK M fmt b0 →
      ((b0 :: bs).map Block.bid).Nodup →
      (∀ b ∈ b0 :: bs, b.bid ∉ spanIds st.spans) →
      st.inFrontmatter = false →
      st.currentEntry = some (pendingOf b0 off0) →
      finalizePendingRouted fmt M O (scanLines fmt M O st (docLines bs)) =
        { st with
          entries := if st.inArchive then st.entries
            else st.entries ++ (b0 :: bs).map entryOf,
          archiveEntries := if st.inArchive
            then st.archiveEntries ++ (b0 :: bs).map entryOf
            else st.archiveEntries,
          spans := st.spans ++ spansSeqQ b0 off0 st.lineOffset bs,
          currentEntry := none,
          lineOffset := st.lineOffset + (bs.map blockLen).sum } := by
  intro bs
  induction bs with
  | nil =>
    intro st b0 off0 hbs hb0 hnodup hfresh hfm hce
    show finalizePendingRouted fmt M O st = _
    rw [routed_push_known fmt M O st (pendingOf b0 off0) (entryOf b0)
      (st.spans ++ [spanOf b0 off0]) st.errors hce
      (finalize_pendingOf fmt M O b0 off0 st.spans st.errors hb0
        (hfresh b0 (by simp)))]
    rfl
  | cons b bs' ih =>
    intro st b0 off0 hbs hb0 hnodup hfresh hfm hce
    rw [docLines_cons, scanLines_append,
      scan_block_pending fmt M O b b0 off0 st (hbs b (by simp)) hb0 hfm hce
        (hfresh b0 (by simp))]
    have hfresh2 : ∀ x ∈ b :: bs',
        x.bid ∉ spanIds (pushBlock st b0 off0 b).spans := by
      intro x hx
      show x.bid ∉ spanIds (st.spans ++ [spanOf b0 off0])
      intro hc
      rw [spanIds, List.map_append] at hc
      rcases List.mem_append.mp hc with h | h
      · exact hfresh x (by simp [hx]) h
      · have h2 : x.bid ≠ b0.bid := by
          intro heq
          have h3 : b0.bid ∉ (b :: bs').map Block.bid :=
            (List.nodup_cons.mp hnodup).1
          exact h3 (heq ▸ List.mem_map.mpr ⟨x, hx, rfl⟩)
        simp [spanOf] at h
        exact h2 h
    rw [ih (pushBlock st b0 off0 b) b st.lineOffset
      (fun x hx => hbs x (by simp [hx])) (hbs b (by simp))
      ((List.nodup_cons.mp hnodup).2) hfresh2 hfm rfl]
    by_cases hia : st.inArchive = true
    · simp [pushBlock, hia, spansSeqQ, ScanState.mk.injEq, List.append_assoc]
      all_goals omega
    · simp [pushBlock, hia, spansSeqQ, ScanState.mk.injEq, List.append_assoc]
      all_goals omega


theorem docLines_no_nl (M : MomentLib) (fmt : Str) (bs : List Block)
    (hok : ∀ b ∈ bs, BlockOK M fmt b) :
    ∀ l ∈ docLines bs, '\n' ∉ l := by
  intro l hl
  rw [docLines] at hl
  obtain ⟨b, hb, hlb⟩ := List.mem_bind.mp hl
  obtain ⟨hnl1, hnl2, _⟩ := hok b hb
  simp only [blockLines, List.mem_cons, List.not_mem_nil, or_false] at hlb
  rcases hlb with rfl | rfl | rfl
  · simp [bItem, hnl1]
  · intro hc
    simp only [bMarker, List.mem_cons] at hc
    rcases hc with h | h | h | h
    · exact absurd h (by decide)
    · exact absurd h (by decide)
    · exact absurd h (by decide)
    · exact hnl2 h
  · simp

theorem splitNl_render (M : MomentLib) (fmt : Str) (bs : List Block)
    (hne : bs ≠ []) (hok : ∀ b ∈ bs, BlockOK M fmt b) :
    splitNl (renderBlocks bs) = docLines bs := by
  rw [renderBlocks]
  cases bs with
  | nil => exact absurd rfl hne
  | cons b bs' =>
    exact splitNl_joinNl _ (docLines_ne_nil b bs') (docLines_no_nl M fmt _ hok)

theorem spansSeqQ_eq_spansAll :
    ∀ (bs : List Block) (b0 : Block) (off0 : Nat),
      spansSeqQ b0 off0 (off0 + blockLen b0) bs = spansAll off0 (b0 :: bs) := by
  intro bs
  induction bs with
  | nil => intro b0 off0; rfl
  | cons b bs' ih =>
    intro b0 off0
    show spanOf b0 off0 ::
        spansSeqQ b (off0 + blockLen b0) (off0 + blockLen b0 + blockLen b) bs' =
      spansAll off0 (b0 :: b :: bs')
    rw [ih b (off0 + blockLen b0)]
    rfl

set_option maxHeartbeats 1000000 in
theorem parse_blocks (fmt : Str) (M : MomentLib) (O : Oracle)
    (bs : List Block) (hne : bs ≠ [])
    (hok : ∀ b ∈ bs, BlockOK M fmt b)
    (hnodup : (bs.map Block.bid).Nodup) :
    parseMomentsDoc (renderBlocks bs) fmt M O =
      { frontmatter := [], entries := bs.map entryOf, archiveEntries := [],
        errors := [], originalText := renderBlocks bs,
        spans := spansAll 0 bs, archiveStartOffset := -1 } := by
  cases bs with
  | nil => exact absurd rfl hne
  | cons b bs' =>
    rw [parseMomentsDoc]
    rw [splitNl_render M fmt (b :: bs') (by simp) hok]
    rw [docLines_cons, scanLines_append]
    rw [scan_block_none fmt M O b initState (hok b (by simp)) rfl rfl]
    rw [scan_doc_flush fmt M O bs'
      { initState with
        currentEntry := some (pendingOf b initState.lineOffset),
        lineOffset := initState.lineOffset + blockLen b }
      b initState.lineOffset
      (fun x hx => hok x (by simp [hx])) (hok b (by simp))
      hnodup
      (by intro x hx; simp [initState, spanIds])
      rfl rfl]
    have hsp : spansSeqQ b initState.lineOffset (initState.lineOffset + blockLen b)
        bs' = spansAll 0 (b :: bs') := spansSeqQ_eq_spansAll bs' b 0
    dsimp only
    rw [hsp]
    rfl


theorem formatted_new (fmt c : Str) (M : MomentLib) (O : Oracle) (θ : Int)
    (hcnl : '\n' ∉ c) (htsnl : '\n' ∉ formatTimestamp M O.nowv fmt)
    (hgnl : '\n' ∉ O.genId []) :
    formatEntryAsListItem (createEntryBlock c fmt none M O) =
      joinNl [bItem (Block.mk (formatTimestamp M O.nowv fmt) c (O.genId []) θ),
              bMarker (Block.mk (formatTimestamp M O.nowv fmt) c (O.genId []) θ)] := by
  rw [createEntryBlock]
  rw [splitNl_of_no_nl c hcnl]
  rw [formatEntryAsListItem]
  have hnl : ∀ l ∈ [formatTimestamp M O.nowv fmt ++ ' ' :: c, '^' :: O.genId []],
      '\n' ∉ l := by
    intro l hl
    simp only [List.mem_cons, List.not_mem_nil, or_false] at hl
    rcases hl with rfl | rfl
    · intro hc
      rcases List.mem_append.mp hc with h | h
      · exact htsnl h
      · rcases List.mem_cons.mp h with h2 | h2
        · exact absurd h2 (by decide)
        · exact hcnl h2
    · intro hc
      rcases List.mem_cons.mp hc with h2 | h2
      · exact absurd h2 (by decide)
      · exact hgnl h2
  have e0 : ((formatTimestamp M O.nowv fmt ++ ' ' :: [c].headD []) ::
      [c].tail ++ ['^' :: O.genId []] : List Str) =
      [formatTimestamp M O.nowv fmt ++ ' ' :: c, '^' :: O.genId []] := rfl
  rw [e0]
  rw [splitNl_joinNl _ (by simp) hnl]
  rfl

theorem render_snoc (bs : List Block) (nb : Block) (hne : bs ≠ []) :
    renderBlocks (bs ++ [nb]) =
      joinNl (docAll bs) ++ S "\n\n" ++ joinNl [bItem nb, bMarker nb] ++ S "\n" := by
  rw [renderBlocks, docLines_append, docLines_eq_docAll bs hne]
  have h1 : (docAll bs ++ [[]]) ++ docLines [nb] =
      docAll bs ++ ([[]] ++ docLines [nb]) := by simp
  rw [h1, joinNl_append _ _ (docAll_ne_nil bs hne) (by simp [docLines, blockLines])]
  have h2 : ([[]] ++ docLines [nb] : List Str) =
      [[], bItem nb, bMarker nb, []] := rfl
  rw [h2]
  have h3 : joinNl [[], bItem nb, bMarker nb, []] =
      '\n' :: (bItem nb ++ '\n' :: (bMarker nb ++ ['\n'])) := by
    rw [joinNl_cons _ _ (by simp), joinNl_cons _ _ (by simp),
      joinNl_cons _ _ (by simp)]
    rfl
  rw [h3]
  have h4 : joinNl [bItem nb, bMarker nb] = bItem nb ++ '\n' :: bMarker nb := by
    rw [joinNl_cons _ _ (by simp)]
    rfl
  rw [h4]
  have h5 : (S "\n\n" : Str) = ['\n', '\n'] := rfl
  have h6 : (S "\n" : Str) = ['\n'] := rfl
  rw [h5, h6]
  simp

/--
C6.  As stated the round-trip claim is false (`C6_counterexample`).
Amended: over canonical well-formed documents — a nonempty sequence of
single-line entries, each `- <ts> <body>` with its `^m-…` marker on an
indented continuation line and a blank separator line — append-insertion
of a well-formed single-line content round-trips: re-parsing yields
exactly the old entries plus one new entry whose `raw` is the inserted
content and whose id is the freshly generated block id, provided the
timestamp of the new entry formats and re-parses under the configured
format, the body survives marker stripping, and all ids are distinct.
-/
theorem C6_amended (fmt c : Str) (M : MomentLib) (O : Oracle) (θ : Int)
    (bs : List Block) (hne : bs ≠ [])
    (hok : ∀ b ∈ bs, BlockOK M fmt b)
    (hnew : BlockOK M fmt (Block.mk (formatTimestamp M O.nowv fmt) c (O.genId []) θ))
    (hnodup : ((bs ++ [(Block.mk (formatTimestamp M O.nowv fmt) c (O.genId []) θ)]).map
      Block.bid).Nodup)
    (hcnl : '\n' ∉ c) (htsnl : '\n' ∉ formatTimestamp M O.nowv fmt)
    (hgnl : '\n' ∉ O.genId []) :
    (parseMomentsDoc (insertEntry (renderBlocks bs) c .append fmt M O)
        fmt M O).entries =
      (parseMomentsDoc (renderBlocks bs) fmt M O).entries ++
        [entryOf (Block.mk (formatTimestamp M O.nowv fmt) c (O.genId []) θ)] ∧
    (parseMomentsDoc (insertEntry (renderBlocks bs) c .append fmt M O)
        fmt M O).entries.length =
      (parseMomentsDoc (renderBlocks bs) fmt M O).entries.length + 1 ∧
    (entryOf (Block.mk (formatTimestamp M O.nowv fmt) c (O.genId []) θ)).raw = c ∧
    (entryOf (Block.mk (formatTimestamp M O.nowv fmt) c (O.genId []) θ)).id = O.genId [] := by
  have hnodupbs : (bs.map Block.bid).Nodup := by
    rw [List.map_append] at hnodup
    exact hnodup.of_append_left
  have hT2 : insertEntry (renderBlocks bs) c .append fmt M O =
      renderBlocks (bs ++ [(Block.mk (formatTimestamp M O.nowv fmt) c (O.genId []) θ)]) := by
    rw [insertEntry]
    dsimp only
    rw [parse_blocks fmt M O bs hne hok hnodupbs]
    rw [if_neg (show ¬((-1 : Int) ≥ 0) from by decide)]
    rw [formatted_new fmt c M O θ hcnl htsnl hgnl]
    rw [trimEnd_render bs hne (fun b hb => (hok b hb).2.2.2.2.1)]
    rw [render_snoc bs _ hne]
  rw [hT2]
  rw [parse_blocks fmt M O (bs ++ [(Block.mk (formatTimestamp M O.nowv fmt) c (O.genId []) θ)])
    (by simp)
    (by
      intro x hx
      rcases List.mem_append.mp hx with h | h
      · exact hok x h
      · rcases List.mem_singleton.mp h with rfl
        exact hnew)
    hnodup]
  rw [parse_blocks fmt M O bs hne hok hnodupbs]
  refine ⟨by simp, by simp, rfl, rfl⟩


set_option maxHeartbeats 1000000 in
theorem C6_amended_witness :
    (parseMomentsDoc (insertEntry (renderBlocks [Block.mk (S "T") (S "hi") (S "m-aa") 0])
        (S "ho") .append (S "F") mpT oracleA) (S "F") mpT oracleA).entries =
      (parseMomentsDoc (renderBlocks [Block.mk (S "T") (S "hi") (S "m-aa") 0])
        (S "F") mpT oracleA).entries ++
        [entryOf (Block.mk (formatTimestamp mpT oracleA.nowv (S "F")) (S "ho")
          (oracleA.genId []) 0)] ∧
    (parseMomentsDoc (insertEntry (renderBlocks [Block.mk (S "T") (S "hi") (S "m-aa") 0])
        (S "ho") .append (S "F") mpT oracleA) (S "F") mpT oracleA).entries.length =
      (parseMomentsDoc (renderBlocks [Block.mk (S "T") (S "hi") (S "m-aa") 0])
        (S "F") mpT oracleA).entries.length + 1 ∧
    (entryOf (Block.mk (formatTimestamp mpT oracleA.nowv (S "F")) (S "ho")
      (oracleA.genId []) 0)).raw = S "ho" ∧
    (entryOf (Block.mk (formatTimestamp mpT oracleA.nowv (S "F")) (S "ho")
      (oracleA.genId []) 0)).id = oracleA.genId [] :=
  C6_amended (S "F") (S "ho") mpT oracleA 0
    [Block.mk (S "T") (S "hi") (S "m-aa") 0]
    (by simp) (by decide) (by decide) (by decide) (by decide) (by decide)
    (by decide)


/-- Total rendered length of a block list. -/
def docLen (bs : List Block) : Nat := (bs.map blockLen).sum

theorem sumLines (P : List Block) :
    ((docLines P).map (fun l => l.length + 1)).sum = docLen P := by
  induction P with
  | nil => rfl
  | cons b P' ih =>
    rw [docLines_cons, List.map_append, List.sum_append, ih]
    show ((blockLines b).map (fun l => l.length + 1)).sum + docLen P' =
      docLen (b :: P')
    have h1 : ((blockLines b).map (fun l => l.length + 1)).sum = blockLen b := by
      show (bItem b).length + 1 + ((bMarker b).length + 1 + (0 + 1 + 0)) = blockLen b
    
      rw [blockLen, eOff]
      omega
    rw [h1]
    show blockLen b + docLen P' = (blockLen b :: P'.map blockLen).sum
    rw [List.sum_cons]
    rfl

theorem lineStart_prefix_len (A R : List Str) :
    lineStart (A ++ R) A.length = ((A.map (fun l => l.length + 1))).sum := by
  rw [lineStart, List.take_left]

theorem drop_docLines (P : List Block) (R : List Str) :
    (joinNl (docLines P ++ R)).drop (docLen P) = joinNl R := by
  have h1 := drop_lineStart (docLines P ++ R) (docLines P).length
  rw [lineStart_prefix_len, sumLines] at h1
  rw [h1, List.drop_left]

theorem joinNl_docLines_length (P : List Block) (hne : P ≠ []) :
    (joinNl (docLines P)).length + 1 = docLen P := by
  have h1 := lineStart_length (docLines P) (by
    cases P with
    | nil => exact absurd rfl hne
    | cons b P' => exact docLines_ne_nil b P')
  have h2 : lineStart (docLines P) (docLines P).length = docLen P := by
    have h3 := lineStart_prefix_len (docLines P) []
    rw [List.append_nil, sumLines] at h3
    exact h3
  omega

theorem take_docLines (P : List Block) (R : List Str) (hP : P ≠ []) (hR : R ≠ []) :
    (joinNl (docLines P ++ R)).take (docLen P) = joinNl (docLines P) ++ ['\n'] := by
  have hA : docLines P ≠ [] := by
    cases P with
    | nil => exact absurd rfl hP
    | cons b P' => exact docLines_ne_nil b P'
  rw [joinNl_append _ _ hA hR]
  have h1 : joinNl (docLines P) ++ '\n' :: joinNl R =
      (joinNl (docLines P) ++ ['\n']) ++ joinNl R := by simp
  rw [h1]
  have h2 : (joinNl (docLines P) ++ ['\n']).length = docLen P := by
    rw [List.length_append]
    have := joinNl_docLines_length P hP
    simp
    omega
  rw [← h2, List.take_left]

theorem spanIds_spansSeqQ :
    ∀ (bs : List Block) (b0 : Block) (off0 off : Nat),
      spanIds (spansSeqQ b0 off0 off bs) = (b0 :: bs).map Block.bid := by
  intro bs
  induction bs with
  | nil => intro b0 off0 off; rfl
  | cons b bs' ih =>
    intro b0 off0 off
    show spanIds (spanOf b0 off0 :: spansSeqQ b off (off + blockLen b) bs') = _
    rw [spanIds, List.map_cons]
    have h1 := ih b off (off + blockLen b)
    rw [spanIds] at h1
    rw [h1]
    rfl

theorem spansAll_mem_middle (bk : Block) (Q : List Block) :
    ∀ (P : List Block) (off : Nat),
      spanOf bk (off + docLen P) ∈ spansAll off (P ++ bk :: Q) := by
  intro P
  induction P with
  | nil =>
    intro off
    show spanOf bk (off + 0) ∈ spanOf bk off :: spansAll (off + blockLen bk) Q
    exact List.mem_cons_self _ _
  | cons p P' ih =>
    intro off
    show spanOf bk (off + docLen (p :: P')) ∈
      spanOf p off :: spansAll (off + blockLen p) (P' ++ bk :: Q)
    have h1 : off + docLen (p :: P') = (off + blockLen p) + docLen P' := by
      show off + (blockLen p :: P'.map blockLen).sum = _
      rw [List.sum_cons]
      show off + (blockLen p + docLen P') = _
      omega
    rw [h1]
    exact List.mem_cons_of_mem _ (ih (off + blockLen p))

theorem nodup_middle_not_mem (A B : List Str) (x : Str)
    (h : (A ++ x :: B).Nodup) : x ∉ A ∧ x ∉ B := by
  have hperm : List.Perm (A ++ x :: B) (x :: (A ++ B)) := List.perm_middle
  have h2 := hperm.nodup_iff.mp h
  have h3 := List.nodup_cons.mp h2
  constructor
  · intro hc
    exact h3.1 (List.mem_append_left _ hc)
  · intro hc
    exact h3.1 (List.mem_append_right _ hc)


theorem renderBlocks_decomp (P Q : List Block) (bk : Block) :
    renderBlocks (P ++ bk :: Q) =
      joinNl (docLines P ++ (blockLines bk ++ docLines Q)) := by
  rw [renderBlocks, docLines_append, docLines_cons]

theorem joinNl_blockLines_len (bk : Block) :
    (joinNl (blockLines bk)).length = eOff bk := by
  have h1 : joinNl (blockLines bk) = bItem bk ++ '\n' :: (bMarker bk ++ ['\n']) := by
    rw [blockLines, joinNl_cons _ _ (by simp), joinNl_cons _ _ (by simp)]
    rfl
  rw [h1, eOff]
  simp
  omega

theorem substring_block (P Q : List Block) (bk : Block) :
    substringJs (renderBlocks (P ++ bk :: Q)) (docLen P) (docLen P + eOff bk + 1) =
      joinNl (blockLines bk) ++ (if Q = [] then [] else ['\n']) := by
  rw [renderBlocks_decomp, substringJs,
    Nat.min_eq_left (by omega), Nat.max_eq_right (by omega)]
  rw [drop_docLines]
  have harith : docLen P + eOff bk + 1 - docLen P = eOff bk + 1 := by omega
  rw [harith]
  cases hQ : Q with
  | nil =>
    rw [if_pos rfl]
    show (joinNl (blockLines bk ++ docLines [])).take (eOff bk + 1) = _
    rw [show docLines [] = ([] : List Str) from rfl, List.append_nil,
      List.take_of_length_le (by rw [joinNl_blockLines_len]; omega),
      List.append_nil]
  | cons q Q' =>
    rw [if_neg (by simp)]
    rw [joinNl_append _ _ (by simp [blockLines]) (docLines_ne_nil q Q')]
    have h1 : joinNl (blockLines bk) ++ '\n' :: joinNl (docLines (q :: Q')) =
        (joinNl (blockLines bk) ++ ['\n']) ++ joinNl (docLines (q :: Q')) := by
      simp
    rw [h1]
    have h2 : eOff bk + 1 = (joinNl (blockLines bk) ++ ['\n']).length := by
      rw [List.length_append, joinNl_blockLines_len]
      rfl
    rw [h2, List.take_left]

theorem nlPrefix_dash (z : Str) : (S "\n").isPrefixOf ('-' :: z) = false := by
  simp [S, List.isPrefixOf]

theorem delete_block (P Q : List Block) (bk : Block) (hPQ : P ++ Q ≠ []) :
    deleteEntrySpan (renderBlocks (P ++ bk :: Q)) (spanOf bk (docLen P)) =
      (if Q = [] then renderBlocks P ++ ['\n'] else renderBlocks (P ++ Q)) := by
  rw [deleteEntrySpan, renderBlocks_decomp]
  have hdrop : (joinNl (docLines P ++ (blockLines bk ++ docLines Q))).drop
      ((spanOf bk (docLen P)).endOff + 1) =
      (joinNl (blockLines bk ++ docLines Q)).drop (eOff bk + 1) := by
    show (joinNl (docLines P ++ (blockLines bk ++ docLines Q))).drop
      (docLen P + eOff bk + 1) = _
    rw [show docLen P + eOff bk + 1 = docLen P + (eOff bk + 1) from by omega,
      ← List.drop_drop, drop_docLines]
  rw [hdrop]
  cases hQ : Q with
  | nil =>
    have hP : P ≠ [] := by
      intro hc
      rw [hc, hQ] at hPQ
      exact hPQ rfl
    have hafter : (joinNl (blockLines bk ++ docLines [])).drop (eOff bk + 1) =
        ([] : Str) := by
      rw [show docLines [] = ([] : List Str) from rfl, List.append_nil]
      exact List.drop_eq_nil_of_le (by rw [joinNl_blockLines_len]; omega)
    have hbefore : (joinNl (docLines P ++ (blockLines bk ++ docLines []))).take
        ((spanOf bk (docLen P)).start) = joinNl (docLines P) ++ ['\n'] := by
      show (joinNl (docLines P ++ (blockLines bk ++ docLines []))).take (docLen P) = _
      exact take_docLines P _ hP (by simp [blockLines])
    rw [hafter, hbefore]
    rw [if_neg (fun hc => absurd hc.2 (by decide))]
    rw [if_pos rfl]
    rw [List.append_nil, renderBlocks]
  | cons q Q' =>
    have hafter : (joinNl (blockLines bk ++ docLines (q :: Q'))).drop (eOff bk + 1) =
        joinNl (docLines (q :: Q')) := by
      rw [joinNl_append _ _ (by simp [blockLines]) (docLines_ne_nil q Q')]
      have h1 : joinNl (blockLines bk) ++ '\n' :: joinNl (docLines (q :: Q')) =
          (joinNl (blockLines bk) ++ ['\n']) ++ joinNl (docLines (q :: Q')) := by
        simp
      have h2 : eOff bk + 1 = (joinNl (blockLines bk) ++ ['\n']).length := by
        rw [List.length_append, joinNl_blockLines_len]
        rfl
      rw [h1, h2, List.drop_left]
    have hnopre : (S "\n").isPrefixOf (joinNl (docLines (q :: Q'))) = false := by
      have h3 : docLines (q :: Q') = bItem q :: (bMarker q :: [] :: docLines Q') := rfl
      rw [h3, joinNl_cons _ _ (by simp)]
      rw [show bItem q ++ '\n' :: joinNl (bMarker q :: [] :: docLines Q') =
        '-' :: (' ' :: bLine1 q ++ '\n' :: joinNl (bMarker q :: [] :: docLines Q'))
        from rfl]
      exact nlPrefix_dash _
    rw [hafter]
    rw [if_neg (fun hc => absurd (hnopre ▸ hc.2) (by decide))]
    rw [if_neg (show ¬(q :: Q' = []) from by simp)]
    cases hP : P with
    | nil =>
      have hbefore : (joinNl (docLines [] ++
          (blockLines bk ++ docLines (q :: Q')))).take
          ((spanOf bk (docLen [])).start) = ([] : Str) := rfl
      rw [hbefore]
      rfl
    | cons p P' =>
      have hbefore : (joinNl (docLines (p :: P') ++
          (blockLines bk ++ docLines (q :: Q')))).take
          ((spanOf bk (docLen (p :: P'))).start) =
          joinNl (docLines (p :: P')) ++ ['\n'] := by
        show (joinNl (docLines (p :: P') ++
          (blockLines bk ++ docLines (q :: Q')))).take (docLen (p :: P')) = _
        exact take_docLines (p :: P') _ (by simp) (by simp [blockLines])
      rw [hbefore]
      rw [renderBlocks, docLines_append]
      rw [joinNl_append _ _ (docLines_ne_nil p P') (docLines_ne_nil q Q')]
      simp


theorem joinNl_blockLines (bk : Block) :
    joinNl (blockLines bk) = bItem bk ++ '\n' :: (bMarker bk ++ ['\n']) := by
  rw [blockLines, joinNl_cons _ _ (by simp), joinNl_cons _ _ (by simp)]
  rfl

set_option maxHeartbeats 2000000 in
theorem move_text (fmt : Str) (M : MomentLib) (O : Oracle)
    (P Q : List Block) (bk : Block)
    (hok : ∀ b ∈ P ++ bk :: Q, BlockOK M fmt b)
    (hnodup : ((P ++ bk :: Q).map Block.bid).Nodup)
    (hPQ : P ++ Q ≠ []) :
    moveToArchive (renderBlocks (P ++ bk :: Q)) (spanOf bk (docLen P)) fmt M O =
      joinNl (docLines (P ++ Q) ++
        ([S "***", S "## Archive", bItem bk, bMarker bk] ++
          List.replicate (if Q = [] then 2 else 3) [])) := by
  rw [moveToArchive]
  rw [parse_blocks fmt M O (P ++ bk :: Q) (by simp) hok hnodup]
  dsimp only
  have hfind : ∃ e, ((P ++ bk :: Q).map entryOf).find?
      (fun e => e.id = (spanOf bk (docLen P)).id) = some e := by
    cases hf : ((P ++ bk :: Q).map entryOf).find?
        (fun e => e.id = (spanOf bk (docLen P)).id) with
    | some e => exact ⟨e, rfl⟩
    | none =>
      exfalso
      have hmem : entryOf bk ∈ (P ++ bk :: Q).map entryOf :=
        List.mem_map.mpr ⟨bk, by simp, rfl⟩
      have h2 := List.find?_eq_none.mp hf _ hmem
      apply h2
      simp [entryOf, spanOf]
  obtain ⟨e, hf⟩ := hfind
  rw [hf]
  dsimp only
  have hsub : substringJs (renderBlocks (P ++ bk :: Q)) (spanOf bk (docLen P)).start
      ((spanOf bk (docLen P)).endOff + 1) =
      joinNl (blockLines bk) ++ (if Q = [] then [] else ['\n']) :=
    substring_block P Q bk
  rw [hsub, delete_block P Q bk hPQ]
  rw [if_pos (show (-1 : Int) < 0 from by decide)]
  have htd : trimEndJs (if Q = [] then renderBlocks P ++ ['\n']
      else renderBlocks (P ++ Q)) = joinNl (docAll (P ++ Q)) := by
    cases hQ : Q with
    | nil =>
      have hP : P ≠ [] := by
        intro hc
        rw [hc, hQ] at hPQ
        exact hPQ rfl
      rw [if_pos rfl, trimEndJs_append_nl,
        trimEnd_render P hP (fun b hb => (hok b (by simp [hb])).2.2.2.2.1),
        List.append_nil]
    | cons q Q' =>
      rw [if_neg (by simp)]
      exact trimEnd_render (P ++ q :: Q') (by simp)
        (fun b hb => (hok b (by
          rw [hQ]
          rcases List.mem_append.mp hb with h | h
          · exact List.mem_append_left _ h
          · exact List.mem_append_right _ (List.mem_cons_of_mem _ h))).2.2.2.2.1)
  rw [htd]
  have htd2 : trimEndJs (joinNl (docAll (P ++ Q)) ++ S "\n\n***\n## Archive\n\n") =
      joinNl (docAll (P ++ Q)) ++ S "\n\n***\n## Archive" := by
    have e1 : (S "\n\n***\n## Archive\n\n" : Str) =
        S "\n\n***\n## Archive" ++ ['\n'] ++ ['\n'] := by decide
    rw [e1]
    rw [show joinNl (docAll (P ++ Q)) ++
        (S "\n\n***\n## Archive" ++ ['\n'] ++ ['\n']) =
        ((joinNl (docAll (P ++ Q)) ++ S "\n\n***\n## Archive") ++ ['\n']) ++ ['\n']
      from by simp]
    rw [trimEndJs_append_nl, trimEndJs_append_nl]
    have e2 : joinNl (docAll (P ++ Q)) ++ S "\n\n***\n## Archive" =
        (joinNl (docAll (P ++ Q)) ++ S "\n\n***\n") ++ S "## Archive" := by
      rw [List.append_assoc,
        show (S "\n\n***\n" ++ S "## Archive" : Str) = S "\n\n***\n## Archive"
          from by decide]
    rw [e2, trimEndJs_append_of_right _ _ (by decide) (by decide), ← e2]
  rw [htd2]
  -- normalize the right-hand side
  have hr1 : docLines (P ++ Q) ++
      ([S "***", S "## Archive", bItem bk, bMarker bk] ++
        List.replicate (if Q = [] then 2 else 3) []) =
      docAll (P ++ Q) ++ ([] :: ([S "***", S "## Archive", bItem bk, bMarker bk] ++
        List.replicate (if Q = [] then 2 else 3) [])) := by
    rw [docLines_eq_docAll _ hPQ]
    simp
  rw [hr1, joinNl_append _ _ (docAll_ne_nil _ hPQ) (by simp)]
  rw [joinNl_blockLines]
  have e3 : (S "\n\n***\n## Archive" : Str) =
      ['\n', '\n'] ++ S "***" ++ ['\n'] ++ S "## Archive" := by decide
  rw [e3]
  cases hQ : Q with
  | nil =>
    rw [if_pos rfl, if_pos rfl]
    have hl : ([S "***", S "## Archive", bItem bk, bMarker bk] ++
        List.replicate 2 [] : List Str) =
        [S "***", S "## Archive", bItem bk, bMarker bk, [], []] := rfl
    rw [hl]
    have hr3 : joinNl [[], S "***", S "## Archive", bItem bk, bMarker bk, [], []] =
        '\n' :: (S "***" ++ '\n' :: (S "## Archive" ++ '\n' ::
          (bItem bk ++ '\n' :: (bMarker bk ++ ['\n', '\n'])))) := by
      rw [joinNl_cons _ _ (by simp), joinNl_cons _ _ (by simp),
        joinNl_cons _ _ (by simp), joinNl_cons _ _ (by simp),
        joinNl_cons _ _ (by simp), joinNl_cons _ _ (by simp)]
      rfl
    rw [hr3]
    simp
  | cons q Q' =>
    rw [if_neg (by simp), if_neg (by simp)]
    have hl : ([S "***", S "## Archive", bItem bk, bMarker bk] ++
        List.replicate 3 [] : List Str) =
        [S "***", S "## Archive", bItem bk, bMarker bk, [], [], []] := rfl
    rw [hl]
    have hr3 : joinNl [[], S "***", S "## Archive", bItem bk, bMarker bk, [], [], []] =
        '\n' :: (S "***" ++ '\n' :: (S "## Archive" ++ '\n' ::
          (bItem bk ++ '\n' :: (bMarker bk ++ ['\n', '\n', '\n'])))) := by
      rw [joinNl_cons _ _ (by simp), joinNl_cons _ _ (by simp),
        joinNl_cons _ _ (by simp), joinNl_cons _ _ (by simp),
        joinNl_cons _ _ (by simp), joinNl_cons _ _ (by simp),
        joinNl_cons _ _ (by simp)]
      rfl
    rw [hr3]
    simp


set_option maxHeartbeats 1000000 in
theorem scanLines_blanks (fmt : Str) (M : MomentLib) (O : Oracle) :
    ∀ (r : Nat) (st : ScanState) (p : RawEntry),
      st.currentEntry = some p → st.inFrontmatter = false →
      scanLines fmt M O st (List.replicate r []) =
        { st with
          currentEntry := some ⟨p.lines ++ List.replicate r [], p.startOffset,
            if r = 0 then p.endOffset else st.lineOffset + (r - 1)⟩,
          lineOffset := st.lineOffset + r } := by
  intro r
  induction r with
  | zero =>
    intro st p hce hfm
    show st = _
    have h1 : (⟨p.lines ++ List.replicate 0 [], p.startOffset,
        if 0 = 0 then p.endOffset else st.lineOffset + (0 - 1)⟩ : RawEntry) = p := by
      simp
    rw [h1]
    rw [← hce]
    rfl
  | succ r ih =>
    intro st p hce hfm
    rw [List.replicate_succ, scanLines]
    rw [scanStep_cont fmt M O st [] p hce (by decide) hfm (by decide) (by decide)
      (by decide) (Or.inr (by decide))]
    rw [ih { st with
        currentEntry := some ⟨p.lines ++
            [if (S "  ").isPrefixOf [] then List.drop 2 [] else []],
          p.startOffset, st.lineOffset + List.length ([] : Str)⟩,
        lineOffset := st.lineOffset + List.length ([] : Str) + 1 }
      ⟨p.lines ++ [if (S "  ").isPrefixOf [] then List.drop 2 [] else []],
        p.startOffset, st.lineOffset + List.length ([] : Str)⟩ rfl hfm]
    rw [if_neg (show ¬((S "  ").isPrefixOf [] = true) from by decide)]
    cases r with
    | zero =>
      simp [ScanState.mk.injEq, RawEntry.mk.injEq]
    | succ r' =>
      simp [ScanState.mk.injEq, RawEntry.mk.injEq, List.append_assoc,
        List.replicate_succ]
      omega


def aOff (lo : Nat) : Nat := lo + (S "***").length + 1 + (S "## Archive").length + 1

def tailSB (FL : ScanState) (lo : Nat) : ScanState :=
  { FL with
    archiveStartOffset := (lo : Int)
    inArchive := true
    lineOffset := lo + (S "***").length + 1 }

def tailSC (FL : ScanState) (lo : Nat) : ScanState :=
  { FL with
    archiveStartOffset := (lo : Int)
    inArchive := true
    lineOffset := aOff lo }

def tailSD (FL : ScanState) (bk : Block) (lo : Nat) : ScanState :=
  { FL with
    archiveStartOffset := (lo : Int)
    inArchive := true
    currentEntry := some (pendingOf bk (aOff lo))
    lineOffset := aOff lo + blockLen bk }

def tailRaw (bk : Block) (lo r : Nat) : RawEntry :=
  ⟨[bLine1 bk, '^' :: bk.bid, []] ++ List.replicate (r - 1) [], aOff lo,
    if r - 1 = 0 then aOff lo + eOff bk else aOff lo + blockLen bk + (r - 1 - 1)⟩

def tailSE (FL : ScanState) (bk : Block) (lo r : Nat) : ScanState :=
  { FL with
    archiveStartOffset := (lo : Int)
    inArchive := true
    currentEntry := some (tailRaw bk lo r)
    lineOffset := aOff lo + blockLen bk + (r - 1) }

set_option maxHeartbeats 4000000 in
theorem scan_tail (fmt : Str) (M : MomentLib) (O : Oracle)
    (st FL : ScanState) (bk : Block) (r : Nat)
    (hbk : BlockOK M fmt bk) (hr : r = 2 ∨ r = 3)
    (hflush : finalizePendingRouted fmt M O st = FL)
    (hFLfm : FL.inFrontmatter = false)
    (hFLce : FL.currentEntry = none)
    (hFLia : FL.inArchive = false)
    (hfresh : bk.bid ∉ spanIds FL.spans) :
    (finalizePendingRouted fmt M O (scanLines fmt M O st
        (S "***" :: S "## Archive" ::
          ([bItem bk, bMarker bk] ++ List.replicate r [])))).entries =
      FL.entries ∧
    (finalizePendingRouted fmt M O (scanLines fmt M O st
        (S "***" :: S "## Archive" ::
          ([bItem bk, bMarker bk] ++ List.replicate r [])))).archiveEntries =
      FL.archiveEntries ++ [entryOf bk] := by
  obtain ⟨hnl1, hnl2, hW, hbody, hmk, hetp, hsbc, hfbm, hm9, hm10, hmLi,
    hi9, hi10, hshapes⟩ := hbk
  have hbk2 : BlockOK M fmt bk :=
    ⟨hnl1, hnl2, hW, hbody, hmk, hetp, hsbc, hfbm, hm9, hm10, hmLi,
      hi9, hi10, hshapes⟩
  have hstfm : st.inFrontmatter = false := by
    have h1 := (routed_fields fmt M O st).1
    rw [hflush] at h1
    rw [← h1]
    exact hFLfm
  have hstia : st.inArchive = false := by
    have h1 := (routed_fields fmt M O st).2.1
    rw [hflush] at h1
    rw [← h1]
    exact hFLia
  have e1 : scanStep fmt M O st (S "***") = tailSB FL st.lineOffset := by
    rw [scanStep_sep fmt M O st (S "***") (by decide) hstfm (by decide)]
    rw [← routed_eq_toEntries fmt M O st hstia, hflush]
    rfl
  have e2 : scanStep fmt M O (tailSB FL st.lineOffset) (S "## Archive") =
      tailSC FL st.lineOffset := by
    rw [scanStep_archHdr fmt M O (tailSB FL st.lineOffset) (S "## Archive")
      (by decide) hFLfm (by decide) rfl (by decide)]
    rfl
  have e3 : scanLines fmt M O (tailSC FL st.lineOffset) (blockLines bk) =
      tailSD FL bk st.lineOffset := by
    rw [scan_block_none fmt M O bk (tailSC FL st.lineOffset) hbk2 hFLfm hFLce]
    rfl
  have e4 : scanLines fmt M O (tailSD FL bk st.lineOffset)
      (List.replicate (r - 1) []) = tailSE FL bk st.lineOffset r := by
    rw [scanLines_blanks fmt M O (r - 1) (tailSD FL bk st.lineOffset)
      (pendingOf bk (aOff st.lineOffset)) rfl hFLfm]
    rfl
  have hlines : ([bLine1 bk, '^' :: bk.bid, []] ++ List.replicate (r - 1) []
      : List Str) = [bLine1 bk, '^' :: bk.bid] ++ List.replicate r [] := by
    rcases hr with rfl | rfl
    · rfl
    · rfl
  obtain ⟨hSL, hSBC, htr⟩ := hshapes r (by rcases hr with rfl | rfl <;> simp)
  have hfe := finalize_shape fmt M O
    ([bLine1 bk, '^' :: bk.bid, []] ++ List.replicate (r - 1) []) bk
    (aOff st.lineOffset)
    (if r - 1 = 0 then aOff st.lineOffset + eOff bk
      else aOff st.lineOffset + blockLen bk + (r - 1 - 1))
    FL.spans FL.errors (by simp) (hlines ▸ hSL) (hlines ▸ hSBC) (hlines ▸ htr)
    hW hetp hsbc hbody hfresh
  have hfe2 : finalizeEntry (tailRaw bk st.lineOffset r) fmt
      (tailSE FL bk st.lineOffset r).spans (tailSE FL bk st.lineOffset r).errors
      M O = (some (entryOf bk),
        FL.spans ++ [⟨bk.bid, aOff st.lineOffset,
          if r - 1 = 0 then aOff st.lineOffset + eOff bk
          else aOff st.lineOffset + blockLen bk + (r - 1 - 1)⟩],
        FL.errors) := hfe
  have e5 := routed_push_known fmt M O (tailSE FL bk st.lineOffset r)
    (tailRaw bk st.lineOffset r) (entryOf bk)
    (FL.spans ++ [⟨bk.bid, aOff st.lineOffset,
      if r - 1 = 0 then aOff st.lineOffset + eOff bk
      else aOff st.lineOffset + blockLen bk + (r - 1 - 1)⟩])
    FL.errors rfl hfe2
  have hL : (S "***" :: S "## Archive" ::
      ([bItem bk, bMarker bk] ++ List.replicate r []) : List Str) =
      [S "***", S "## Archive"] ++ (blockLines bk ++ List.replicate (r - 1) []) := by
    rcases hr with rfl | rfl
    · rfl
    · rfl
  have e12 : scanLines fmt M O st [S "***", S "## Archive"] =
      tailSC FL st.lineOffset := by
    simp only [scanLines]
    rw [e1, e2]
  rw [hL, scanLines_append, scanLines_append, e12, e3, e4, e5]
  exact ⟨rfl, rfl⟩

theorem parse_entries_eq (t fmt : Str) (M : MomentLib) (O : Oracle) :
    (parseMomentsDoc t fmt M O).entries =
      (finalizePendingRouted fmt M O
        (scanLines fmt M O initState (splitNl t))).entries := rfl

theorem parse_archive_eq (t fmt : Str) (M : MomentLib) (O : Oracle) :
    (parseMomentsDoc t fmt M O).archiveEntries =
      (finalizePendingRouted fmt M O
        (scanLines fmt M O initState (splitNl t))).archiveEntries := rfl

set_option maxHeartbeats 4000000 in
theorem parse_move (fmt : Str) (M : MomentLib) (O : Oracle)
    (P Q : List Block) (bk : Block)
    (hok : ∀ b ∈ P ++ bk :: Q, BlockOK M fmt b)
    (hnodup : ((P ++ bk :: Q).map Block.bid).Nodup)
    (hPQ : P ++ Q ≠ []) :
    (parseMomentsDoc (moveToArchive (renderBlocks (P ++ bk :: Q))
        (spanOf bk (docLen P)) fmt M O) fmt M O).entries =
      (P ++ Q).map entryOf ∧
    (parseMomentsDoc (moveToArchive (renderBlocks (P ++ bk :: Q))
        (spanOf bk (docLen P)) fmt M O) fmt M O).archiveEntries =
      [entryOf bk] := by
  have hokPQ : ∀ b ∈ P ++ Q, BlockOK M fmt b := by
    intro b hb
    apply hok
    rcases List.mem_append.mp hb with h | h
    · exact List.mem_append_left _ h
    · exact List.mem_append_right _ (List.mem_cons_of_mem _ h)
  have hbkOK : BlockOK M fmt bk := hok bk (by simp)
  have hnodupPQ : ((P ++ Q).map Block.bid).Nodup := by
    have hsub : List.Sublist (P ++ Q) (P ++ bk :: Q) :=
      (List.sublist_cons_self bk Q).append_left P
    exact hnodup.sublist (hsub.map Block.bid)
  have hfreshbk : bk.bid ∉ (P ++ Q).map Block.bid := by
    have hnodup2 := hnodup
    rw [List.map_append, List.map_cons] at hnodup2
    have h2 := nodup_middle_not_mem _ _ _ hnodup2
    rw [List.map_append]
    intro hc
    rcases List.mem_append.mp hc with h | h
    · exact h2.1 h
    · exact h2.2 h
  rw [move_text fmt M O P Q bk hok hnodup hPQ]
  obtain ⟨r, hrEq, hr⟩ : ∃ r, (if Q = [] then 2 else 3) = r ∧
      (r = 2 ∨ r = 3) := by
    by_cases hq : Q = []
    · exact ⟨2, by rw [if_pos hq], Or.inl rfl⟩
    · exact ⟨3, by rw [if_neg hq], Or.inr rfl⟩
  rw [hrEq]
  have hLnl : ∀ l ∈ docLines (P ++ Q) ++
      ([S "***", S "## Archive", bItem bk, bMarker bk] ++ List.replicate r []),
      '\n' ∉ l := by
    intro l hl
    rcases List.mem_append.mp hl with h | h
    · exact docLines_no_nl M fmt _ hokPQ l h
    · rcases List.mem_append.mp h with h2 | h2
      · obtain ⟨hnl1, hnl2, _⟩ := hbkOK
        simp only [List.mem_cons, List.not_mem_nil, or_false] at h2
        rcases h2 with rfl | rfl | rfl | rfl
        · decide
        · decide
        · simp [bItem, hnl1]
        · intro hc
          simp only [bMarker, List.mem_cons] at hc
          rcases hc with h3 | h3 | h3 | h3
          · exact absurd h3 (by decide)
          · exact absurd h3 (by decide)
          · exact absurd h3 (by decide)
          · exact hnl2 h3
      · rw [List.eq_of_mem_replicate h2]
        simp
  obtain ⟨p0, rest, hPQ2⟩ := List.exists_cons_of_ne_nil hPQ
  have hp0 : BlockOK M fmt p0 := hokPQ p0 (by rw [hPQ2]; simp)
  have hflush := scan_doc_flush fmt M O rest
    { initState with
      currentEntry := some (pendingOf p0 initState.lineOffset),
      lineOffset := initState.lineOffset + blockLen p0 }
    p0 initState.lineOffset
    (fun x hx => hokPQ x (by rw [hPQ2]; simp [hx]))
    hp0
    (by rw [← hPQ2]; exact hnodupPQ)
    (by intro x hx; simp [initState, spanIds])
    rfl rfl
  have htail := scan_tail fmt M O
    (scanLines fmt M O
      { initState with
        currentEntry := some (pendingOf p0 initState.lineOffset),
        lineOffset := initState.lineOffset + blockLen p0 }
      (docLines rest))
    _ bk r hbkOK hr hflush rfl rfl rfl
    (by
      have h1 : spanIds (spansSeqQ p0 initState.lineOffset
          (initState.lineOffset + blockLen p0) rest) =
          (p0 :: rest).map Block.bid := spanIds_spansSeqQ rest p0 _ _
      show bk.bid ∉ spanIds (List.nil ++ spansSeqQ p0 initState.lineOffset
        (initState.lineOffset + blockLen p0) rest)
      rw [List.nil_append, h1, ← hPQ2]
      exact hfreshbk)
  have hT : ([S "***", S "## Archive", bItem bk, bMarker bk] ++
      List.replicate r [] : List Str) =
      S "***" :: S "## Archive" ::
        ([bItem bk, bMarker bk] ++ List.replicate r []) := rfl
  refine ⟨?_, ?_⟩
  · rw [parse_entries_eq, splitNl_joinNl _ (by simp) hLnl, hPQ2, docLines_cons,
      List.append_assoc, hT, scanLines_append, scanLines_append,
      scan_block_none fmt M O p0 initState hp0 rfl rfl, htail.1]
    rfl
  · rw [parse_archive_eq, splitNl_joinNl _ (by simp) hLnl, hPQ2, docLines_cons,
      List.append_assoc, hT, scanLines_append, scanLines_append,
      scan_block_none fmt M O p0 initState hp0 rfl rfl, htail.2]
    rfl

/--
C8.  As stated the archive-move claim is false (`C8_counterexample`):
with a duplicate `^` marker the spans map (last-write-wins) hands out the
*archived* copy's span for the active entry's id, and moving that span
leaves an active entry with the moved id behind.  Amended: over canonical
well-formed documents with pairwise-distinct ids — blocks `P ++ bk :: Q`
with at least one block besides `bk` — the parser's span for `bk` is
`spanOf bk (docLen P)`; moving it and re-parsing puts exactly `entryOf bk`
(same id, same `raw` as the entry parsed from the original document) into
`archiveEntries`, leaves exactly the remaining blocks' entries active with
no active entry carrying the moved id, and preserves the total entry
count across both lists.
-/
theorem C8_amended (fmt : Str) (M : MomentLib) (O : Oracle)
    (P Q : List Block) (bk : Block)
    (hok : ∀ b ∈ P ++ bk :: Q, BlockOK M fmt b)
    (hnodup : ((P ++ bk :: Q).map Block.bid).Nodup)
    (hPQ : P ++ Q ≠ []) :
    spanOf bk (docLen P) ∈
      (parseMomentsDoc (renderBlocks (P ++ bk :: Q)) fmt M O).spans ∧
    entryOf bk ∈
      (parseMomentsDoc (renderBlocks (P ++ bk :: Q)) fmt M O).entries ∧
    (parseMomentsDoc (moveToArchive (renderBlocks (P ++ bk :: Q))
        (spanOf bk (docLen P)) fmt M O) fmt M O).archiveEntries =
      [entryOf bk] ∧
    (parseMomentsDoc (moveToArchive (renderBlocks (P ++ bk :: Q))
        (spanOf bk (docLen P)) fmt M O) fmt M O).entries =
      (P ++ Q).map entryOf ∧
    (∀ e ∈ (parseMomentsDoc (moveToArchive (renderBlocks (P ++ bk :: Q))
        (spanOf bk (docLen P)) fmt M O) fmt M O).entries, e.id ≠ bk.bid) ∧
    (parseMomentsDoc (moveToArchive (renderBlocks (P ++ bk :: Q))
          (spanOf bk (docLen P)) fmt M O) fmt M O).entries.length +
      (parseMomentsDoc (moveToArchive (renderBlocks (P ++ bk :: Q))
          (spanOf bk (docLen P)) fmt M O) fmt M O).archiveEntries.length =
      (parseMomentsDoc (renderBlocks (P ++ bk :: Q)) fmt M O).entries.length +
        (parseMomentsDoc (renderBlocks (P ++ bk :: Q))
          fmt M O).archiveEntries.length := by
  have hD := parse_blocks fmt M O (P ++ bk :: Q) (by simp) hok hnodup
  have hmv := parse_move fmt M O P Q bk hok hnodup hPQ
  have hfreshbk : bk.bid ∉ (P ++ Q).map Block.bid := by
    have hnodup2 := hnodup
    rw [List.map_append, List.map_cons] at hnodup2
    have h2 := nodup_middle_not_mem _ _ _ hnodup2
    rw [List.map_append]
    intro hc
    rcases List.mem_append.mp hc with h | h
    · exact h2.1 h
    · exact h2.2 h
  refine ⟨?_, ?_, hmv.2, hmv.1, ?_, ?_⟩
  · have h1 := spansAll_mem_middle bk Q P 0
    rw [Nat.zero_add] at h1
    rw [hD]
    exact h1
  · rw [hD]
    exact List.mem_map_of_mem entryOf (by simp)
  · intro e he hc
    rw [hmv.1] at he
    obtain ⟨b, hb, rfl⟩ := List.mem_map.mp he
    have hid : b.bid = bk.bid := hc
    exact hfreshbk (hid ▸ List.mem_map_of_mem Block.bid hb)
  · rw [hmv.1, hmv.2, hD]
    simp
    omega

set_option maxHeartbeats 1000000 in
theorem C8_amended_witness :
    spanOf (Block.mk (S "T") (S "ho") (S "m-bb") 0) (docLen [Block.mk (S "T") (S "hi") (S "m-aa") 0]) ∈ (parseMomentsDoc (renderBlocks ([Block.mk (S "T") (S "hi") (S "m-aa") 0] ++ Block.mk (S "T") (S "ho") (S "m-bb") 0 :: []))
        (S "F") mpT oracleA).spans ∧
    entryOf (Block.mk (S "T") (S "ho") (S "m-bb") 0) ∈ (parseMomentsDoc (renderBlocks ([Block.mk (S "T") (S "hi") (S "m-aa") 0] ++ Block.mk (S "T") (S "ho") (S "m-bb") 0 :: []))
        (S "F") mpT oracleA).entries ∧
    (parseMomentsDoc (moveToArchive (renderBlocks ([Block.mk (S "T") (S "hi") (S "m-aa") 0] ++ Block.mk (S "T") (S "ho") (S "m-bb") 0 :: []))
        (spanOf (Block.mk (S "T") (S "ho") (S "m-bb") 0) (docLen [Block.mk (S "T") (S "hi") (S "m-aa") 0])) (S "F") mpT oracleA) (S "F") mpT oracleA).archiveEntries = [entryOf (Block.mk (S "T") (S "ho") (S "m-bb") 0)] ∧
    (parseMomentsDoc (moveToArchive (renderBlocks ([Block.mk (S "T") (S "hi") (S "m-aa") 0] ++ Block.mk (S "T") (S "ho") (S "m-bb") 0 :: []))
        (spanOf (Block.mk (S "T") (S "ho") (S "m-bb") 0) (docLen [Block.mk (S "T") (S "hi") (S "m-aa") 0])) (S "F") mpT oracleA) (S "F") mpT oracleA).entries = ([Block.mk (S "T") (S "hi") (S "m-aa") 0] ++ []).map entryOf ∧
    (∀ e ∈ (parseMomentsDoc (moveToArchive (renderBlocks ([Block.mk (S "T") (S "hi") (S "m-aa") 0] ++ Block.mk (S "T") (S "ho") (S "m-bb") 0 :: []))
        (spanOf (Block.mk (S "T") (S "ho") (S "m-bb") 0) (docLen [Block.mk (S "T") (S "hi") (S "m-aa") 0])) (S "F") mpT oracleA) (S "F") mpT oracleA).entries, e.id ≠ (Block.mk (S "T") (S "ho") (S "m-bb") 0).bid) ∧
    (parseMomentsDoc (moveToArchive (renderBlocks ([Block.mk (S "T") (S "hi") (S "m-aa") 0] ++ Block.mk (S "T") (S "ho") (S "m-bb") 0 :: []))
        (spanOf (Block.mk (S "T") (S "ho") (S "m-bb") 0) (docLen [Block.mk (S "T") (S "hi") (S "m-aa") 0])) (S "F") mpT oracleA) (S "F") mpT oracleA).entries.length + (parseMomentsDoc (moveToArchive (renderBlocks ([Block.mk (S "T") (S "hi") (S "m-aa") 0] ++ Block.mk (S "T") (S "ho") (S "m-bb") 0 :: []))
        (spanOf (Block.mk (S "T") (S "ho") (S "m-bb") 0) (docLen [Block.mk (S "T") (S "hi") (S "m-aa") 0])) (S "F") mpT oracleA) (S "F") mpT oracleA).archiveEntries.length =
      (parseMomentsDoc (renderBlocks ([Block.mk (S "T") (S "hi") (S "m-aa") 0] ++ Block.mk (S "T") (S "ho") (S "m-bb") 0 :: []))
        (S "F") mpT oracleA).entries.length + (parseMomentsDoc (renderBlocks ([Block.mk (S "T") (S "hi") (S "m-aa") 0] ++ Block.mk (S "T") (S "ho") (S "m-bb") 0 :: []))
        (S "F") mpT oracleA).archiveEntries.length :=
  C8_amended (S "F") mpT oracleA
    [Block.mk (S "T") (S "hi") (S "m-aa") 0] [] (Block.mk (S "T") (S "ho") (S "m-bb") 0)
    (by decide) (by decide) (by simp)

end Moments
